import Mathlib

/-!
# thermotools TRAM kernels (`ext/tram/_tram.c`)

A shallow embedding of the four C functions `_set_lognu`, `_iterate_lognu`,
`_iterate_fki` and `_f_ground_state`, and theorems about them.

Modelling conventions.

* A `double *` or `int *` argument is a map from a non-negative index to a value
  (`Nat → α`, `Nat → Int`, `Nat → Nat`); a store `a[p] = v` is `Function.update a p v`.
* A `for (k = 0; k < n; ++k)` loop is a left fold over `List.range n`.
* A C `int` is 32 bits wide.  The value of an `int` variable is an integer (`Int`), and
  an `int` addition or subtraction on the data (`sum += ...`, `Ci += ...`,
  `CK = CKij + CKji`, `NC = N_K_i[Ki] - Ci`) is the mathematical one followed by
  `wrapInt`, the reduction to 32 bits in two's complement, which is what the usual
  targets do on signed overflow.  Dimensions, loop counters, array offsets and the
  state indices `M_x[x]` are natural numbers.
* The programs are written once, for any carrier `α` of `double` values that offers
  the operations of the class `CDouble`.  The theorems are about the carrier `Dbl`:
  the IEEE-754 special values around exact real numbers, with exact (unrounded)
  arithmetic.
* `_lse.h` and `_tram.h` are not part of the sources: `_logsumexp`, `_logsumexp_pair`
  are operations of `CDouble`, and the constants `THERMOTOOLS_TRAM_PRIOR`,
  `THERMOTOOLS_TRAM_LOG_PRIOR` are the parameters `PRIOR`, `LOG_PRIOR`.
* Which arguments the calls of `log` receive is read off a run over the carrier
  `Traced`, which keeps, next to each exact value, the arguments of the `log` calls
  behind it.
* Array bounds are the subject of a second transliteration (`..._checked`), in which a
  buffer has a length and an access outside it makes the run undefined.
-/

/-! ## The carrier of `double` values -/

/-- The operations on `double` that `_tram.c` uses: `+`, binary and unary `-`, the
conversion `(double) n` of an `int`, `log` of `math.h`, the constant `INFINITY`, and
the two functions declared in `_lse.h`. -/
class CDouble (α : Type) extends Add α, Sub α, Neg α where
  /-- The conversion `(double) n`. -/
  ofInt : Int → α
  /-- The function `log` of `math.h`. -/
  log : α → α
  /-- The constant `INFINITY` of `math.h`. -/
  INFINITY : α
  /-- The call `_logsumexp(array, length)`. -/
  _logsumexp : (Nat → α) → Nat → α
  /-- The call `_logsumexp_pair(a, b)`. -/
  _logsumexp_pair : α → α → α

open CDouble

/-- An exact `double`: not-a-number, minus infinity, a real number, plus infinity. -/
inductive Dbl : Type where
  | nan : Dbl
  | ninf : Dbl
  | fin (r : ℝ) : Dbl
  | pinf : Dbl

namespace Dbl

/-- IEEE-754 negation. -/
def neg : Dbl → Dbl
  | nan => nan
  | ninf => pinf
  | fin r => fin (-r)
  | pinf => ninf

/-- IEEE-754 addition without rounding: a NaN operand gives NaN, and so does the sum
of the two infinities of opposite sign. -/
def add : Dbl → Dbl → Dbl
  | nan, _ => nan
  | _, nan => nan
  | pinf, ninf => nan
  | ninf, pinf => nan
  | pinf, _ => pinf
  | _, pinf => pinf
  | ninf, _ => ninf
  | _, ninf => ninf
  | fin a, fin b => fin (a + b)

/-- IEEE-754 subtraction without rounding, `a - b = a + (-b)`. -/
def sub (a b : Dbl) : Dbl := add a (neg b)

/-- The exponential of `math.h` without rounding: `exp(-inf) = 0`, `exp(+inf) = +inf`. -/
noncomputable def exp : Dbl → Dbl
  | nan => nan
  | ninf => fin 0
  | fin r => fin (Real.exp r)
  | pinf => pinf

/-- The logarithm of `math.h` without rounding: NaN below zero, `log(0) = -inf`,
`log(+inf) = +inf`. -/
noncomputable def log : Dbl → Dbl
  | nan => nan
  | ninf => nan
  | fin r => if r < 0 then nan else if r = 0 then ninf else fin (Real.log r)
  | pinf => pinf

/-- The sum of the exponentials of a list of values, accumulated from `0.0`. -/
noncomputable def sumExpList (l : List Dbl) : Dbl :=
  l.foldl (fun s x => add s (exp x)) (fin 0)

/-- The sum `exp(a[0]) + ... + exp(a[n-1])`, accumulated from `0.0`. -/
noncomputable def sumExp (a : Nat → Dbl) (n : Nat) : Dbl :=
  sumExpList ((List.range n).map a)

/-- Modelled from the spec: `_logsumexp` of the missing `_lse.c`, which the spec
describes as the "computation of log(Σ exp(x_i)) over a sequence"; here it is that
formula, evaluated without rounding. -/
noncomputable def logsumexp (a : Nat → Dbl) (n : Nat) : Dbl := log (sumExp a n)

/-- Modelled from the spec: `_logsumexp_pair` of the missing `_lse.c`, the "pairwise
specialization log(exp(a)+exp(b))", evaluated without rounding. -/
noncomputable def logsumexp_pair (a b : Dbl) : Dbl := log (add (exp a) (exp b))

end Dbl

/-- The exact carrier as an instance of the operations of `_tram.c`. -/
noncomputable instance Dbl.instCDouble : CDouble Dbl where
  add := Dbl.add
  sub := Dbl.sub
  neg := Dbl.neg
  ofInt := fun z => Dbl.fin (z : ℝ)
  log := Dbl.log
  INFINITY := Dbl.pinf
  _logsumexp := Dbl.logsumexp
  _logsumexp_pair := Dbl.logsumexp_pair

/-! ## The C type `int` -/

/-- The value an `int` variable holds after it is assigned the mathematical result `z`
of an `int` addition or subtraction: `z` reduced to 32 bits in two's complement, that is
to the range `-2147483648 .. 2147483647`. -/
def wrapInt (z : Int) : Int := (z + 2147483648) % 4294967296 - 2147483648

/-! ## The programs -/

section Programs

variable {α : Type} [CDouble α]

/-- `_set_lognu` (source lines 31-48).  Returns the array `log_nu_K_i` after the call. -/
def _set_lognu (PRIOR : α) (log_nu_K_i : Nat → α) (C_K_ij : Nat → Int)
    (n_therm_states n_markov_states : Nat) : Nat → α :=
  let MM := n_markov_states * n_markov_states
  (List.range n_therm_states).foldl (fun log_nu_K_i K =>
    let KMM := K * MM
    (List.range n_markov_states).foldl (fun log_nu_K_i i =>
      let sum := (List.range n_markov_states).foldl
        (fun sum j => wrapInt (sum + C_K_ij (KMM + i * n_markov_states + j))) 0
      Function.update log_nu_K_i (K * n_markov_states + i) (log (PRIOR + ofInt sum)))
      log_nu_K_i) log_nu_K_i

/-- The body of the `j` loop of `_iterate_lognu` (source lines 68-82).  The state is
`(scratch_M, o)`. -/
def _iterate_lognu_j (PRIOR LOG_PRIOR : α) (log_nu_K_i f_K_i : Nat → α) (C_K_ij : Nat → Int)
    (n_markov_states KM KMM i : Nat) (st : (Nat → α) × Nat) (j : Nat) : (Nat → α) × Nat :=
  let scratch_M := st.1
  let o := st.2
  let Ki := KM + i
  let CKij := C_K_ij (KMM + i * n_markov_states + j)
  if i = j then
    (Function.update scratch_M o
      (if 0 = CKij then LOG_PRIOR else log (PRIOR + ofInt CKij)), o + 1)
  else
    let CK := wrapInt (CKij + C_K_ij (KMM + j * n_markov_states + i))
    if 0 = CK then (scratch_M, o)
    else
      let Kj := KM + j
      let divisor := _logsumexp_pair (log_nu_K_i Kj - f_K_i Ki) (log_nu_K_i Ki - f_K_i Kj)
      (Function.update scratch_M o
        (log (ofInt CK) + log_nu_K_i Ki - f_K_i Kj - divisor), o + 1)

/-- The `j` loop of `_iterate_lognu` (source lines 65-83): `o = 0`, then the loop.
Returns `(scratch_M, o)`. -/
def _iterate_lognu_scratch (PRIOR LOG_PRIOR : α) (log_nu_K_i f_K_i : Nat → α)
    (C_K_ij : Nat → Int) (n_markov_states KM KMM i : Nat) (scratch_M : Nat → α) :
    (Nat → α) × Nat :=
  (List.range n_markov_states).foldl
    (_iterate_lognu_j PRIOR LOG_PRIOR log_nu_K_i f_K_i C_K_ij n_markov_states KM KMM i)
    (scratch_M, 0)

/-- `_iterate_lognu` (source lines 50-87).  Returns `(scratch_M, new_log_nu_K_i)` after
the call. -/
def _iterate_lognu (PRIOR LOG_PRIOR : α) (log_nu_K_i f_K_i : Nat → α) (C_K_ij : Nat → Int)
    (n_therm_states n_markov_states : Nat) (scratch_M new_log_nu_K_i : Nat → α) :
    (Nat → α) × (Nat → α) :=
  (List.range n_therm_states).foldl (fun st K =>
    let KM := K * n_markov_states
    let KMM := KM * n_markov_states
    (List.range n_markov_states).foldl (fun st i =>
      let Ki := KM + i
      let r := _iterate_lognu_scratch PRIOR LOG_PRIOR log_nu_K_i f_K_i C_K_ij
        n_markov_states KM KMM i st.1
      (r.1, Function.update st.2 Ki (_logsumexp r.1 r.2))) st)
    (scratch_M, new_log_nu_K_i)

/-- The body of the `j` loop of step 1 of `_iterate_fki` (source lines 111-127).  The
state is `(scratch_M, o, Ci)`. -/
def _iterate_fki_j (PRIOR LOG_PRIOR : α) (log_nu_K_i f_K_i : Nat → α) (C_K_ij : Nat → Int)
    (n_markov_states KM KMM i : Nat) (st : (Nat → α) × Nat × Int) (j : Nat) :
    (Nat → α) × Nat × Int :=
  let scratch_M := st.1
  let o := st.2.1
  let Ki := KM + i
  let CKij := C_K_ij (KMM + i * n_markov_states + j)
  let CKji := C_K_ij (KMM + j * n_markov_states + i)
  let Ci := wrapInt (st.2.2 + CKji)
  if i = j then
    let scratch_M := Function.update scratch_M o
      (if 0 = CKij then LOG_PRIOR else log (PRIOR + ofInt CKij))
    let scratch_M := Function.update scratch_M o (scratch_M o + f_K_i Ki)
    (scratch_M, o + 1, Ci)
  else
    let CK := wrapInt (CKij + CKji)
    if 0 = CK then (scratch_M, o, Ci)
    else
      let Kj := KM + j
      let divisor := _logsumexp_pair (log_nu_K_i Kj - f_K_i Ki) (log_nu_K_i Ki - f_K_i Kj)
      (Function.update scratch_M o (log (ofInt CK) + log_nu_K_i Kj - divisor), o + 1, Ci)

/-- The `j` loop of step 1 of `_iterate_fki` (source lines 106-128): `Ci = 0`, `o = 0`,
then the loop.  Returns `(scratch_M, o, Ci)`. -/
def _iterate_fki_scratch (PRIOR LOG_PRIOR : α) (log_nu_K_i f_K_i : Nat → α)
    (C_K_ij : Nat → Int) (n_markov_states KM KMM i : Nat) (scratch_M : Nat → α) :
    (Nat → α) × Nat × Int :=
  (List.range n_markov_states).foldl
    (_iterate_fki_j PRIOR LOG_PRIOR log_nu_K_i f_K_i C_K_ij n_markov_states KM KMM i)
    (scratch_M, 0, 0)

/-- Step 1 of `_iterate_fki`, "compute R_K_i" (source lines 100-133).  Returns
`(scratch_M, log_R_K_i)`. -/
def _iterate_fki_R (PRIOR LOG_PRIOR : α) (log_nu_K_i f_K_i : Nat → α) (C_K_ij : Nat → Int)
    (N_K_i : Nat → Int) (n_therm_states n_markov_states : Nat)
    (scratch_M log_R_K_i : Nat → α) : (Nat → α) × (Nat → α) :=
  (List.range n_therm_states).foldl (fun st K =>
    let KM := K * n_markov_states
    let KMM := KM * n_markov_states
    (List.range n_markov_states).foldl (fun st i =>
      let Ki := KM + i
      let r := _iterate_fki_scratch PRIOR LOG_PRIOR log_nu_K_i f_K_i C_K_ij
        n_markov_states KM KMM i st.1
      let NC := wrapInt (N_K_i Ki - r.2.2)
      let R_addon := if 0 < NC then log (ofInt NC) + f_K_i Ki else -INFINITY
      (r.1, Function.update st.2 Ki (_logsumexp_pair (_logsumexp r.1 r.2.1) R_addon))) st)
    (scratch_M, log_R_K_i)

/-- The loop "set new_f_K_i to infinity" of `_iterate_fki` (source lines 135-139). -/
def _iterate_fki_inf (n_therm_states n_markov_states : Nat) (new_f_K_i : Nat → α) : Nat → α :=
  (List.range n_therm_states).foldl (fun new_f_K_i K =>
    (List.range n_markov_states).foldl (fun new_f_K_i i =>
      Function.update new_f_K_i (K * n_markov_states + i) INFINITY) new_f_K_i) new_f_K_i

/-- The body of the frame loop of `_iterate_fki` (source lines 143-151).  The state is
`(scratch_T, new_f_K_i)`. -/
def _iterate_fki_x (b_K_x : Nat → α) (M_x : Nat → Nat) (seq_length : Nat)
    (log_R_K_i : Nat → α) (n_therm_states n_markov_states : Nat)
    (st : (Nat → α) × (Nat → α)) (x : Nat) : (Nat → α) × (Nat → α) :=
  let i := M_x x
  let scratch_T := (List.range n_therm_states).foldl (fun scratch_T K =>
    Function.update scratch_T K (log_R_K_i (K * n_markov_states + i) - b_K_x (K * seq_length + x)))
    st.1
  let divisor := _logsumexp scratch_T n_therm_states
  let new_f_K_i := (List.range n_therm_states).foldl (fun new_f_K_i K =>
    Function.update new_f_K_i (K * n_markov_states + i)
      (-(_logsumexp_pair (-(new_f_K_i (K * n_markov_states + i)))
        (-(divisor + b_K_x (K * seq_length + x)))))) st.2
  (scratch_T, new_f_K_i)

/-- The step "apply normalization" of `_iterate_fki` (source lines 154-161).  Returns
`(scratch_M, new_f_K_i)`. -/
def _iterate_fki_norm (n_therm_states n_markov_states : Nat) (K_target : Nat)
    (scratch_M new_f_K_i : Nat → α) : (Nat → α) × (Nat → α) :=
  let scratch_M := (List.range n_markov_states).foldl (fun scratch_M i =>
    Function.update scratch_M i (-(new_f_K_i (K_target * n_markov_states + i)))) scratch_M
  let norm := _logsumexp scratch_M n_markov_states
  let new_f_K_i := (List.range n_therm_states).foldl (fun new_f_K_i K =>
    (List.range n_markov_states).foldl (fun new_f_K_i i =>
      Function.update new_f_K_i (K * n_markov_states + i)
        (new_f_K_i (K * n_markov_states + i) + norm)) new_f_K_i) new_f_K_i
  (scratch_M, new_f_K_i)

/-- The arrays `_iterate_fki` writes, after the call. -/
structure FkiOut (α : Type) where
  /-- The array `log_R_K_i`. -/
  log_R_K_i : Nat → α
  /-- The array `new_f_K_i`. -/
  new_f_K_i : Nat → α
  /-- The array `scratch_M`. -/
  scratch_M : Nat → α
  /-- The array `scratch_T`. -/
  scratch_T : Nat → α

/-- `_iterate_fki` (source lines 89-162): step 1, the reset of `new_f_K_i`, the frame
loop, the normalization. -/
def _iterate_fki (PRIOR LOG_PRIOR : α) (log_nu_K_i f_K_i : Nat → α) (C_K_ij : Nat → Int)
    (b_K_x : Nat → α) (M_x : Nat → Nat) (N_K_i : Nat → Int) (seq_length : Nat)
    (log_R_K_i : Nat → α) (n_therm_states n_markov_states : Nat)
    (scratch_M scratch_T new_f_K_i : Nat → α) (K_target : Nat) : FkiOut α :=
  let s1 := _iterate_fki_R PRIOR LOG_PRIOR log_nu_K_i f_K_i C_K_ij N_K_i
    n_therm_states n_markov_states scratch_M log_R_K_i
  let new_f_K_i := _iterate_fki_inf n_therm_states n_markov_states new_f_K_i
  let s2 := (List.range seq_length).foldl
    (_iterate_fki_x b_K_x M_x seq_length s1.2 n_therm_states n_markov_states)
    (scratch_T, new_f_K_i)
  let s3 := _iterate_fki_norm n_therm_states n_markov_states K_target s1.1 s2.2
  { log_R_K_i := s1.2, new_f_K_i := s3.2, scratch_M := s3.1, scratch_T := s2.1 }

/-- The body of the frame loop of `_f_ground_state` (source lines 179-183).  The state
is `(scratch_T, f_ground_i)`. -/
def _f_ground_state_x (b_K_x : Nat → α) (M_x : Nat → Nat) (seq_length : Nat)
    (log_R_K_i : Nat → α) (n_therm_states n_markov_states : Nat)
    (st : (Nat → α) × (Nat → α)) (x : Nat) : (Nat → α) × (Nat → α) :=
  let i := M_x x
  let scratch_T := (List.range n_therm_states).foldl (fun scratch_T K =>
    Function.update scratch_T K (log_R_K_i (K * n_markov_states + i) - b_K_x (K * seq_length + x)))
    st.1
  let divisor := _logsumexp scratch_T n_therm_states
  (scratch_T, Function.update st.2 i (-(_logsumexp_pair (-(st.2 i)) (-divisor))))

/-- The arrays `_f_ground_state` writes, after the call. -/
structure GroundOut (α : Type) where
  /-- The array `f_ground_i`. -/
  f_ground_i : Nat → α
  /-- The array `scratch_M`. -/
  scratch_M : Nat → α
  /-- The array `scratch_T`. -/
  scratch_T : Nat → α

/-- `_f_ground_state` (source lines 164-191). -/
def _f_ground_state (b_K_x : Nat → α) (M_x : Nat → Nat) (seq_length : Nat)
    (log_R_K_i : Nat → α) (n_therm_states n_markov_states : Nat)
    (scratch_M scratch_T f_ground_i : Nat → α) : GroundOut α :=
  let f_ground_i := (List.range n_markov_states).foldl (fun f_ground_i i =>
    Function.update f_ground_i i INFINITY) f_ground_i
  let s2 := (List.range seq_length).foldl
    (_f_ground_state_x b_K_x M_x seq_length log_R_K_i n_therm_states n_markov_states)
    (scratch_T, f_ground_i)
  let scratch_M := (List.range n_markov_states).foldl (fun scratch_M i =>
    Function.update scratch_M i (-(s2.2 i))) scratch_M
  let norm := _logsumexp scratch_M n_markov_states
  let f_ground_i := (List.range n_markov_states).foldl (fun f_ground_i i =>
    Function.update f_ground_i i (f_ground_i i + norm)) s2.2
  { f_ground_i := f_ground_i, scratch_M := scratch_M, scratch_T := s2.1 }

end Programs

/-! ## Auxiliary definitions for the proofs -/

/-- The value of an `int` variable after `s = 0; for (j = 0; j < n; ++j) s += c[j];`. -/
def intSum (c : Nat → Int) (n : Nat) : Int :=
  (List.range n).foldl (fun s j => wrapInt (s + c j)) 0

/-- The value of `NC = N_K_i[Ki] - Ci` in step 1 of `_iterate_fki` (source line 129),
where `Ci` is the column sum that the `j` loop accumulated. -/
def fkiNC (C_K_ij N_K_i : Nat → Int) (n_markov_states K i : Nat) : Int :=
  wrapInt (N_K_i (K * n_markov_states + i)
    - intSum (fun j => C_K_ij (K * n_markov_states * n_markov_states
        + j * n_markov_states + i)) n_markov_states)

/-- One step of a loop that appends to a scratch array: with a value, store it at the
write index and advance the index; without one, leave the state as it is. -/
def pushOpt {α : Type} (st : (Nat → α) × Nat) (t : Option α) : (Nat → α) × Nat :=
  match t with
  | none => st
  | some v => (Function.update st.1 st.2 v, st.2 + 1)

/-- The value that pass `j` of the `j` loop of `_iterate_lognu` appends to `scratch_M`,
if it appends one (source lines 68-82). -/
def lognuTerm {α : Type} [CDouble α] (PRIOR LOG_PRIOR : α) (log_nu_K_i f_K_i : Nat → α)
    (C_K_ij : Nat → Int) (n_markov_states KM KMM i j : Nat) : Option α :=
  if i = j then
    some (if 0 = C_K_ij (KMM + i * n_markov_states + j) then LOG_PRIOR
      else log (PRIOR + ofInt (C_K_ij (KMM + i * n_markov_states + j))))
  else if 0 = wrapInt
      (C_K_ij (KMM + i * n_markov_states + j) + C_K_ij (KMM + j * n_markov_states + i))
  then none
  else some (log (ofInt (wrapInt
      (C_K_ij (KMM + i * n_markov_states + j) + C_K_ij (KMM + j * n_markov_states + i))))
    + log_nu_K_i (KM + i) - f_K_i (KM + j)
    - _logsumexp_pair (log_nu_K_i (KM + j) - f_K_i (KM + i))
        (log_nu_K_i (KM + i) - f_K_i (KM + j)))

/-- The value that pass `j` of the `j` loop of step 1 of `_iterate_fki` appends to
`scratch_M`, if it appends one (source lines 111-127). -/
def fkiTerm {α : Type} [CDouble α] (PRIOR LOG_PRIOR : α) (log_nu_K_i f_K_i : Nat → α)
    (C_K_ij : Nat → Int) (n_markov_states KM KMM i j : Nat) : Option α :=
  if i = j then
    some ((if 0 = C_K_ij (KMM + i * n_markov_states + j) then LOG_PRIOR
      else log (PRIOR + ofInt (C_K_ij (KMM + i * n_markov_states + j)))) + f_K_i (KM + i))
  else if 0 = wrapInt
      (C_K_ij (KMM + i * n_markov_states + j) + C_K_ij (KMM + j * n_markov_states + i))
  then none
  else some (log (ofInt (wrapInt
      (C_K_ij (KMM + i * n_markov_states + j) + C_K_ij (KMM + j * n_markov_states + i))))
    + log_nu_K_i (KM + j)
    - _logsumexp_pair (log_nu_K_i (KM + j) - f_K_i (KM + i))
        (log_nu_K_i (KM + i) - f_K_i (KM + j)))

/-- The real number a finite `double` stands for (and `0` for the other values). -/
def Dbl.toReal : Dbl → ℝ
  | Dbl.fin r => r
  | _ => 0

/-- The sum over the ensembles `K` of `exp(log_R[K][M[x]] - b[K][x])` for frame `x`, on
real arrays: the exponential of the `divisor` of the frame loops. -/
noncomputable def frameDenom (lr br : Nat → ℝ) (M_x : Nat → Nat) (seq_length nT n x : Nat) : ℝ :=
  ∑ K ∈ Finset.range nT, Real.exp (lr (K * n + M_x x) - br (K * seq_length + x))

/-- The probability mass `w(K, x) = exp(-b[K][x]) / Σ_L exp(log_R[L][M[x]] - b[L][x])`
that frame `x` adds to `exp(-new_f[K][M[x]])` in `_iterate_fki`. -/
noncomputable def frameWeight (lr br : Nat → ℝ) (M_x : Nat → Nat) (seq_length nT n K x : Nat) : ℝ :=
  Real.exp (-(br (K * seq_length + x))) / frameDenom lr br M_x seq_length nT n x

/-- The mass `g(x) = 1 / Σ_K exp(log_R[K][M[x]] - b[K][x])` that frame `x` adds to
`exp(-f_ground[M[x]])` in `_f_ground_state`. -/
noncomputable def groundWeight (lr br : Nat → ℝ) (M_x : Nat → Nat) (seq_length nT n x : Nat) : ℝ :=
  1 / frameDenom lr br M_x seq_length nT n x

/-- The count tensor of the end-to-end scenario, `C = [[[5,2],[1,3]],[[4,1],[2,2]]]`,
flattened with the ensemble index slowest. -/
def scenarioC : Nat → Int := fun q => ([5, 2, 1, 3, 4, 1, 2, 2] : List Int).getD q 0

/-- The visit counts of the end-to-end scenario, the row sums of `scenarioC`:
`N = [[7,4],[5,4]]`. -/
def scenarioN : Nat → Int := fun q => ([7, 4, 5, 4] : List Int).getD q 0

/-- The state sequence of the end-to-end scenario, `M = [0,1,0,1,0,1]`. -/
def scenarioM : Nat → Nat := fun x => ([0, 1, 0, 1, 0, 1] : List Nat).getD x 0

/-- The end-to-end scenario: two ensembles, two states, six frames, `f = 0` and `b = 0`
everywhere; `_set_lognu`, then `_iterate_lognu`, then `_iterate_fki` on the updated
`log_nu`.  Every output and scratch array holds `buf` before its first use.  Returns
`new_log_nu_K_i` and the arrays `_iterate_fki` wrote. -/
def scenarioRun {α : Type} [CDouble α] (PRIOR LOG_PRIOR : α) (buf : Nat → α)
    (K_target : Nat) : (Nat → α) × FkiOut α :=
  let f_K_i : Nat → α := fun _ => ofInt 0
  let b_K_x : Nat → α := fun _ => ofInt 0
  let log_nu_K_i := _set_lognu PRIOR buf scenarioC 2 2
  let s := _iterate_lognu PRIOR LOG_PRIOR log_nu_K_i f_K_i scenarioC 2 2 buf buf
  (s.2, _iterate_fki PRIOR LOG_PRIOR s.2 f_K_i scenarioC b_K_x scenarioM scenarioN 6 buf 2 2
    s.1 buf buf K_target)

/-- The values `exp(new_log_nu[K][i])` of the end-to-end scenario, as functions of the
prior `p`, at the flat index `K * 2 + i`. -/
noncomputable def scenarioNu (p : ℝ) : Nat → ℝ
  | 0 => p + 5 + 3 * (p + 7) / ((p + 4) + (p + 7))
  | 1 => p + 3 + 3 * (p + 4) / ((p + 7) + (p + 4))
  | 2 => p + 4 + 3 * (p + 5) / ((p + 4) + (p + 5))
  | _ => p + 2 + 3 * (p + 4) / ((p + 5) + (p + 4))

/-- The values `exp(log_R[K][i])` of the end-to-end scenario, as functions of the prior
`p`, at the flat index `K * 2 + i`. -/
noncomputable def scenarioR (p : ℝ) : Nat → ℝ
  | 0 => p + 5 + 3 * scenarioNu p 1 / (scenarioNu p 1 + scenarioNu p 0) + 1
  | 1 => p + 3 + 3 * scenarioNu p 0 / (scenarioNu p 0 + scenarioNu p 1)
  | 2 => p + 4 + 3 * scenarioNu p 3 / (scenarioNu p 3 + scenarioNu p 2)
  | _ => p + 2 + 3 * scenarioNu p 2 / (scenarioNu p 2 + scenarioNu p 3) + 1

/-- The values `exp(-new_f[K][i])` of the end-to-end scenario (the same for both
ensembles `K` and both targets), as functions of the prior `p`: three frames of state
`i`, each of mass `1 / (exp(log_R[0][i]) + exp(log_R[1][i]))`, over the mass of all six
frames. -/
noncomputable def scenarioQ (p : ℝ) (i : Nat) : ℝ :=
  (3 / (scenarioR p i + scenarioR p (2 + i)))
    / (3 / (scenarioR p 0 + scenarioR p 2) + 3 / (scenarioR p 1 + scenarioR p 3))

/-! ## Traced values: the arguments of `log` -/

/-- A `double` value together with the arguments that the calls of `log` of `_tram.c`
received while the value was computed, in the order of the calls.  The calls of `log`
inside `_logsumexp` and `_logsumexp_pair` (`_lse.c`) are not recorded. -/
structure Traced where
  /-- The value. -/
  val : Dbl
  /-- The arguments of the calls of `log` behind the value. -/
  logArgs : List Dbl

/-- A value that no call of `log` is behind: an input or a constant. -/
def Traced.input (v : Dbl) : Traced := ⟨v, []⟩

/-- The operations of `_tram.c` on traced values: the values are those of the exact
carrier, every operation hands on the recorded arguments of its operands, and `log`
records its own argument. -/
noncomputable instance Traced.instCDouble : CDouble Traced where
  add := fun a b => ⟨Dbl.add a.val b.val, a.logArgs ++ b.logArgs⟩
  sub := fun a b => ⟨Dbl.sub a.val b.val, a.logArgs ++ b.logArgs⟩
  neg := fun a => ⟨Dbl.neg a.val, a.logArgs⟩
  ofInt := fun z => ⟨Dbl.fin (z : ℝ), []⟩
  log := fun a => ⟨Dbl.log a.val, a.logArgs ++ [a.val]⟩
  INFINITY := ⟨Dbl.pinf, []⟩
  _logsumexp := fun a n => ⟨Dbl.logsumexp (fun k => (a k).val) n,
    ((List.range n).map (fun k => (a k).logArgs)).flatten⟩
  _logsumexp_pair := fun a b => ⟨Dbl.logsumexp_pair a.val b.val, a.logArgs ++ b.logArgs⟩

/-- Every recorded argument of `log` is a real number above zero. -/
def Traced.allPositive (t : Traced) : Prop :=
  ∀ a ∈ t.logArgs, ∃ r : ℝ, 0 < r ∧ a = Dbl.fin r

/-- The traced value of `_logsumexp(a, n)` as a function of the list `a[0], ..., a[n-1]`. -/
noncomputable def Traced.lseList (l : List Traced) : Traced :=
  ⟨Dbl.log (Dbl.sumExpList (l.map Traced.val)), (l.map Traced.logArgs).flatten⟩

/-! ## The programs with checked array accesses

A second transliteration of `_iterate_lognu`, `_iterate_fki` and `_f_ground_state`, in
which an array is a buffer of a fixed length (`Array`), a load or store outside the
buffer makes the run undefined (`none`), and the call `_logsumexp(a, len)` reads the
cells `a[0], ..., a[len-1]`.  The statements follow the source line by line. -/

/-- A load `a[p]`: defined when `p` is inside the buffer. -/
def loadAt {β : Type} (a : Array β) (p : Nat) : Option β := a[p]?

/-- A store `a[p] = v`: defined when `p` is inside the buffer. -/
def storeAt {β : Type} (a : Array β) (p : Nat) (v : β) : Option (Array β) :=
  if p < a.size then some (a.setD p v) else none

/-- The call `_logsumexp(a, len)`: defined when the cells `a[0], ..., a[len-1]` are
inside the buffer. -/
def logsumexpAt {α : Type} [CDouble α] (a : Array α) (len : Nat) : Option α :=
  if len ≤ a.size then some (_logsumexp (fun k => a.getD k INFINITY) len) else none

section CheckedPrograms

variable {α : Type} [CDouble α]

/-- The body of the `j` loop of `_iterate_lognu` (source lines 68-82) with checked
accesses.  The state is `(scratch_M, o)`. -/
def _iterate_lognu_j_checked (PRIOR LOG_PRIOR : α) (log_nu_K_i f_K_i : Array α)
    (C_K_ij : Array Int) (n_markov_states KM KMM i : Nat) (st : Array α × Nat) (j : Nat) :
    Option (Array α × Nat) := do
  let scratch_M := st.1
  let o := st.2
  let Ki := KM + i
  let CKij ← loadAt C_K_ij (KMM + i * n_markov_states + j)
  if i = j then
    let scratch_M ← storeAt scratch_M o
      (if 0 = CKij then LOG_PRIOR else log (PRIOR + ofInt CKij))
    pure (scratch_M, o + 1)
  else
    let CKji ← loadAt C_K_ij (KMM + j * n_markov_states + i)
    let CK := wrapInt (CKij + CKji)
    if 0 = CK then pure (scratch_M, o)
    else
      let Kj := KM + j
      let lKj ← loadAt log_nu_K_i Kj
      let fKi ← loadAt f_K_i Ki
      let lKi ← loadAt log_nu_K_i Ki
      let fKj ← loadAt f_K_i Kj
      let divisor := _logsumexp_pair (lKj - fKi) (lKi - fKj)
      let scratch_M ← storeAt scratch_M o (log (ofInt CK) + lKi - fKj - divisor)
      pure (scratch_M, o + 1)

/-- The `j` loop of `_iterate_lognu` (source lines 65-83) with checked accesses:
`o = 0`, then the loop.  Returns `(scratch_M, o)`. -/
def _iterate_lognu_scratch_checked (PRIOR LOG_PRIOR : α) (log_nu_K_i f_K_i : Array α)
    (C_K_ij : Array Int) (n_markov_states KM KMM i : Nat) (scratch_M : Array α) :
    Option (Array α × Nat) :=
  (List.range n_markov_states).foldlM
    (_iterate_lognu_j_checked PRIOR LOG_PRIOR log_nu_K_i f_K_i C_K_ij n_markov_states
      KM KMM i)
    (scratch_M, 0)

/-- `_iterate_lognu` (source lines 50-87) with checked accesses.  Returns
`(scratch_M, new_log_nu_K_i)` after the call. -/
def _iterate_lognu_checked (PRIOR LOG_PRIOR : α) (log_nu_K_i f_K_i : Array α)
    (C_K_ij : Array Int) (n_therm_states n_markov_states : Nat)
    (scratch_M new_log_nu_K_i : Array α) : Option (Array α × Array α) :=
  (List.range n_therm_states).foldlM (fun st K =>
    let KM := K * n_markov_states
    let KMM := KM * n_markov_states
    (List.range n_markov_states).foldlM (fun st i => do
      let Ki := KM + i
      let r ← _iterate_lognu_scratch_checked PRIOR LOG_PRIOR log_nu_K_i f_K_i C_K_ij
        n_markov_states KM KMM i st.1
      let v ← logsumexpAt r.1 r.2
      let new_log_nu_K_i ← storeAt st.2 Ki v
      pure (r.1, new_log_nu_K_i)) st)
    (scratch_M, new_log_nu_K_i)

end CheckedPrograms

/-! ## General facts about loops -/

/-- A projection that commutes with every step of a loop commutes with the loop. -/
lemma foldl_proj {σ τ γ : Type} (π : σ → τ) (F : σ → γ → σ) (G : τ → γ → τ)
    (h : ∀ s c, π (F s c) = G (π s) c) (l : List γ) (s : σ) :
    π (l.foldl F s) = l.foldl G (π s) := by
  induction l generalizing s with
  | nil => rfl
  | cons c l ih => simp only [List.foldl_cons, ih, h]

/-- A loop whose steps act on each cell of an array separately acts on each cell
separately. -/
lemma foldl_pointwise {β γ : Type} (U : (Nat → β) → γ → (Nat → β)) (φ : γ → Nat → β → β)
    (hU : ∀ out k p, U out k p = φ k p (out p)) (l : List γ) (out : Nat → β) (p : Nat) :
    (l.foldl U out) p = l.foldl (fun v k => φ k p v) (out p) :=
  foldl_proj (fun a : Nat → β => a p) U (fun v k => φ k p v) (fun s c => hU s c p) l out

lemma foldl_ite_none {β : Type} (c : Nat → Prop) [DecidablePred c] (g : Nat → β → β)
    (l : List Nat) (hc : ∀ k ∈ l, ¬ c k) (v : β) :
    l.foldl (fun v k => if c k then g k v else v) v = v := by
  induction l generalizing v with
  | nil => rfl
  | cons k l ih =>
    have hk : ¬ c k := hc k (List.mem_cons_self k l)
    simp only [List.foldl_cons, if_neg hk]
    exact ih (fun k' hk' => hc k' (List.mem_cons_of_mem k hk')) v

lemma foldl_ite_unique {β : Type} (c : Nat → Prop) [DecidablePred c] (g : Nat → β → β)
    (m k0 : Nat) (hk0 : k0 < m) (hc : ∀ k < m, (c k ↔ k = k0)) (v : β) :
    (List.range m).foldl (fun v k => if c k then g k v else v) v = g k0 v := by
  induction m with
  | zero => omega
  | succ m ih =>
    rw [List.range_succ, List.foldl_append]
    simp only [List.foldl_cons, List.foldl_nil]
    by_cases hm : k0 = m
    · subst hm
      rw [foldl_ite_none c g (List.range k0) (fun k hk => by
        have hk' : k < k0 := List.mem_range.mp hk
        rw [hc k (by omega)]; omega) v]
      rw [if_pos ((hc k0 (by omega)).mpr rfl)]
    · rw [ih (by omega) (fun k hk => hc k (by omega))]
      rw [if_neg (fun h => hm ((hc m (by omega)).mp h).symm)]

lemma grid_inj {n K i K' i' : Nat} (hi : i < n) (hi' : i' < n) (h : K * n + i = K' * n + i') :
    K = K' ∧ i = i' := by
  have hK : K = K' := by
    rcases lt_trichotomy K K' with hlt | heq | hgt
    · exfalso
      have : (K + 1) * n ≤ K' * n := Nat.mul_le_mul_right n hlt
      rw [Nat.add_mul] at this
      omega
    · exact heq
    · exfalso
      have : (K' + 1) * n ≤ K * n := Nat.mul_le_mul_right n hgt
      rw [Nat.add_mul] at this
      omega
  subst hK
  exact ⟨rfl, by omega⟩

/-- A loop that rewrites cell `idx k` from its own old value acts on each cell
separately. -/
lemma foldl_update_pointwise {β : Type} (idx : Nat → Nat) (g : Nat → β → β) (l : List Nat)
    (out : Nat → β) (p : Nat) :
    (l.foldl (fun out k => Function.update out (idx k) (g k (out (idx k)))) out) p
      = l.foldl (fun v k => if p = idx k then g k v else v) (out p) := by
  apply foldl_pointwise _ (fun k p v => if p = idx k then g k v else v)
  intro out k p
  by_cases h : p = idx k
  · subst h; simp
  · simp [Function.update_apply, h]

/-- A doubly nested loop that rewrites cell `K * n + i` from its own old value leaves
`g K i (old value)` in that cell. -/
lemma foldl_grid_apply {β : Type} (g : Nat → Nat → β → β) (nT n : Nat) (out : Nat → β)
    (K i : Nat) (hK : K < nT) (hi : i < n) :
    ((List.range nT).foldl (fun out K => (List.range n).foldl (fun out i =>
      Function.update out (K * n + i) (g K i (out (K * n + i)))) out) out) (K * n + i)
      = g K i (out (K * n + i)) := by
  rw [foldl_pointwise _ (fun K' p v => (List.range n).foldl
    (fun v i' => if p = K' * n + i' then g K' i' v else v) v)
    (fun out k p => foldl_update_pointwise (fun i' => k * n + i') (g k) (List.range n) out p)]
  have hfun : (fun v K' => (List.range n).foldl
      (fun v i' => if K * n + i = K' * n + i' then g K' i' v else v) v)
      = (fun (v : β) K' => if K' = K then g K i v else v) := by
    funext v K'
    by_cases hKK : K' = K
    · subst hKK
      rw [if_pos rfl]
      exact foldl_ite_unique (fun i' => K' * n + i = K' * n + i') (g K') n i hi
        (fun i' _ => by constructor <;> intro h <;> omega) v
    · rw [if_neg hKK]
      apply foldl_ite_none
      intro i' hi' h
      exact hKK (grid_inj hi (List.mem_range.mp hi') h).1.symm
  rw [hfun]
  exact foldl_ite_unique (fun K' => K' = K) (fun _ v => g K i v) nT K hK (fun _ _ => Iff.rfl) _

/-! ## Arithmetic of the exact carrier -/

namespace Dbl

@[simp] lemma hadd_eq (a b : Dbl) : a + b = Dbl.add a b := rfl
@[simp] lemma hsub_eq (a b : Dbl) : a - b = Dbl.add a (Dbl.neg b) := rfl
@[simp] lemma hneg_eq (a : Dbl) : -a = Dbl.neg a := rfl
@[simp] lemma ofInt_eq (z : Int) : (CDouble.ofInt z : Dbl) = fin (z : ℝ) := rfl
@[simp] lemma clog_eq (a : Dbl) : CDouble.log a = Dbl.log a := rfl
@[simp] lemma cinf_eq : (CDouble.INFINITY : Dbl) = pinf := rfl
@[simp] lemma clse_eq (a : Nat → Dbl) (n : Nat) :
    CDouble._logsumexp a n = Dbl.log (sumExpList ((List.range n).map a)) := rfl
@[simp] lemma clsep_eq (a b : Dbl) :
    CDouble._logsumexp_pair a b = Dbl.log (Dbl.add (Dbl.exp a) (Dbl.exp b)) := rfl

@[simp] lemma add_fin_fin (a b : ℝ) : Dbl.add (fin a) (fin b) = fin (a + b) := rfl
@[simp] lemma neg_fin (a : ℝ) : Dbl.neg (fin a) = fin (-a) := rfl
@[simp] lemma neg_pinf : Dbl.neg pinf = ninf := rfl
@[simp] lemma neg_ninf : Dbl.neg ninf = pinf := rfl
@[simp] lemma neg_neg (a : Dbl) : Dbl.neg (Dbl.neg a) = a := by
  cases a <;> simp [Dbl.neg]
@[simp] lemma exp_fin (a : ℝ) : Dbl.exp (fin a) = fin (Real.exp a) := rfl
@[simp] lemma exp_ninf : Dbl.exp ninf = fin 0 := rfl
@[simp] lemma add_pinf_fin (a : ℝ) : Dbl.add pinf (fin a) = pinf := rfl

lemma log_fin_of_pos {r : ℝ} (h : 0 < r) : Dbl.log (fin r) = fin (Real.log r) := by
  simp [Dbl.log, not_lt.mpr h.le, h.ne']

@[simp] lemma log_fin_zero : Dbl.log (fin 0) = ninf := by
  simp [Dbl.log]

/-- The logarithm of a negative number is NaN. -/
lemma log_fin_neg {r : ℝ} (h : r < 0) : Dbl.log (fin r) = nan := by
  simp only [Dbl.log]
  rw [if_pos h]

@[simp] lemma add_nan_left (a : Dbl) : Dbl.add nan a = nan := by
  cases a <;> rfl

@[simp] lemma add_nan_right (a : Dbl) : Dbl.add a nan = nan := by
  cases a <;> rfl

@[simp] lemma exp_nan : Dbl.exp nan = nan := rfl

@[simp] lemma log_nan : Dbl.log nan = nan := rfl

@[simp] lemma neg_nan : Dbl.neg nan = nan := rfl

/-- For a sum `s ≥ 0`: `exp (log s) = s`, also at `s = 0`, where `log s = -inf`. -/
lemma exp_log_fin {r : ℝ} (h : 0 ≤ r) : Dbl.exp (Dbl.log (fin r)) = fin r := by
  rcases h.lt_or_eq with h | h
  · simp [log_fin_of_pos h, Real.exp_log h]
  · subst h; simp

lemma foldl_add_exp_fin (rs : List ℝ) (s : ℝ) :
    (rs.map fin).foldl (fun s x => Dbl.add s (Dbl.exp x)) (fin s)
      = fin (s + (rs.map Real.exp).sum) := by
  induction rs generalizing s with
  | nil => simp
  | cons r rs ih => simp [ih, add_assoc]

lemma sumExpList_fin (rs : List ℝ) :
    sumExpList (rs.map fin) = fin ((rs.map Real.exp).sum) := by
  simp [sumExpList, foldl_add_exp_fin]

end Dbl

lemma list_sum_range (c : Nat → ℝ) (n : Nat) :
    ((List.range n).map c).sum = ∑ j ∈ Finset.range n, c j := by
  induction n with
  | zero => simp
  | succ n ih => simp [List.range_succ, Finset.sum_range_succ, ih]

/-! ## The arithmetic of `int`, and `_set_lognu` -/

/-- An `int` result inside the range of `int` is the mathematical result. -/
lemma wrapInt_eq {z : Int} (h1 : -2147483648 ≤ z) (h2 : z ≤ 2147483647) : wrapInt z = z := by
  unfold wrapInt
  omega

@[simp] lemma wrapInt_zero : wrapInt 0 = 0 := by decide

/-- The sum of two counts that fits in an `int`. -/
lemma wrapInt_add_counts {a b : Int} (ha : 0 ≤ a) (hb : 0 ≤ b) (h : a + b ≤ 2147483647) :
    wrapInt (a + b) = a + b :=
  wrapInt_eq (by omega) h

lemma intSum_succ (c : Nat → Int) (n : Nat) :
    intSum c (n + 1) = wrapInt (intSum c n + c n) := by
  simp [intSum, List.range_succ]

/-- The `int` sum of counts whose mathematical sum fits in an `int` is that sum. -/
lemma intSum_eq (c : Nat → Int) (n : Nat) (hc : ∀ j < n, 0 ≤ c j)
    (hs : ∑ j ∈ Finset.range n, c j ≤ 2147483647) :
    intSum c n = ∑ j ∈ Finset.range n, c j := by
  induction n with
  | zero => simp [intSum]
  | succ n ih =>
    have hn : 0 ≤ c n := hc n (by omega)
    have hpart : 0 ≤ ∑ j ∈ Finset.range n, c j :=
      Finset.sum_nonneg (fun j hj => hc j (by have := Finset.mem_range.mp hj; omega))
    rw [Finset.sum_range_succ] at hs ⊢
    rw [intSum_succ, ih (fun j hj => hc j (by omega)) (by omega)]
    exact wrapInt_eq (by omega) hs

/-- The cell `(K, i)` of the output of `_set_lognu`, for any carrier and any counts:
the row sum is the one the `int` variable `sum` holds. -/
lemma set_lognu_apply_int {α : Type} [CDouble α] (PRIOR : α) (log_nu_K_i : Nat → α)
    (C_K_ij : Nat → Int) (nT n K i : Nat) (hK : K < nT) (hi : i < n) :
    _set_lognu PRIOR log_nu_K_i C_K_ij nT n (K * n + i)
      = log (PRIOR + ofInt (intSum (fun j => C_K_ij (K * (n * n) + i * n + j)) n)) := by
  unfold _set_lognu intSum
  exact foldl_grid_apply (fun K i _ => log (PRIOR + ofInt ((List.range n).foldl
    (fun sum j => wrapInt (sum + C_K_ij (K * (n * n) + i * n + j))) 0))) nT n log_nu_K_i
    K i hK hi

/-- The cell `(K, i)` of the output of `_set_lognu`, for any carrier, when the counts of
the row are non-negative and their sum fits in an `int`. -/
lemma set_lognu_apply {α : Type} [CDouble α] (PRIOR : α) (log_nu_K_i : Nat → α)
    (C_K_ij : Nat → Int) (nT n K i : Nat) (hK : K < nT) (hi : i < n)
    (hC : ∀ j < n, 0 ≤ C_K_ij (K * (n * n) + i * n + j))
    (hrow : ∑ j ∈ Finset.range n, C_K_ij (K * (n * n) + i * n + j) ≤ 2147483647) :
    _set_lognu PRIOR log_nu_K_i C_K_ij nT n (K * n + i)
      = log (PRIOR + ofInt (∑ j ∈ Finset.range n, C_K_ij (K * (n * n) + i * n + j))) := by
  rw [set_lognu_apply_int _ _ _ _ _ _ _ hK hi, intSum_eq _ n hC hrow]

/-! ## Loops that append to a scratch array -/

lemma foldl_pushOpt {α : Type} (term : Nat → Option α) (l : List Nat) (s : Nat → α) (o : Nat) :
    ((l.foldl (fun st j => pushOpt st (term j)) (s, o)).2 = o + (l.filterMap term).length)
    ∧ (∀ m < o, (l.foldl (fun st j => pushOpt st (term j)) (s, o)).1 m = s m)
    ∧ ((List.range' o (l.filterMap term).length).map
        (l.foldl (fun st j => pushOpt st (term j)) (s, o)).1 = l.filterMap term) := by
  induction l generalizing s o with
  | nil => simp
  | cons j l ih =>
    rw [List.foldl_cons]
    cases hj : term j with
    | none =>
      have hstep : pushOpt (s, o) (none : Option α) = (s, o) := rfl
      rw [hstep]
      simp only [List.filterMap_cons, hj]
      exact ih s o
    | some v =>
      obtain ⟨h1, h2, h3⟩ := ih (Function.update s o v) (o + 1)
      have hstep : pushOpt (s, o) (some v) = (Function.update s o v, o + 1) := rfl
      rw [hstep]
      simp only [List.filterMap_cons, hj, List.length_cons]
      refine ⟨by rw [h1]; omega, ?_, ?_⟩
      · intro m hm
        rw [h2 m (by omega), Function.update_noteq (by omega)]
      · rw [List.range'_succ, List.map_cons, h3, h2 o (by omega), Function.update_same]

/-- After a loop that appends to a scratch array from write index `0`, the cells below
the final write index hold the appended values, in order. -/
lemma foldl_pushOpt_zero {α : Type} (term : Nat → Option α) (l : List Nat) (s : Nat → α) :
    (List.range (l.foldl (fun st j => pushOpt st (term j)) (s, 0)).2).map
      (l.foldl (fun st j => pushOpt st (term j)) (s, 0)).1 = l.filterMap term := by
  obtain ⟨h1, -, h3⟩ := foldl_pushOpt term l s 0
  rw [h1, Nat.zero_add, List.range_eq_range']
  exact h3

/-! ## `_iterate_lognu` -/

lemma iterate_lognu_j_eq {α : Type} [CDouble α] (PRIOR LOG_PRIOR : α)
    (log_nu_K_i f_K_i : Nat → α) (C_K_ij : Nat → Int) (n KM KMM i : Nat)
    (st : (Nat → α) × Nat) (j : Nat) :
    _iterate_lognu_j PRIOR LOG_PRIOR log_nu_K_i f_K_i C_K_ij n KM KMM i st j
      = pushOpt st (lognuTerm PRIOR LOG_PRIOR log_nu_K_i f_K_i C_K_ij n KM KMM i j) := by
  unfold _iterate_lognu_j lognuTerm
  by_cases hij : i = j
  · simp only [if_pos hij]; rfl
  · simp only [if_neg hij]
    split_ifs <;> rfl

/-- What `_logsumexp(scratch_M, o)` returns after the `j` loop of `_iterate_lognu`: it
does not depend on what `scratch_M` held before the loop. -/
lemma iterate_lognu_scratch_lse (PRIOR LOG_PRIOR : Dbl) (log_nu_K_i f_K_i : Nat → Dbl)
    (C_K_ij : Nat → Int) (n KM KMM i : Nat) (s : Nat → Dbl) :
    _logsumexp
      (_iterate_lognu_scratch PRIOR LOG_PRIOR log_nu_K_i f_K_i C_K_ij n KM KMM i s).1
      (_iterate_lognu_scratch PRIOR LOG_PRIOR log_nu_K_i f_K_i C_K_ij n KM KMM i s).2
    = Dbl.log (Dbl.sumExpList ((List.range n).filterMap
        (lognuTerm PRIOR LOG_PRIOR log_nu_K_i f_K_i C_K_ij n KM KMM i))) := by
  have h : _iterate_lognu_scratch PRIOR LOG_PRIOR log_nu_K_i f_K_i C_K_ij n KM KMM i s
      = (List.range n).foldl (fun st j => pushOpt st
          (lognuTerm PRIOR LOG_PRIOR log_nu_K_i f_K_i C_K_ij n KM KMM i j)) (s, 0) := by
    unfold _iterate_lognu_scratch
    congr 1
    funext st j
    exact iterate_lognu_j_eq _ _ _ _ _ _ _ _ _ st j
  rw [h, Dbl.clse_eq, foldl_pushOpt_zero]

/-- The cell `(K, i)` of `new_log_nu_K_i` after `_iterate_lognu`. -/
lemma iterate_lognu_apply (PRIOR LOG_PRIOR : Dbl) (log_nu_K_i f_K_i : Nat → Dbl)
    (C_K_ij : Nat → Int) (nT n : Nat) (scratch_M new_log_nu_K_i : Nat → Dbl)
    (K i : Nat) (hK : K < nT) (hi : i < n) :
    (_iterate_lognu PRIOR LOG_PRIOR log_nu_K_i f_K_i C_K_ij nT n scratch_M
      new_log_nu_K_i).2 (K * n + i)
    = Dbl.log (Dbl.sumExpList ((List.range n).filterMap
        (lognuTerm PRIOR LOG_PRIOR log_nu_K_i f_K_i C_K_ij n (K * n) (K * n * n) i))) := by
  unfold _iterate_lognu
  rw [foldl_proj Prod.snd _ (fun out K => (List.range n).foldl (fun out i =>
    Function.update out (K * n + i) (Dbl.log (Dbl.sumExpList ((List.range n).filterMap
      (lognuTerm PRIOR LOG_PRIOR log_nu_K_i f_K_i C_K_ij n (K * n) (K * n * n) i))))) out)]
  · exact foldl_grid_apply (fun K i _ => Dbl.log (Dbl.sumExpList ((List.range n).filterMap
      (lognuTerm PRIOR LOG_PRIOR log_nu_K_i f_K_i C_K_ij n (K * n) (K * n * n) i))))
      nT n new_log_nu_K_i K i hK hi
  · intro st K
    apply foldl_proj Prod.snd
    intro st i
    simp only [iterate_lognu_scratch_lse]

lemma Dbl.foldl_add_exp_filterMap (term : Nat → Option Dbl) (c : Nat → ℝ) (l : List Nat)
    (h : ∀ j ∈ l, (term j = none ∧ c j = 0)
      ∨ (∃ t, term j = some (Dbl.fin t) ∧ Real.exp t = c j)) (s : ℝ) :
    (l.filterMap term).foldl (fun s x => Dbl.add s (Dbl.exp x)) (Dbl.fin s)
      = Dbl.fin (s + (l.map c).sum) := by
  induction l generalizing s with
  | nil => simp
  | cons j l ih =>
    have ih' := ih (fun j' hj' => h j' (List.mem_cons_of_mem j hj'))
    rcases h j (List.mem_cons_self j l) with ⟨hn, hc⟩ | ⟨t, ht, hc⟩
    · simp only [List.filterMap_cons, hn, List.map_cons, List.sum_cons, hc, zero_add]
      exact ih' s
    · simp only [List.filterMap_cons, ht, List.foldl_cons, Dbl.exp_fin, Dbl.add_fin_fin,
        List.map_cons, List.sum_cons, hc]
      rw [ih', add_assoc]

/-- The sum of exponentials over the values a loop appended, when every appended value
is a real number `t` with `exp t = c j`, and `c j = 0` for the passes that append none. -/
lemma Dbl.sumExpList_filterMap (term : Nat → Option Dbl) (c : Nat → ℝ) (n : Nat)
    (h : ∀ j < n, (term j = none ∧ c j = 0)
      ∨ (∃ t, term j = some (Dbl.fin t) ∧ Real.exp t = c j)) :
    Dbl.sumExpList ((List.range n).filterMap term) = Dbl.fin (∑ j ∈ Finset.range n, c j) := by
  unfold Dbl.sumExpList
  rw [Dbl.foldl_add_exp_filterMap term c (List.range n)
    (fun j hj => h j (List.mem_range.mp hj)) 0, zero_add, list_sum_range]

/-- The diagonal value of both `j` loops is `log (prior + C[K][i][i])`. -/
lemma diag_value (prior : ℝ) (hprior : 0 < prior) (c : Int) (hc : 0 ≤ c) :
    (if 0 = c then Dbl.fin (Real.log prior) else log (Dbl.fin prior + ofInt c))
      = Dbl.fin (Real.log (prior + (c : ℝ))) := by
  have hc' : (0 : ℝ) ≤ (c : ℝ) := by exact_mod_cast hc
  by_cases h0 : 0 = c
  · rw [if_pos h0, ← h0]; simp
  · rw [if_neg h0]
    simp only [Dbl.hadd_eq, Dbl.ofInt_eq, Dbl.clog_eq, Dbl.add_fin_fin]
    exact Dbl.log_fin_of_pos (by linarith)

/-- The normaliser `D` of the regular case, on real inputs. -/
lemma lse_pair_fin (a b : ℝ) :
    _logsumexp_pair (Dbl.fin a) (Dbl.fin b)
      = Dbl.fin (Real.log (Real.exp a + Real.exp b)) := by
  simp only [Dbl.clsep_eq, Dbl.exp_fin, Dbl.add_fin_fin]
  exact Dbl.log_fin_of_pos (by positivity)

/-- The regular-case value of the `j` loop of `_iterate_lognu`, on real inputs. -/
lemma lognu_regular_value (ck : Int) (hck : 0 < ck) (li lj fi fj : ℝ) :
    ∃ t, log (ofInt ck) + Dbl.fin li - Dbl.fin fj
          - _logsumexp_pair (Dbl.fin lj - Dbl.fin fi) (Dbl.fin li - Dbl.fin fj) = Dbl.fin t
      ∧ Real.exp t = (ck : ℝ) * Real.exp (li - fj)
          / (Real.exp (lj - fi) + Real.exp (li - fj)) := by
  have hck' : (0 : ℝ) < (ck : ℝ) := by exact_mod_cast hck
  have hD : 0 < Real.exp (lj - fi) + Real.exp (li - fj) := by positivity
  refine ⟨Real.log ck + li - fj - Real.log (Real.exp (lj - fi) + Real.exp (li - fj)), ?_, ?_⟩
  · simp only [Dbl.hsub_eq, Dbl.neg_fin, Dbl.add_fin_fin, lse_pair_fin, Dbl.clog_eq,
      Dbl.ofInt_eq, Dbl.log_fin_of_pos hck', Dbl.hadd_eq, sub_eq_add_neg]
  · rw [Real.exp_sub, Real.exp_log hD, sub_eq_add_neg (Real.log ck + li), add_assoc,
      Real.exp_add, Real.exp_log hck', ← sub_eq_add_neg]

/-- The closed form of cell `(K, i)` of `new_log_nu_K_i` on real inputs and non-negative
counts: the logarithm of a positive sum with one summand per pass of the `j` loop. -/
lemma iterate_lognu_value (prior : ℝ) (hprior : 0 < prior) (log_nu_K_i f_K_i : Nat → Dbl)
    (ln fr : Nat → ℝ) (C_K_ij : Nat → Int) (nT n : Nat)
    (scratch_M new_log_nu_K_i : Nat → Dbl)
    (hln : ∀ K < nT, ∀ i < n, log_nu_K_i (K * n + i) = Dbl.fin (ln (K * n + i)))
    (hf : ∀ K < nT, ∀ i < n, f_K_i (K * n + i) = Dbl.fin (fr (K * n + i)))
    (hC : ∀ K < nT, ∀ i < n, ∀ j < n, 0 ≤ C_K_ij (K * n * n + i * n + j))
    (hpair : ∀ K < nT, ∀ i < n, ∀ j < n, i ≠ j →
      C_K_ij (K * n * n + i * n + j) + C_K_ij (K * n * n + j * n + i) ≤ 2147483647)
    (K i : Nat) (hK : K < nT) (hi : i < n) :
    ∃ S : ℝ, S = (∑ j ∈ Finset.range n,
        if i = j then prior + (C_K_ij (K * n * n + i * n + j) : ℝ)
        else if 0 = C_K_ij (K * n * n + i * n + j) + C_K_ij (K * n * n + j * n + i) then 0
        else ((C_K_ij (K * n * n + i * n + j) + C_K_ij (K * n * n + j * n + i) : Int) : ℝ)
          * Real.exp (ln (K * n + i) - fr (K * n + j))
          / (Real.exp (ln (K * n + j) - fr (K * n + i))
              + Real.exp (ln (K * n + i) - fr (K * n + j))))
      ∧ 0 < S
      ∧ (_iterate_lognu (Dbl.fin prior) (Dbl.fin (Real.log prior)) log_nu_K_i f_K_i C_K_ij
          nT n scratch_M new_log_nu_K_i).2 (K * n + i) = Dbl.fin (Real.log S) := by
  have hS : 0 < (∑ j ∈ Finset.range n,
        if i = j then prior + (C_K_ij (K * n * n + i * n + j) : ℝ)
        else if 0 = C_K_ij (K * n * n + i * n + j) + C_K_ij (K * n * n + j * n + i) then 0
        else ((C_K_ij (K * n * n + i * n + j) + C_K_ij (K * n * n + j * n + i) : Int) : ℝ)
          * Real.exp (ln (K * n + i) - fr (K * n + j))
          / (Real.exp (ln (K * n + j) - fr (K * n + i))
              + Real.exp (ln (K * n + i) - fr (K * n + j)))) := by
    apply Finset.sum_pos'
    · intro j hj
      have hj' := Finset.mem_range.mp hj
      have h1 : (0 : ℝ) ≤ (C_K_ij (K * n * n + i * n + j) : ℝ) := by
        exact_mod_cast hC K hK i hi j hj'
      have h2 : (0 : ℝ) ≤ ((C_K_ij (K * n * n + i * n + j)
          + C_K_ij (K * n * n + j * n + i) : Int) : ℝ) := by
        exact_mod_cast add_nonneg (hC K hK i hi j hj') (hC K hK j hj' i hi)
      split_ifs
      · linarith
      · exact le_refl _
      · positivity
    · refine ⟨i, Finset.mem_range.mpr hi, ?_⟩
      have h1 : (0 : ℝ) ≤ (C_K_ij (K * n * n + i * n + i) : ℝ) := by
        exact_mod_cast hC K hK i hi i hi
      rw [if_pos rfl]
      linarith
  refine ⟨_, rfl, hS, ?_⟩
  · rw [iterate_lognu_apply _ _ _ _ _ _ _ _ _ K i hK hi]
    rw [Dbl.sumExpList_filterMap _ (fun j =>
        if i = j then prior + (C_K_ij (K * n * n + i * n + j) : ℝ)
        else if 0 = C_K_ij (K * n * n + i * n + j) + C_K_ij (K * n * n + j * n + i) then 0
        else ((C_K_ij (K * n * n + i * n + j) + C_K_ij (K * n * n + j * n + i) : Int) : ℝ)
          * Real.exp (ln (K * n + i) - fr (K * n + j))
          / (Real.exp (ln (K * n + j) - fr (K * n + i))
              + Real.exp (ln (K * n + i) - fr (K * n + j)))) n]
    · exact Dbl.log_fin_of_pos hS
    · intro j hj
      by_cases hij : i = j
      · right
        have h1 : (0 : ℝ) ≤ (C_K_ij (K * n * n + i * n + j) : ℝ) := by
          exact_mod_cast hC K hK i hi j hj
        refine ⟨Real.log (prior + (C_K_ij (K * n * n + i * n + j) : ℝ)), ?_, ?_⟩
        · simp only [lognuTerm, if_pos hij]
          rw [diag_value prior hprior _ (hC K hK i hi j hj)]
        · simp only [if_pos hij]
          exact Real.exp_log (by linarith)
      · have hw := wrapInt_add_counts (hC K hK i hi j hj) (hC K hK j hj i hi)
          (hpair K hK i hi j hj hij)
        by_cases hck : 0 = C_K_ij (K * n * n + i * n + j) + C_K_ij (K * n * n + j * n + i)
        · left
          simp only [lognuTerm, if_neg hij, hw, if_pos hck, and_self]
        · right
          have hpos : 0 < C_K_ij (K * n * n + i * n + j) + C_K_ij (K * n * n + j * n + i) :=
            lt_of_le_of_ne (add_nonneg (hC K hK i hi j hj) (hC K hK j hj i hi)) hck
          obtain ⟨t, ht, hexp⟩ := lognu_regular_value _ hpos (ln (K * n + i)) (ln (K * n + j))
            (fr (K * n + i)) (fr (K * n + j))
          refine ⟨t, ?_, ?_⟩
          · simp only [lognuTerm, if_neg hij, hw, if_neg hck, hln K hK i hi, hln K hK j hj,
              hf K hK i hi, hf K hK j hj]
            rw [ht]
          · simp only [if_neg hij, if_neg hck]
            exact hexp

lemma filterMap_single {α : Type} (v : α) (n i : Nat) (hi : i < n) :
    (List.range n).filterMap (fun j => if i = j then some v else none) = [v] := by
  induction n with
  | zero => omega
  | succ n ih =>
    rw [List.range_succ, List.filterMap_append]
    by_cases h : i = n
    · subst h
      have h0 : (List.range i).filterMap (fun j => if i = j then some v else none) = [] := by
        rw [List.filterMap_eq_nil_iff]
        intro j hj
        have : j < i := List.mem_range.mp hj
        rw [if_neg (by omega)]
      rw [h0]
      simp
    · rw [ih (by omega)]
      simp [h]

/-- With all counts zero, the `j` loop of `_iterate_lognu` appends the diagonal value
`LOG_PRIOR` and nothing else. -/
lemma lognu_terms_zero {α : Type} [CDouble α] (PRIOR LOG_PRIOR : α)
    (log_nu_K_i f_K_i : Nat → α) (C_K_ij : Nat → Int) (n KM KMM i : Nat) (hi : i < n)
    (hC : ∀ j < n, C_K_ij (KMM + i * n + j) = 0 ∧ C_K_ij (KMM + j * n + i) = 0) :
    (List.range n).filterMap (lognuTerm PRIOR LOG_PRIOR log_nu_K_i f_K_i C_K_ij n KM KMM i)
      = [LOG_PRIOR] := by
  rw [← filterMap_single LOG_PRIOR n i hi]
  apply List.filterMap_congr
  intro j hj
  obtain ⟨h1, h2⟩ := hC j (List.mem_range.mp hj)
  simp [lognuTerm, h1, h2]

/-- C3: with all counts zero, the `j` loop of `_iterate_lognu` leaves exactly one value
in `scratch_M` (`o = 1`), the diagonal value `LOG_PRIOR`, whatever `log_nu` and `f`
hold, and `new_log_nu[K][i] = log(prior)`. -/
theorem iterate_lognu_zero_counts (prior : ℝ) (hprior : 0 < prior)
    (log_nu_K_i f_K_i : Nat → Dbl) (C_K_ij : Nat → Int) (nT n : Nat)
    (scratch_M new_log_nu_K_i : Nat → Dbl)
    (hC : ∀ K < nT, ∀ i < n, ∀ j < n, C_K_ij (K * n * n + i * n + j) = 0)
    (K i : Nat) (hK : K < nT) (hi : i < n) :
    (∀ s : Nat → Dbl,
      (_iterate_lognu_scratch (Dbl.fin prior) (Dbl.fin (Real.log prior)) log_nu_K_i f_K_i
        C_K_ij n (K * n) (K * n * n) i s).2 = 1
      ∧ (_iterate_lognu_scratch (Dbl.fin prior) (Dbl.fin (Real.log prior)) log_nu_K_i f_K_i
        C_K_ij n (K * n) (K * n * n) i s).1 0 = Dbl.fin (Real.log prior))
    ∧ (_iterate_lognu (Dbl.fin prior) (Dbl.fin (Real.log prior)) log_nu_K_i f_K_i C_K_ij
        nT n scratch_M new_log_nu_K_i).2 (K * n + i) = Dbl.fin (Real.log prior) := by
  have hterms := lognu_terms_zero (Dbl.fin prior) (Dbl.fin (Real.log prior)) log_nu_K_i
    f_K_i C_K_ij n (K * n) (K * n * n) i hi
    (fun j hj => ⟨hC K hK i hi j hj, hC K hK j hj i hi⟩)
  constructor
  · intro s
    have hfold : _iterate_lognu_scratch (Dbl.fin prior) (Dbl.fin (Real.log prior)) log_nu_K_i
        f_K_i C_K_ij n (K * n) (K * n * n) i s
        = (List.range n).foldl (fun st j => pushOpt st (lognuTerm (Dbl.fin prior)
            (Dbl.fin (Real.log prior)) log_nu_K_i f_K_i C_K_ij n (K * n) (K * n * n) i j))
            (s, 0) := by
      unfold _iterate_lognu_scratch
      congr 1
      funext st j
      exact iterate_lognu_j_eq _ _ _ _ _ _ _ _ _ st j
    obtain ⟨h1, -, h3⟩ := foldl_pushOpt (lognuTerm (Dbl.fin prior)
      (Dbl.fin (Real.log prior)) log_nu_K_i f_K_i C_K_ij n (K * n) (K * n * n) i)
      (List.range n) s 0
    rw [hterms] at h1 h3
    rw [hfold]
    refine ⟨by simpa using h1, ?_⟩
    simpa using h3
  · rw [iterate_lognu_apply _ _ _ _ _ _ _ _ _ K i hK hi, hterms]
    simp [Dbl.sumExpList, Real.exp_log hprior, Dbl.log_fin_of_pos hprior]

/-- A concrete instance of C3: one ensemble, two states, `log_nu` all NaN and `f` all
`+inf`. -/
theorem iterate_lognu_zero_counts_witness :
    (∀ s : Nat → Dbl,
      (_iterate_lognu_scratch (Dbl.fin 1) (Dbl.fin (Real.log 1)) (fun _ => Dbl.nan)
        (fun _ => Dbl.pinf) (fun _ => 0) 2 (0 * 2) (0 * 2 * 2) 1 s).2 = 1
      ∧ (_iterate_lognu_scratch (Dbl.fin 1) (Dbl.fin (Real.log 1)) (fun _ => Dbl.nan)
        (fun _ => Dbl.pinf) (fun _ => 0) 2 (0 * 2) (0 * 2 * 2) 1 s).1 0
          = Dbl.fin (Real.log 1))
    ∧ (_iterate_lognu (Dbl.fin 1) (Dbl.fin (Real.log 1)) (fun _ => Dbl.nan)
        (fun _ => Dbl.pinf) (fun _ => 0) 1 2 (fun _ => Dbl.nan) (fun _ => Dbl.nan)).2
        (0 * 2 + 1) = Dbl.fin (Real.log 1) :=
  iterate_lognu_zero_counts 1 one_pos (fun _ => Dbl.nan) (fun _ => Dbl.pinf) (fun _ => 0) 1 2
    (fun _ => Dbl.nan) (fun _ => Dbl.nan) (fun _ _ _ _ _ _ => rfl) 0 1 (by decide) (by decide)

/-- C1 as stated fails when a row sum does not fit in an `int`: with one ensemble, two
states and the non-negative counts `C = [[2147483647, 1], [0, 0]]`, the variable `sum` of
row 0 wraps to `-2147483648`, `log` receives `prior - 2147483648 < 0` (prior `1`), and
`log_nu[0][0]` is NaN, not `log(prior + 2147483648)`. -/
theorem set_lognu_row_sum_overflow :
    (∀ q, (0 : Int) ≤ ([2147483647, 1, 0, 0] : List Int).getD q 0)
    ∧ _set_lognu (Dbl.fin 1) (fun _ => Dbl.nan)
        (fun q => ([2147483647, 1, 0, 0] : List Int).getD q 0) 1 2 (0 * 2 + 0) = Dbl.nan
    ∧ _set_lognu (Dbl.fin 1) (fun _ => Dbl.nan)
        (fun q => ([2147483647, 1, 0, 0] : List Int).getD q 0) 1 2 (0 * 2 + 0)
      ≠ Dbl.fin (Real.log (1 + ((∑ j ∈ Finset.range 2,
          (fun q => ([2147483647, 1, 0, 0] : List Int).getD q 0) (0 * (2 * 2) + 0 * 2 + j)
            : Int) : ℝ))) := by
  have hval : _set_lognu (Dbl.fin 1) (fun _ => Dbl.nan)
      (fun q => ([2147483647, 1, 0, 0] : List Int).getD q 0) 1 2 (0 * 2 + 0) = Dbl.nan := by
    rw [set_lognu_apply_int _ _ _ 1 2 0 0 (by decide) (by decide)]
    have hsum : intSum (fun j => (fun q => ([2147483647, 1, 0, 0] : List Int).getD q 0)
        (0 * (2 * 2) + 0 * 2 + j)) 2 = -2147483648 := by decide
    rw [hsum]
    simp only [Dbl.hadd_eq, Dbl.ofInt_eq, Dbl.clog_eq, Dbl.add_fin_fin, Dbl.log]
    rw [if_pos (by norm_num)]
  refine ⟨?_, hval, ?_⟩
  · intro q
    rcases q with _ | _ | _ | _ | q <;> simp
  · rw [hval]
    exact fun h => Dbl.noConfusion h

/-- C1, amended: for non-negative counts whose row sums fit in an `int` (are at most
`2147483647`), `_set_lognu` writes `log_nu[K][i] = log(prior + Σ_j C[K][i][j])`, a real
(finite) number, and the argument of the logarithm is at least `prior`. -/
theorem set_lognu_row_sum (prior : ℝ) (hprior : 0 < prior) (log_nu_K_i : Nat → Dbl)
    (C_K_ij : Nat → Int) (nT n : Nat)
    (hC : ∀ K < nT, ∀ i < n, ∀ j < n, 0 ≤ C_K_ij (K * (n * n) + i * n + j))
    (hrow : ∀ K < nT, ∀ i < n,
      ∑ j ∈ Finset.range n, C_K_ij (K * (n * n) + i * n + j) ≤ 2147483647)
    (K i : Nat) (hK : K < nT) (hi : i < n) :
    _set_lognu (Dbl.fin prior) log_nu_K_i C_K_ij nT n (K * n + i)
      = Dbl.fin (Real.log
          (prior + ((∑ j ∈ Finset.range n, C_K_ij (K * (n * n) + i * n + j) : Int) : ℝ)))
    ∧ prior ≤ prior + ((∑ j ∈ Finset.range n, C_K_ij (K * (n * n) + i * n + j) : Int) : ℝ) := by
  have hsum : (0 : ℝ) ≤ ((∑ j ∈ Finset.range n, C_K_ij (K * (n * n) + i * n + j) : Int) : ℝ) := by
    exact_mod_cast Finset.sum_nonneg (fun j hj => hC K hK i hi j (Finset.mem_range.mp hj))
  refine ⟨?_, by linarith⟩
  rw [set_lognu_apply _ _ _ _ _ _ _ hK hi (hC K hK i hi) (hrow K hK i hi)]
  simp only [Dbl.hadd_eq, Dbl.ofInt_eq, Dbl.clog_eq, Dbl.add_fin_fin]
  exact Dbl.log_fin_of_pos (by linarith)

/-- A concrete instance of the amended C1: two ensembles, two states, all counts 3. -/
theorem set_lognu_row_sum_witness :
    _set_lognu (Dbl.fin 1) (fun _ => Dbl.nan) (fun _ => 3) 2 2 (1 * 2 + 0)
      = Dbl.fin (Real.log
          (1 + ((∑ j ∈ Finset.range 2, (fun _ => (3 : Int)) (1 * (2 * 2) + 0 * 2 + j) : Int) : ℝ)))
    ∧ (1 : ℝ) ≤ 1 + ((∑ j ∈ Finset.range 2,
        (fun _ => (3 : Int)) (1 * (2 * 2) + 0 * 2 + j) : Int) : ℝ) :=
  set_lognu_row_sum 1 one_pos (fun _ => Dbl.nan) (fun _ => 3) 2 2
    (fun _ _ _ _ _ _ => by norm_num) (fun _ _ _ _ => by simp) 1 0 (by decide) (by decide)

/-- C2 as stated fails when a symmetrized count does not fit in an `int`: with one
ensemble, two states, `log_nu = f = 0`, prior `1` and the non-negative counts
`C = [[0, 1073741824], [1073741824, 0]]`, `CK` wraps to `-2147483648`, `log((double) CK)`
is NaN and `new_log_nu[0][0]` is NaN, not a real number. -/
theorem iterate_lognu_closed_form_overflow :
    (∀ q, (0 : Int) ≤ ([0, 1073741824, 1073741824, 0] : List Int).getD q 0)
    ∧ (_iterate_lognu (Dbl.fin 1) (Dbl.fin (Real.log 1)) (fun _ => Dbl.fin 0)
        (fun _ => Dbl.fin 0) (fun q => ([0, 1073741824, 1073741824, 0] : List Int).getD q 0)
        1 2 (fun _ => Dbl.nan) (fun _ => Dbl.nan)).2 (0 * 2 + 0) = Dbl.nan
    ∧ ¬ ∃ r : ℝ, (_iterate_lognu (Dbl.fin 1) (Dbl.fin (Real.log 1)) (fun _ => Dbl.fin 0)
        (fun _ => Dbl.fin 0) (fun q => ([0, 1073741824, 1073741824, 0] : List Int).getD q 0)
        1 2 (fun _ => Dbl.nan) (fun _ => Dbl.nan)).2 (0 * 2 + 0) = Dbl.fin r := by
  have hval : (_iterate_lognu (Dbl.fin 1) (Dbl.fin (Real.log 1)) (fun _ => Dbl.fin 0)
      (fun _ => Dbl.fin 0) (fun q => ([0, 1073741824, 1073741824, 0] : List Int).getD q 0)
      1 2 (fun _ => Dbl.nan) (fun _ => Dbl.nan)).2 (0 * 2 + 0) = Dbl.nan := by
    rw [iterate_lognu_apply _ _ _ _ _ _ _ _ _ 0 0 (by decide) (by decide)]
    have hck : wrapInt (1073741824 + 1073741824) = -2147483648 := by decide
    have hterms : (List.range 2).filterMap (lognuTerm (Dbl.fin 1) (Dbl.fin (Real.log 1))
        (fun _ => Dbl.fin 0) (fun _ => Dbl.fin 0)
        (fun q => ([0, 1073741824, 1073741824, 0] : List Int).getD q 0) 2 (0 * 2) (0 * 2 * 2) 0)
        = [Dbl.fin (Real.log 1), Dbl.nan] := by
      have hck2 : wrapInt 2147483648 = -2147483648 := by decide
      have hlog : Dbl.log (Dbl.fin (-2147483648)) = Dbl.nan :=
        Dbl.log_fin_neg (by norm_num)
      simp [List.range_succ, lognuTerm, hck, hck2, hlog]
    rw [hterms]
    simp [Dbl.sumExpList]
  refine ⟨?_, hval, ?_⟩
  · intro q
    rcases q with _ | _ | _ | _ | q <;> simp
  · rw [hval]
    rintro ⟨r, hr⟩
    exact Dbl.noConfusion hr

/-- C2, amended: for real `log_nu` and `f` and non-negative counts whose symmetrized
counts `C[K][i][j] + C[K][j][i]` (`i ≠ j`) fit in an `int`, `new_log_nu[K][i]` is a real
number `r` with `exp r = (prior + C[K][i][i]) + Σ CK * exp(log_nu[K][i] - f[K][j]) /
(exp(log_nu[K][j] - f[K][i]) + exp(log_nu[K][i] - f[K][j]))`, the sum over the `j ≠ i`
with `CK = C[K][i][j] + C[K][j][i] > 0`. -/
theorem iterate_lognu_closed_form (prior : ℝ) (hprior : 0 < prior)
    (log_nu_K_i f_K_i : Nat → Dbl) (ln fr : Nat → ℝ) (C_K_ij : Nat → Int) (nT n : Nat)
    (scratch_M new_log_nu_K_i : Nat → Dbl)
    (hln : ∀ K < nT, ∀ i < n, log_nu_K_i (K * n + i) = Dbl.fin (ln (K * n + i)))
    (hf : ∀ K < nT, ∀ i < n, f_K_i (K * n + i) = Dbl.fin (fr (K * n + i)))
    (hC : ∀ K < nT, ∀ i < n, ∀ j < n, 0 ≤ C_K_ij (K * n * n + i * n + j))
    (hpair : ∀ K < nT, ∀ i < n, ∀ j < n, i ≠ j →
      C_K_ij (K * n * n + i * n + j) + C_K_ij (K * n * n + j * n + i) ≤ 2147483647)
    (K i : Nat) (hK : K < nT) (hi : i < n) :
    ∃ r : ℝ,
      (_iterate_lognu (Dbl.fin prior) (Dbl.fin (Real.log prior)) log_nu_K_i f_K_i C_K_ij
        nT n scratch_M new_log_nu_K_i).2 (K * n + i) = Dbl.fin r
      ∧ Real.exp r = (prior + (C_K_ij (K * n * n + i * n + i) : ℝ))
        + ∑ j ∈ (Finset.range n).filter (fun j => j ≠ i
              ∧ 0 < C_K_ij (K * n * n + i * n + j) + C_K_ij (K * n * n + j * n + i)),
            ((C_K_ij (K * n * n + i * n + j) + C_K_ij (K * n * n + j * n + i) : Int) : ℝ)
              * Real.exp (ln (K * n + i) - fr (K * n + j))
              / (Real.exp (ln (K * n + j) - fr (K * n + i))
                  + Real.exp (ln (K * n + i) - fr (K * n + j))) := by
  obtain ⟨S, hS, hpos, hval⟩ := iterate_lognu_value prior hprior log_nu_K_i f_K_i ln fr
    C_K_ij nT n scratch_M new_log_nu_K_i hln hf hC hpair K i hK hi
  refine ⟨Real.log S, hval, ?_⟩
  have hdiag : prior + (C_K_ij (K * n * n + i * n + i) : ℝ)
      = ∑ j ∈ Finset.range n,
          if j = i then prior + (C_K_ij (K * n * n + i * n + j) : ℝ) else 0 := by
    rw [Finset.sum_ite_eq' (Finset.range n) i, if_pos (Finset.mem_range.mpr hi)]
  rw [Real.exp_log hpos, hS, Finset.sum_filter, hdiag, ← Finset.sum_add_distrib]
  apply Finset.sum_congr rfl
  intro j hj
  have hj' := Finset.mem_range.mp hj
  have hck : 0 ≤ C_K_ij (K * n * n + i * n + j) + C_K_ij (K * n * n + j * n + i) :=
    add_nonneg (hC K hK i hi j hj') (hC K hK j hj' i hi)
  by_cases hij : i = j
  · subst hij
    simp
  · have hji : ¬ j = i := fun h => hij h.symm
    by_cases h0 : 0 = C_K_ij (K * n * n + i * n + j) + C_K_ij (K * n * n + j * n + i)
    · have hlt : ¬ 0 < C_K_ij (K * n * n + i * n + j) + C_K_ij (K * n * n + j * n + i) := by
        rw [← h0]; exact lt_irrefl 0
      simp only [if_neg hij, if_neg hji, if_pos h0, hlt, and_false, if_false, add_zero]
    · have hlt : 0 < C_K_ij (K * n * n + i * n + j) + C_K_ij (K * n * n + j * n + i) :=
        lt_of_le_of_ne hck h0
      simp only [if_neg hij, if_neg hji, if_neg h0, hlt, and_true, zero_add, ne_eq,
        not_false_eq_true, if_true]
      rw [if_pos hji]

/-- A concrete instance of the amended C2: one ensemble, two states, all counts 1. -/
theorem iterate_lognu_closed_form_witness :
    ∃ r : ℝ,
      (_iterate_lognu (Dbl.fin 1) (Dbl.fin (Real.log 1)) (fun _ => Dbl.fin 0)
        (fun _ => Dbl.fin 0) (fun _ => 1) 1 2 (fun _ => Dbl.nan) (fun _ => Dbl.nan)).2
        (0 * 2 + 1) = Dbl.fin r
      ∧ Real.exp r = (1 + (((fun _ => 1) (0 * 2 * 2 + 1 * 2 + 1) : Int) : ℝ))
        + ∑ j ∈ (Finset.range 2).filter (fun j => j ≠ 1
              ∧ 0 < (fun _ => (1 : Int)) (0 * 2 * 2 + 1 * 2 + j)
                  + (fun _ => (1 : Int)) (0 * 2 * 2 + j * 2 + 1)),
            (((fun _ => 1) (0 * 2 * 2 + 1 * 2 + j)
                + (fun _ => 1) (0 * 2 * 2 + j * 2 + 1) : Int) : ℝ)
              * Real.exp ((fun _ => 0) (0 * 2 + 1) - (fun _ => 0) (0 * 2 + j))
              / (Real.exp ((fun _ => 0) (0 * 2 + j) - (fun _ => 0) (0 * 2 + 1))
                  + Real.exp ((fun _ => 0) (0 * 2 + 1) - (fun _ => 0) (0 * 2 + j))) :=
  iterate_lognu_closed_form 1 one_pos (fun _ => Dbl.fin 0) (fun _ => Dbl.fin 0)
    (fun _ => 0) (fun _ => 0) (fun _ => 1) 1 2 (fun _ => Dbl.nan) (fun _ => Dbl.nan)
    (fun _ _ _ _ => rfl) (fun _ _ _ _ => rfl) (fun _ _ _ _ _ _ => by norm_num)
    (fun _ _ _ _ _ _ _ => by norm_num) 0 1 (by decide) (by decide)

/-! ## `_iterate_fki`, step 1: `log_R_K_i` -/

lemma iterate_fki_j_eq {α : Type} [CDouble α] (PRIOR LOG_PRIOR : α)
    (log_nu_K_i f_K_i : Nat → α) (C_K_ij : Nat → Int) (n KM KMM i : Nat)
    (st : (Nat → α) × Nat × Int) (j : Nat) :
    _iterate_fki_j PRIOR LOG_PRIOR log_nu_K_i f_K_i C_K_ij n KM KMM i st j
      = ((pushOpt (st.1, st.2.1)
            (fkiTerm PRIOR LOG_PRIOR log_nu_K_i f_K_i C_K_ij n KM KMM i j)).1,
         (pushOpt (st.1, st.2.1)
            (fkiTerm PRIOR LOG_PRIOR log_nu_K_i f_K_i C_K_ij n KM KMM i j)).2,
         wrapInt (st.2.2 + C_K_ij (KMM + j * n + i))) := by
  unfold _iterate_fki_j fkiTerm
  by_cases hij : i = j
  · simp only [if_pos hij, pushOpt, Function.update_same, Function.update_idem]
  · simp only [if_neg hij]
    split_ifs <;> rfl

/-- After the `j` loop of step 1 of `_iterate_fki`: the scratch array and its write
index are those of a loop that appends the values `fkiTerm`, and `Ci` is the `int` sum
of the column of the counts. -/
lemma iterate_fki_scratch_eq {α : Type} [CDouble α] (PRIOR LOG_PRIOR : α)
    (log_nu_K_i f_K_i : Nat → α) (C_K_ij : Nat → Int) (n KM KMM i : Nat) (s : Nat → α) :
    ((_iterate_fki_scratch PRIOR LOG_PRIOR log_nu_K_i f_K_i C_K_ij n KM KMM i s).1,
      (_iterate_fki_scratch PRIOR LOG_PRIOR log_nu_K_i f_K_i C_K_ij n KM KMM i s).2.1)
      = (List.range n).foldl (fun st j => pushOpt st
          (fkiTerm PRIOR LOG_PRIOR log_nu_K_i f_K_i C_K_ij n KM KMM i j)) (s, 0)
    ∧ (_iterate_fki_scratch PRIOR LOG_PRIOR log_nu_K_i f_K_i C_K_ij n KM KMM i s).2.2
      = intSum (fun j => C_K_ij (KMM + j * n + i)) n := by
  unfold _iterate_fki_scratch
  constructor
  · exact foldl_proj (fun st : (Nat → α) × Nat × Int => (st.1, st.2.1)) _
      (fun st j => pushOpt st (fkiTerm PRIOR LOG_PRIOR log_nu_K_i f_K_i C_K_ij n KM KMM i j))
      (fun st j => by rw [iterate_fki_j_eq]) (List.range n) (s, 0, 0)
  · unfold intSum
    exact foldl_proj (fun st : (Nat → α) × Nat × Int => st.2.2) _
      (fun c j => wrapInt (c + C_K_ij (KMM + j * n + i)))
      (fun st j => by rw [iterate_fki_j_eq]) (List.range n) (s, 0, 0)

/-- What `_logsumexp(scratch_M, o)` returns after the `j` loop of step 1 of
`_iterate_fki`: it does not depend on what `scratch_M` held before the loop. -/
lemma iterate_fki_scratch_lse (PRIOR LOG_PRIOR : Dbl) (log_nu_K_i f_K_i : Nat → Dbl)
    (C_K_ij : Nat → Int) (n KM KMM i : Nat) (s : Nat → Dbl) :
    _logsumexp
      (_iterate_fki_scratch PRIOR LOG_PRIOR log_nu_K_i f_K_i C_K_ij n KM KMM i s).1
      (_iterate_fki_scratch PRIOR LOG_PRIOR log_nu_K_i f_K_i C_K_ij n KM KMM i s).2.1
    = Dbl.log (Dbl.sumExpList ((List.range n).filterMap
        (fkiTerm PRIOR LOG_PRIOR log_nu_K_i f_K_i C_K_ij n KM KMM i))) := by
  have h := (iterate_fki_scratch_eq PRIOR LOG_PRIOR log_nu_K_i f_K_i C_K_ij n KM KMM i s).1
  have h1 := congrArg Prod.fst h
  have h2 := congrArg Prod.snd h
  simp only at h1 h2
  rw [h1, h2, Dbl.clse_eq, foldl_pushOpt_zero]

/-- The cell `(K, i)` of `log_R_K_i` after step 1 of `_iterate_fki`. -/
lemma iterate_fki_R_apply (PRIOR LOG_PRIOR : Dbl) (log_nu_K_i f_K_i : Nat → Dbl)
    (C_K_ij : Nat → Int) (N_K_i : Nat → Int) (nT n : Nat) (scratch_M log_R_K_i : Nat → Dbl)
    (K i : Nat) (hK : K < nT) (hi : i < n) :
    (_iterate_fki_R PRIOR LOG_PRIOR log_nu_K_i f_K_i C_K_ij N_K_i nT n scratch_M
      log_R_K_i).2 (K * n + i)
    = _logsumexp_pair
        (Dbl.log (Dbl.sumExpList ((List.range n).filterMap
          (fkiTerm PRIOR LOG_PRIOR log_nu_K_i f_K_i C_K_ij n (K * n) (K * n * n) i))))
        (if 0 < fkiNC C_K_ij N_K_i n K i
          then log (ofInt (fkiNC C_K_ij N_K_i n K i)) + f_K_i (K * n + i)
          else -INFINITY) := by
  unfold _iterate_fki_R
  rw [foldl_proj Prod.snd _ (fun out K => (List.range n).foldl (fun out i =>
    Function.update out (K * n + i) (_logsumexp_pair
        (Dbl.log (Dbl.sumExpList ((List.range n).filterMap
          (fkiTerm PRIOR LOG_PRIOR log_nu_K_i f_K_i C_K_ij n (K * n) (K * n * n) i))))
        (if 0 < fkiNC C_K_ij N_K_i n K i
          then log (ofInt (fkiNC C_K_ij N_K_i n K i)) + f_K_i (K * n + i)
          else -INFINITY))) out)]
  · exact foldl_grid_apply (fun K i _ => _logsumexp_pair
        (Dbl.log (Dbl.sumExpList ((List.range n).filterMap
          (fkiTerm PRIOR LOG_PRIOR log_nu_K_i f_K_i C_K_ij n (K * n) (K * n * n) i))))
        (if 0 < fkiNC C_K_ij N_K_i n K i
          then log (ofInt (fkiNC C_K_ij N_K_i n K i)) + f_K_i (K * n + i)
          else -INFINITY))
      nT n log_R_K_i K i hK hi
  · intro st K
    apply foldl_proj Prod.snd
    intro st i
    simp only [iterate_fki_scratch_lse, (iterate_fki_scratch_eq _ _ _ _ _ _ _ _ _ _).2, fkiNC]

/-- The regular-case value of the `j` loop of step 1 of `_iterate_fki`, on real inputs. -/
lemma fki_regular_value (ck : Int) (hck : 0 < ck) (li lj fi fj : ℝ) :
    ∃ t, log (ofInt ck) + Dbl.fin lj
          - _logsumexp_pair (Dbl.fin lj - Dbl.fin fi) (Dbl.fin li - Dbl.fin fj) = Dbl.fin t
      ∧ Real.exp t = (ck : ℝ) * Real.exp lj
          / (Real.exp (lj - fi) + Real.exp (li - fj)) := by
  have hck' : (0 : ℝ) < (ck : ℝ) := by exact_mod_cast hck
  have hD : 0 < Real.exp (lj - fi) + Real.exp (li - fj) := by positivity
  refine ⟨Real.log ck + lj - Real.log (Real.exp (lj - fi) + Real.exp (li - fj)), ?_, ?_⟩
  · simp only [Dbl.hsub_eq, Dbl.neg_fin, Dbl.add_fin_fin, lse_pair_fin, Dbl.clog_eq,
      Dbl.ofInt_eq, Dbl.log_fin_of_pos hck', Dbl.hadd_eq, sub_eq_add_neg]
  · rw [Real.exp_sub, Real.exp_log hD, Real.exp_add, Real.exp_log hck']

/-- The closed form of cell `(K, i)` of `log_R_K_i` on real inputs and non-negative
counts whose symmetrized counts fit in an `int`: the logarithm of a positive sum with
one summand per pass of the `j` loop and one for `R_addon`, in which `NC` is the value
`fkiNC` of the `int` variable. -/
lemma iterate_fki_R_value (prior : ℝ) (hprior : 0 < prior) (log_nu_K_i f_K_i : Nat → Dbl)
    (ln fr : Nat → ℝ) (C_K_ij N_K_i : Nat → Int) (nT n : Nat)
    (scratch_M log_R_K_i : Nat → Dbl)
    (hln : ∀ K < nT, ∀ i < n, log_nu_K_i (K * n + i) = Dbl.fin (ln (K * n + i)))
    (hf : ∀ K < nT, ∀ i < n, f_K_i (K * n + i) = Dbl.fin (fr (K * n + i)))
    (hC : ∀ K < nT, ∀ i < n, ∀ j < n, 0 ≤ C_K_ij (K * n * n + i * n + j))
    (hpair : ∀ K < nT, ∀ i < n, ∀ j < n, i ≠ j →
      C_K_ij (K * n * n + i * n + j) + C_K_ij (K * n * n + j * n + i) ≤ 2147483647)
    (K i : Nat) (hK : K < nT) (hi : i < n) :
    ∃ S : ℝ, S = (∑ j ∈ Finset.range n,
        if i = j then (prior + (C_K_ij (K * n * n + i * n + j) : ℝ)) * Real.exp (fr (K * n + i))
        else if 0 = C_K_ij (K * n * n + i * n + j) + C_K_ij (K * n * n + j * n + i) then 0
        else ((C_K_ij (K * n * n + i * n + j) + C_K_ij (K * n * n + j * n + i) : Int) : ℝ)
          * Real.exp (ln (K * n + j))
          / (Real.exp (ln (K * n + j) - fr (K * n + i))
              + Real.exp (ln (K * n + i) - fr (K * n + j))))
        + (if 0 < fkiNC C_K_ij N_K_i n K i
            then ((fkiNC C_K_ij N_K_i n K i : Int) : ℝ) * Real.exp (fr (K * n + i))
            else 0)
      ∧ 0 < S
      ∧ (_iterate_fki_R (Dbl.fin prior) (Dbl.fin (Real.log prior)) log_nu_K_i f_K_i C_K_ij
          N_K_i nT n scratch_M log_R_K_i).2 (K * n + i) = Dbl.fin (Real.log S) := by
  have hS1 : 0 < (∑ j ∈ Finset.range n,
        if i = j then (prior + (C_K_ij (K * n * n + i * n + j) : ℝ)) * Real.exp (fr (K * n + i))
        else if 0 = C_K_ij (K * n * n + i * n + j) + C_K_ij (K * n * n + j * n + i) then 0
        else ((C_K_ij (K * n * n + i * n + j) + C_K_ij (K * n * n + j * n + i) : Int) : ℝ)
          * Real.exp (ln (K * n + j))
          / (Real.exp (ln (K * n + j) - fr (K * n + i))
              + Real.exp (ln (K * n + i) - fr (K * n + j)))) := by
    apply Finset.sum_pos'
    · intro j hj
      have hj' := Finset.mem_range.mp hj
      have h1 : (0 : ℝ) ≤ (C_K_ij (K * n * n + i * n + j) : ℝ) := by
        exact_mod_cast hC K hK i hi j hj'
      have h2 : (0 : ℝ) ≤ ((C_K_ij (K * n * n + i * n + j)
          + C_K_ij (K * n * n + j * n + i) : Int) : ℝ) := by
        exact_mod_cast add_nonneg (hC K hK i hi j hj') (hC K hK j hj' i hi)
      split_ifs
      · positivity
      · exact le_refl _
      · positivity
    · refine ⟨i, Finset.mem_range.mpr hi, ?_⟩
      have h1 : (0 : ℝ) ≤ (C_K_ij (K * n * n + i * n + i) : ℝ) := by
        exact_mod_cast hC K hK i hi i hi
      rw [if_pos rfl]
      positivity
  have hterms := Dbl.sumExpList_filterMap
      (fkiTerm (Dbl.fin prior) (Dbl.fin (Real.log prior)) log_nu_K_i f_K_i C_K_ij n
        (K * n) (K * n * n) i)
      (fun j =>
        if i = j then (prior + (C_K_ij (K * n * n + i * n + j) : ℝ)) * Real.exp (fr (K * n + i))
        else if 0 = C_K_ij (K * n * n + i * n + j) + C_K_ij (K * n * n + j * n + i) then 0
        else ((C_K_ij (K * n * n + i * n + j) + C_K_ij (K * n * n + j * n + i) : Int) : ℝ)
          * Real.exp (ln (K * n + j))
          / (Real.exp (ln (K * n + j) - fr (K * n + i))
              + Real.exp (ln (K * n + i) - fr (K * n + j)))) n (by
    intro j hj
    by_cases hij : i = j
    · right
      have h1 : (0 : ℝ) ≤ (C_K_ij (K * n * n + i * n + j) : ℝ) := by
        exact_mod_cast hC K hK i hi j hj
      refine ⟨Real.log (prior + (C_K_ij (K * n * n + i * n + j) : ℝ)) + fr (K * n + i), ?_, ?_⟩
      · simp only [fkiTerm, if_pos hij]
        rw [diag_value prior hprior _ (hC K hK i hi j hj), hf K hK i hi]
        rfl
      · simp only [if_pos hij]
        rw [Real.exp_add, Real.exp_log (by linarith)]
    · have hw := wrapInt_add_counts (hC K hK i hi j hj) (hC K hK j hj i hi)
        (hpair K hK i hi j hj hij)
      by_cases hck : 0 = C_K_ij (K * n * n + i * n + j) + C_K_ij (K * n * n + j * n + i)
      · left
        simp only [fkiTerm, if_neg hij, hw, if_pos hck, and_self]
      · right
        have hpos : 0 < C_K_ij (K * n * n + i * n + j) + C_K_ij (K * n * n + j * n + i) :=
          lt_of_le_of_ne (add_nonneg (hC K hK i hi j hj) (hC K hK j hj i hi)) hck
        obtain ⟨t, ht, hexp⟩ := fki_regular_value _ hpos (ln (K * n + i)) (ln (K * n + j))
          (fr (K * n + i)) (fr (K * n + j))
        refine ⟨t, ?_, ?_⟩
        · simp only [fkiTerm, if_neg hij, hw, if_neg hck, hln K hK i hi, hln K hK j hj,
            hf K hK i hi, hf K hK j hj]
          rw [ht]
        · simp only [if_neg hij, if_neg hck]
          exact hexp)
  rw [iterate_fki_R_apply _ _ _ _ _ _ _ _ _ _ K i hK hi, hterms, Dbl.log_fin_of_pos hS1]
  by_cases hNC : 0 < fkiNC C_K_ij N_K_i n K i
  · have hNC' : (0 : ℝ) < ((fkiNC C_K_ij N_K_i n K i : Int) : ℝ) := by
      exact_mod_cast hNC
    simp only [if_pos hNC]
    refine ⟨_, rfl, by positivity, ?_⟩
    rw [hf K hK i hi]
    simp only [Dbl.clog_eq, Dbl.ofInt_eq, Dbl.log_fin_of_pos hNC', Dbl.hadd_eq,
      Dbl.add_fin_fin, lse_pair_fin, Real.exp_log hS1, Real.exp_add, Real.exp_log hNC']
  · simp only [if_neg hNC]
    refine ⟨_, rfl, by linarith, ?_⟩
    simp only [Dbl.clsep_eq, Dbl.cinf_eq, Dbl.hneg_eq, Dbl.neg_pinf, Dbl.exp_ninf,
      Dbl.exp_fin, Dbl.add_fin_fin, Real.exp_log hS1]
    exact Dbl.log_fin_of_pos (by linarith)

/-- The `int` variable `NC` holds `N[K][i] - Σ_j C[K][j][i]` when the counts of the
column are non-negative, their sum fits in an `int` and the difference is in the range
of `int`. -/
lemma fkiNC_eq (C_K_ij N_K_i : Nat → Int) (n K i : Nat)
    (hC : ∀ j < n, 0 ≤ C_K_ij (K * n * n + j * n + i))
    (hcol : ∑ j ∈ Finset.range n, C_K_ij (K * n * n + j * n + i) ≤ 2147483647)
    (h1 : -2147483648
      ≤ N_K_i (K * n + i) - ∑ j ∈ Finset.range n, C_K_ij (K * n * n + j * n + i))
    (h2 : N_K_i (K * n + i) - ∑ j ∈ Finset.range n, C_K_ij (K * n * n + j * n + i)
      ≤ 2147483647) :
    fkiNC C_K_ij N_K_i n K i
      = N_K_i (K * n + i) - ∑ j ∈ Finset.range n, C_K_ij (K * n * n + j * n + i) := by
  unfold fkiNC
  rw [intSum_eq _ n hC hcol]
  exact wrapInt_eq h1 h2

/-- The cell `(0, 0)` of `log_R_K_i` when a symmetrized count overflows: with one
ensemble, two states, `log_nu = f = 0`, prior `1` and
`C = [[0, 1073741824], [1073741824, 0]]`, `CK` wraps to `-2147483648`,
`log((double) CK)` is NaN, and so is `log_R[0][0]`, whatever `N` is. -/
lemma fki_R_overflow (N_K_i : Nat → Int) (scratch_M log_R_K_i : Nat → Dbl) :
    (_iterate_fki_R (Dbl.fin 1) (Dbl.fin (Real.log 1)) (fun _ => Dbl.fin 0)
      (fun _ => Dbl.fin 0) (fun q => ([0, 1073741824, 1073741824, 0] : List Int).getD q 0)
      N_K_i 1 2 scratch_M log_R_K_i).2 (0 * 2 + 0) = Dbl.nan := by
  rw [iterate_fki_R_apply _ _ _ _ _ _ _ _ _ _ 0 0 (by decide) (by decide)]
  have hck : wrapInt (1073741824 + 1073741824) = -2147483648 := by decide
  have hck2 : wrapInt 2147483648 = -2147483648 := by decide
  have hlog : Dbl.log (Dbl.fin (-2147483648)) = Dbl.nan := Dbl.log_fin_neg (by norm_num)
  have hterms : (List.range 2).filterMap (fkiTerm (Dbl.fin 1) (Dbl.fin (Real.log 1))
      (fun _ => Dbl.fin 0) (fun _ => Dbl.fin 0)
      (fun q => ([0, 1073741824, 1073741824, 0] : List Int).getD q 0) 2 (0 * 2) (0 * 2 * 2) 0)
      = [Dbl.fin (Real.log 1), Dbl.nan] := by
    simp [List.range_succ, fkiTerm, hck, hck2, hlog]
  rw [hterms]
  simp [Dbl.sumExpList]

/-- C6 as stated fails when a symmetrized count does not fit in an `int`: with one
ensemble, two states, `log_nu = f = 0`, prior `1`, `N = 0` and the non-negative counts
`C = [[0, 1073741824], [1073741824, 0]]`, `log_R[0][0]` is NaN, not a real number. -/
theorem iterate_fki_log_R_closed_form_overflow :
    (∀ q, (0 : Int) ≤ ([0, 1073741824, 1073741824, 0] : List Int).getD q 0)
    ∧ (_iterate_fki (Dbl.fin 1) (Dbl.fin (Real.log 1)) (fun _ => Dbl.fin 0)
        (fun _ => Dbl.fin 0) (fun q => ([0, 1073741824, 1073741824, 0] : List Int).getD q 0)
        (fun _ => Dbl.fin 0) (fun x => x % 2) (fun _ => 0) 2 (fun _ => Dbl.nan) 1 2
        (fun _ => Dbl.nan) (fun _ => Dbl.nan) (fun _ => Dbl.nan) 0).log_R_K_i (0 * 2 + 0)
      = Dbl.nan
    ∧ ¬ ∃ r : ℝ, (_iterate_fki (Dbl.fin 1) (Dbl.fin (Real.log 1)) (fun _ => Dbl.fin 0)
        (fun _ => Dbl.fin 0) (fun q => ([0, 1073741824, 1073741824, 0] : List Int).getD q 0)
        (fun _ => Dbl.fin 0) (fun x => x % 2) (fun _ => 0) 2 (fun _ => Dbl.nan) 1 2
        (fun _ => Dbl.nan) (fun _ => Dbl.nan) (fun _ => Dbl.nan) 0).log_R_K_i (0 * 2 + 0)
      = Dbl.fin r := by
  have hval : (_iterate_fki (Dbl.fin 1) (Dbl.fin (Real.log 1)) (fun _ => Dbl.fin 0)
      (fun _ => Dbl.fin 0) (fun q => ([0, 1073741824, 1073741824, 0] : List Int).getD q 0)
      (fun _ => Dbl.fin 0) (fun x => x % 2) (fun _ => 0) 2 (fun _ => Dbl.nan) 1 2
      (fun _ => Dbl.nan) (fun _ => Dbl.nan) (fun _ => Dbl.nan) 0).log_R_K_i (0 * 2 + 0)
      = Dbl.nan := fki_R_overflow _ _ _
  refine ⟨?_, hval, ?_⟩
  · intro q
    rcases q with _ | _ | _ | _ | q <;> simp
  · rw [hval]
    rintro ⟨r, hr⟩
    exact Dbl.noConfusion hr

/-- C6, amended: for real `log_nu` and `f` and non-negative counts whose symmetrized
counts (`i ≠ j`) and column sums fit in an `int`, and `N` with `NC` in the range of
`int`, the `log_R[K][i]` written by `_iterate_fki` is a real number `r` with `exp r = (prior + C[K][i][i]) * exp(f[K][i]) +
Σ CK * exp(log_nu[K][j]) / (exp(log_nu[K][j] - f[K][i]) + exp(log_nu[K][i] - f[K][j]))
+ max(NC, 0) * exp(f[K][i])`, the sum over the `j ≠ i` with
`CK = C[K][i][j] + C[K][j][i] > 0`, where `NC = N[K][i] - Σ_j C[K][j][i]`. -/
theorem iterate_fki_log_R_closed_form (prior : ℝ) (hprior : 0 < prior)
    (log_nu_K_i f_K_i : Nat → Dbl) (ln fr : Nat → ℝ) (C_K_ij : Nat → Int)
    (b_K_x : Nat → Dbl) (M_x : Nat → Nat) (N_K_i : Nat → Int) (seq_length : Nat)
    (log_R_K_i : Nat → Dbl) (nT n : Nat) (scratch_M scratch_T new_f_K_i : Nat → Dbl)
    (K_target : Nat)
    (hln : ∀ K < nT, ∀ i < n, log_nu_K_i (K * n + i) = Dbl.fin (ln (K * n + i)))
    (hf : ∀ K < nT, ∀ i < n, f_K_i (K * n + i) = Dbl.fin (fr (K * n + i)))
    (hC : ∀ K < nT, ∀ i < n, ∀ j < n, 0 ≤ C_K_ij (K * n * n + i * n + j))
    (hpair : ∀ K < nT, ∀ i < n, ∀ j < n, i ≠ j →
      C_K_ij (K * n * n + i * n + j) + C_K_ij (K * n * n + j * n + i) ≤ 2147483647)
    (hcol : ∀ K < nT, ∀ i < n,
      ∑ j ∈ Finset.range n, C_K_ij (K * n * n + j * n + i) ≤ 2147483647)
    (hNC : ∀ K < nT, ∀ i < n,
      -2147483648 ≤ N_K_i (K * n + i) - ∑ j ∈ Finset.range n, C_K_ij (K * n * n + j * n + i)
      ∧ N_K_i (K * n + i) - ∑ j ∈ Finset.range n, C_K_ij (K * n * n + j * n + i)
        ≤ 2147483647)
    (K i : Nat) (hK : K < nT) (hi : i < n) :
    ∃ r : ℝ,
      (_iterate_fki (Dbl.fin prior) (Dbl.fin (Real.log prior)) log_nu_K_i f_K_i C_K_ij b_K_x
        M_x N_K_i seq_length log_R_K_i nT n scratch_M scratch_T new_f_K_i
        K_target).log_R_K_i (K * n + i) = Dbl.fin r
      ∧ Real.exp r
        = (prior + (C_K_ij (K * n * n + i * n + i) : ℝ)) * Real.exp (fr (K * n + i))
        + (∑ j ∈ (Finset.range n).filter (fun j => j ≠ i
              ∧ 0 < C_K_ij (K * n * n + i * n + j) + C_K_ij (K * n * n + j * n + i)),
            ((C_K_ij (K * n * n + i * n + j) + C_K_ij (K * n * n + j * n + i) : Int) : ℝ)
              * Real.exp (ln (K * n + j))
              / (Real.exp (ln (K * n + j) - fr (K * n + i))
                  + Real.exp (ln (K * n + i) - fr (K * n + j))))
        + ((max (N_K_i (K * n + i)
              - ∑ j ∈ Finset.range n, C_K_ij (K * n * n + j * n + i)) 0 : Int) : ℝ)
            * Real.exp (fr (K * n + i)) := by
  obtain ⟨S, hS, hpos, hval⟩ := iterate_fki_R_value prior hprior log_nu_K_i f_K_i ln fr
    C_K_ij N_K_i nT n scratch_M log_R_K_i hln hf hC hpair K i hK hi
  rw [fkiNC_eq C_K_ij N_K_i n K i (fun j hj => hC K hK j hj i hi) (hcol K hK i hi)
    (hNC K hK i hi).1 (hNC K hK i hi).2] at hS
  refine ⟨Real.log S, hval, ?_⟩
  have hdiag : (prior + (C_K_ij (K * n * n + i * n + i) : ℝ)) * Real.exp (fr (K * n + i))
      = ∑ j ∈ Finset.range n,
          if j = i then (prior + (C_K_ij (K * n * n + i * n + j) : ℝ))
            * Real.exp (fr (K * n + i)) else 0 := by
    rw [Finset.sum_ite_eq' (Finset.range n) i, if_pos (Finset.mem_range.mpr hi)]
  have haddon : (if 0 < N_K_i (K * n + i)
        - ∑ j ∈ Finset.range n, C_K_ij (K * n * n + j * n + i)
      then ((N_K_i (K * n + i)
        - ∑ j ∈ Finset.range n, C_K_ij (K * n * n + j * n + i) : Int) : ℝ)
        * Real.exp (fr (K * n + i)) else 0)
      = ((max (N_K_i (K * n + i)
          - ∑ j ∈ Finset.range n, C_K_ij (K * n * n + j * n + i)) 0 : Int) : ℝ)
        * Real.exp (fr (K * n + i)) := by
    split_ifs with h
    · rw [max_eq_left h.le]
    · rw [max_eq_right (not_lt.mp h)]; simp
  rw [Real.exp_log hpos, hS, haddon, Finset.sum_filter, hdiag, ← Finset.sum_add_distrib]
  congr 1
  apply Finset.sum_congr rfl
  intro j hj
  have hj' := Finset.mem_range.mp hj
  have hck : 0 ≤ C_K_ij (K * n * n + i * n + j) + C_K_ij (K * n * n + j * n + i) :=
    add_nonneg (hC K hK i hi j hj') (hC K hK j hj' i hi)
  by_cases hij : i = j
  · subst hij
    simp
  · have hji : ¬ j = i := fun h => hij h.symm
    by_cases h0 : 0 = C_K_ij (K * n * n + i * n + j) + C_K_ij (K * n * n + j * n + i)
    · have hlt : ¬ 0 < C_K_ij (K * n * n + i * n + j) + C_K_ij (K * n * n + j * n + i) := by
        rw [← h0]; exact lt_irrefl 0
      simp only [if_neg hij, if_neg hji, if_pos h0, hlt, and_false, if_false, add_zero]
    · have hlt : 0 < C_K_ij (K * n * n + i * n + j) + C_K_ij (K * n * n + j * n + i) :=
        lt_of_le_of_ne hck h0
      simp only [if_neg hij, if_neg hji, if_neg h0, hlt, and_true, zero_add, ne_eq,
        not_false_eq_true, if_true]
      rw [if_pos hji]

/-- A concrete instance of the amended C6: one ensemble, two states, all counts 1, `N = 5`. -/
theorem iterate_fki_log_R_closed_form_witness :
    ∃ r : ℝ,
      (_iterate_fki (Dbl.fin 1) (Dbl.fin (Real.log 1)) (fun _ => Dbl.fin 0)
        (fun _ => Dbl.fin 0) (fun _ => 1) (fun _ => Dbl.nan) (fun _ => 0) (fun _ => 5) 0
        (fun _ => Dbl.nan) 1 2 (fun _ => Dbl.nan) (fun _ => Dbl.nan) (fun _ => Dbl.nan)
        0).log_R_K_i (0 * 2 + 1) = Dbl.fin r
      ∧ Real.exp r
        = (1 + (((fun _ => 1) (0 * 2 * 2 + 1 * 2 + 1) : Int) : ℝ))
            * Real.exp ((fun _ => 0) (0 * 2 + 1))
        + (∑ j ∈ (Finset.range 2).filter (fun j => j ≠ 1
              ∧ 0 < (fun _ => (1 : Int)) (0 * 2 * 2 + 1 * 2 + j)
                  + (fun _ => (1 : Int)) (0 * 2 * 2 + j * 2 + 1)),
            (((fun _ => 1) (0 * 2 * 2 + 1 * 2 + j)
                + (fun _ => 1) (0 * 2 * 2 + j * 2 + 1) : Int) : ℝ)
              * Real.exp ((fun _ => 0) (0 * 2 + j))
              / (Real.exp ((fun _ => 0) (0 * 2 + j) - (fun _ => 0) (0 * 2 + 1))
                  + Real.exp ((fun _ => 0) (0 * 2 + 1) - (fun _ => 0) (0 * 2 + j))))
        + ((max ((fun _ => (5 : Int)) (0 * 2 + 1)
              - ∑ j ∈ Finset.range 2, (fun _ => (1 : Int)) (0 * 2 * 2 + j * 2 + 1)) 0 : Int) : ℝ)
            * Real.exp ((fun _ => 0) (0 * 2 + 1)) :=
  iterate_fki_log_R_closed_form 1 one_pos (fun _ => Dbl.fin 0) (fun _ => Dbl.fin 0)
    (fun _ => 0) (fun _ => 0) (fun _ => 1) (fun _ => Dbl.nan) (fun _ => 0) (fun _ => 5) 0
    (fun _ => Dbl.nan) 1 2 (fun _ => Dbl.nan) (fun _ => Dbl.nan) (fun _ => Dbl.nan) 0
    (fun _ _ _ _ => rfl) (fun _ _ _ _ => rfl) (fun _ _ _ _ _ _ => by norm_num)
    (fun _ _ _ _ _ _ _ => by norm_num) (fun _ _ _ _ => by simp)
    (fun _ _ _ _ => by simp)
    0 1 (by decide) (by decide)

/-! ## The frame loops and the normalization -/

/-- A loop that stores `v k` in cell `k` for `k < m` leaves `v k` in cell `k`. -/
lemma foldl_fill_apply {β : Type} (v : Nat → β) (m : Nat) (s : Nat → β) (k : Nat)
    (hk : k < m) :
    ((List.range m).foldl (fun s k => Function.update s k (v k)) s) k = v k := by
  rw [foldl_update_pointwise (fun k => k) (fun k _ => v k) (List.range m) s k]
  exact foldl_ite_unique (fun k' => k = k') (fun k' _ => v k') m k hk
    (fun k' _ => by constructor <;> intro h <;> omega) (s k)

lemma map_foldl_fill {β : Type} (v : Nat → β) (m : Nat) (s : Nat → β) :
    (List.range m).map ((List.range m).foldl (fun s k => Function.update s k (v k)) s)
      = (List.range m).map v :=
  List.map_congr_left (fun k hk => foldl_fill_apply v m s k (List.mem_range.mp hk))

/-- A loop over `K` that rewrites cell `K * n + i` from its own old value, read at a
cell `K0 * n + i0` of the grid. -/
lemma foldl_column_apply {β : Type} (g : Nat → β → β) (nT n i : Nat) (hi : i < n)
    (out : Nat → β) (K0 i0 : Nat) (hK0 : K0 < nT) (hi0 : i0 < n) :
    ((List.range nT).foldl (fun out K =>
      Function.update out (K * n + i) (g K (out (K * n + i)))) out) (K0 * n + i0)
      = if i = i0 then g K0 (out (K0 * n + i0)) else out (K0 * n + i0) := by
  rw [foldl_update_pointwise (fun K => K * n + i) g (List.range nT) out (K0 * n + i0)]
  by_cases h : i = i0
  · subst h
    rw [if_pos rfl]
    exact foldl_ite_unique (fun K => K0 * n + i = K * n + i) g nT K0 hK0
      (fun K _ => ⟨fun h => (grid_inj hi hi h).1.symm, fun h => by rw [h]⟩) _
  · rw [if_neg h]
    apply foldl_ite_none
    intro K _ hKK
    exact h (grid_inj hi0 hi hKK).2.symm

/-- The effect of one pass of the frame loop of `_iterate_fki` on `new_f_K_i`: it does
not depend on what `scratch_T` held before. -/
lemma iterate_fki_x_snd (b_K_x : Nat → Dbl) (M_x : Nat → Nat) (L : Nat)
    (log_R_K_i : Nat → Dbl) (nT n : Nat) (st : (Nat → Dbl) × (Nat → Dbl)) (x : Nat) :
    (_iterate_fki_x b_K_x M_x L log_R_K_i nT n st x).2
      = (List.range nT).foldl (fun new_f K =>
          Function.update new_f (K * n + M_x x)
            (-(_logsumexp_pair (-(new_f (K * n + M_x x)))
              (-(Dbl.log (Dbl.sumExpList ((List.range nT).map (fun K' =>
                  log_R_K_i (K' * n + M_x x) - b_K_x (K' * L + x))))
                + b_K_x (K * L + x)))))) st.2 := by
  unfold _iterate_fki_x
  simp only [Dbl.clse_eq, map_foldl_fill]

/-- The cell `(K, i)` of `new_f_K_i` after the frame loop of `_iterate_fki`: a fold
over the frames of state `i`. -/
lemma iterate_fki_frames_apply (b_K_x : Nat → Dbl) (M_x : Nat → Nat) (L : Nat)
    (log_R_K_i : Nat → Dbl) (nT n : Nat) (scratch_T new_f_K_i : Nat → Dbl)
    (hM : ∀ x < L, M_x x < n) (K i : Nat) (hK : K < nT) (hi : i < n) :
    ((List.range L).foldl (_iterate_fki_x b_K_x M_x L log_R_K_i nT n)
      (scratch_T, new_f_K_i)).2 (K * n + i)
      = (List.range L).foldl (fun v x => if M_x x = i then
            -(_logsumexp_pair (-v)
              (-(Dbl.log (Dbl.sumExpList ((List.range nT).map (fun K' =>
                  log_R_K_i (K' * n + M_x x) - b_K_x (K' * L + x))))
                + b_K_x (K * L + x))))
          else v) (new_f_K_i (K * n + i)) := by
  rw [foldl_proj Prod.snd _ (fun new_f x => (List.range nT).foldl (fun new_f K =>
          Function.update new_f (K * n + M_x x)
            (-(_logsumexp_pair (-(new_f (K * n + M_x x)))
              (-(Dbl.log (Dbl.sumExpList ((List.range nT).map (fun K' =>
                  log_R_K_i (K' * n + M_x x) - b_K_x (K' * L + x))))
                + b_K_x (K * L + x)))))) new_f)
    (fun st x => iterate_fki_x_snd b_K_x M_x L log_R_K_i nT n st x)]
  rw [foldl_pointwise _ (fun x p v => (List.range nT).foldl (fun v K =>
      if p = K * n + M_x x then
        -(_logsumexp_pair (-v)
          (-(Dbl.log (Dbl.sumExpList ((List.range nT).map (fun K' =>
              log_R_K_i (K' * n + M_x x) - b_K_x (K' * L + x))))
            + b_K_x (K * L + x))))
      else v) v)
    (fun out x p => foldl_update_pointwise (fun K => K * n + M_x x)
      (fun K v => -(_logsumexp_pair (-v)
          (-(Dbl.log (Dbl.sumExpList ((List.range nT).map (fun K' =>
              log_R_K_i (K' * n + M_x x) - b_K_x (K' * L + x))))
            + b_K_x (K * L + x))))) (List.range nT) out p)]
  apply List.foldl_ext
  intro v x hx
  have hMx := hM x (List.mem_range.mp hx)
  by_cases h : M_x x = i
  · rw [if_pos h]
    exact foldl_ite_unique (fun K' => K * n + i = K' * n + M_x x) _ nT K hK
      (fun K' _ => ⟨fun h' => (grid_inj hi hMx h').1.symm, fun h' => by rw [h', h]⟩) v
  · rw [if_neg h]
    apply foldl_ite_none
    intro K' _ hKK
    exact h (grid_inj hi hMx hKK).2.symm

/-- The cell `(K, i)` of `new_f_K_i` after the normalization of `_iterate_fki`. -/
lemma iterate_fki_norm_apply (nT n K_target : Nat) (scratch_M new_f_K_i : Nat → Dbl)
    (K i : Nat) (hK : K < nT) (hi : i < n) :
    (_iterate_fki_norm nT n K_target scratch_M new_f_K_i).2 (K * n + i)
      = new_f_K_i (K * n + i)
        + Dbl.log (Dbl.sumExpList ((List.range n).map
            (fun i => -(new_f_K_i (K_target * n + i))))) := by
  unfold _iterate_fki_norm
  simp only [Dbl.clse_eq, map_foldl_fill]
  exact foldl_grid_apply (fun _ _ v => v + Dbl.log (Dbl.sumExpList ((List.range n).map
    (fun i => -(new_f_K_i (K_target * n + i)))))) nT n new_f_K_i K i hK hi

/-! ## The values the frame loops accumulate -/

lemma Dbl.sumExpList_range_fin (a : Nat → Dbl) (r : Nat → ℝ) (m : Nat)
    (h : ∀ k < m, a k = Dbl.fin (r k)) :
    Dbl.sumExpList ((List.range m).map a)
      = Dbl.fin (∑ k ∈ Finset.range m, Real.exp (r k)) := by
  have h1 : (List.range m).map a = ((List.range m).map r).map Dbl.fin := by
    rw [List.map_map]
    exact List.map_congr_left (fun k hk => h k (List.mem_range.mp hk))
  rw [h1, Dbl.sumExpList_fin, List.map_map, list_sum_range]
  rfl

lemma Dbl.foldl_add_exp_log (A : Nat → ℝ) (l : List Nat) (hA : ∀ k ∈ l, 0 ≤ A k) (s : ℝ) :
    (l.map (fun k => Dbl.log (Dbl.fin (A k)))).foldl (fun s x => Dbl.add s (Dbl.exp x))
      (Dbl.fin s) = Dbl.fin (s + (l.map A).sum) := by
  induction l generalizing s with
  | nil => simp
  | cons k l ih =>
    simp only [List.map_cons, List.foldl_cons, List.sum_cons,
      Dbl.exp_log_fin (hA k (List.mem_cons_self k l)), Dbl.add_fin_fin]
    rw [ih (fun k' hk' => hA k' (List.mem_cons_of_mem k hk')), add_assoc]

/-- The sum of exponentials over the values `log (A k)`, `k < m`, for sums `A k ≥ 0`. -/
lemma Dbl.sumExpList_range_log (A : Nat → ℝ) (m : Nat) (hA : ∀ k < m, 0 ≤ A k) :
    Dbl.sumExpList ((List.range m).map (fun k => Dbl.log (Dbl.fin (A k))))
      = Dbl.fin (∑ k ∈ Finset.range m, A k) := by
  unfold Dbl.sumExpList
  rw [Dbl.foldl_add_exp_log A (List.range m) (fun k hk => hA k (List.mem_range.mp hk)) 0,
    zero_add, list_sum_range]

lemma frameDenom_pos (lr br : Nat → ℝ) (M_x : Nat → Nat) (L nT n x : Nat) (hT : 0 < nT) :
    0 < frameDenom lr br M_x L nT n x := by
  unfold frameDenom
  exact Finset.sum_pos (fun K _ => Real.exp_pos _) ⟨0, Finset.mem_range.mpr hT⟩

lemma frameWeight_pos (lr br : Nat → ℝ) (M_x : Nat → Nat) (L nT n K x : Nat) (hT : 0 < nT) :
    0 < frameWeight lr br M_x L nT n K x :=
  div_pos (Real.exp_pos _) (frameDenom_pos lr br M_x L nT n x hT)

/-- The `divisor` of frame `x`, on real `log_R` and `b`. -/
lemma divisor_value (log_R_K_i b_K_x : Nat → Dbl) (lr br : Nat → ℝ) (M_x : Nat → Nat)
    (L nT n x : Nat) (hT : 0 < nT) (hx : x < L) (hMx : M_x x < n)
    (hR : ∀ K < nT, ∀ i < n, log_R_K_i (K * n + i) = Dbl.fin (lr (K * n + i)))
    (hb : ∀ K < nT, ∀ x < L, b_K_x (K * L + x) = Dbl.fin (br (K * L + x))) :
    Dbl.log (Dbl.sumExpList ((List.range nT).map (fun K' =>
      log_R_K_i (K' * n + M_x x) - b_K_x (K' * L + x))))
      = Dbl.fin (Real.log (frameDenom lr br M_x L nT n x)) := by
  rw [Dbl.sumExpList_range_fin _ (fun K' => lr (K' * n + M_x x) - br (K' * L + x)) nT
    (fun K' hK' => by
      rw [hR K' hK' _ hMx, hb K' hK' x hx]
      simp [sub_eq_add_neg])]
  exact Dbl.log_fin_of_pos (frameDenom_pos lr br M_x L nT n x hT)

/-- One accumulation step of the frame loop of `_iterate_fki`, in closed form: an
accumulated mass `S ≥ 0` (held as `-log S`) grows by `w(K, x)`. -/
lemma frame_step_value (lr br : Nat → ℝ) (M_x : Nat → Nat) (L nT n K x : Nat) (hT : 0 < nT)
    (S : ℝ) (hS : 0 ≤ S) :
    -(_logsumexp_pair (-(Dbl.neg (Dbl.log (Dbl.fin S))))
        (-(Dbl.fin (Real.log (frameDenom lr br M_x L nT n x)) + Dbl.fin (br (K * L + x)))))
      = Dbl.neg (Dbl.log (Dbl.fin (S + frameWeight lr br M_x L nT n K x))) := by
  have hD := frameDenom_pos lr br M_x L nT n x hT
  simp only [Dbl.hneg_eq, Dbl.neg_neg, Dbl.hadd_eq, Dbl.add_fin_fin, Dbl.neg_fin,
    Dbl.clsep_eq, Dbl.exp_log_fin hS, Dbl.exp_fin]
  congr 3
  unfold frameWeight
  rw [neg_add, Real.exp_add, Real.exp_neg (Real.log _), Real.exp_log hD]
  ring

/-- A fold of accumulation steps over a list of frames, in closed form. -/
lemma foldl_acc_value (c : Nat → Prop) [DecidablePred c] (G : Nat → Dbl → Dbl)
    (u : Nat → ℝ) (l : List Nat) (hu : ∀ x ∈ l, 0 ≤ u x)
    (hG : ∀ x ∈ l, ∀ S : ℝ, 0 ≤ S →
      G x (Dbl.neg (Dbl.log (Dbl.fin S))) = Dbl.neg (Dbl.log (Dbl.fin (S + u x))))
    (S0 : ℝ) (hS0 : 0 ≤ S0) :
    l.foldl (fun v x => if c x then G x v else v) (Dbl.neg (Dbl.log (Dbl.fin S0)))
      = Dbl.neg (Dbl.log (Dbl.fin (S0 + (l.map (fun x => if c x then u x else 0)).sum))) := by
  induction l generalizing S0 with
  | nil => simp
  | cons x l ih =>
    have hux := hu x (List.mem_cons_self x l)
    have ih' := ih (fun x' hx' => hu x' (List.mem_cons_of_mem x hx'))
      (fun x' hx' => hG x' (List.mem_cons_of_mem x hx'))
    simp only [List.foldl_cons, List.map_cons, List.sum_cons]
    by_cases hc : c x
    · rw [if_pos hc, if_pos hc, hG x (List.mem_cons_self x l) S0 hS0,
        ih' (S0 + u x) (by linarith), add_assoc]
    · rw [if_neg hc, if_neg hc, ih' S0 hS0, zero_add]

lemma iterate_fki_inf_apply {α : Type} [CDouble α] (nT n : Nat) (new_f_K_i : Nat → α)
    (K i : Nat) (hK : K < nT) (hi : i < n) :
    _iterate_fki_inf nT n new_f_K_i (K * n + i) = INFINITY := by
  unfold _iterate_fki_inf
  exact foldl_grid_apply (fun _ _ _ => INFINITY) nT n new_f_K_i K i hK hi

/-- The cell `(K, i)` of `new_f_K_i` after the reset and the frame loop of
`_iterate_fki`, on real `log_R` and `b`: minus the logarithm of the mass of the frames
of state `i`. -/
lemma fki_frames_value (b_K_x log_R_K_i : Nat → Dbl) (lr br : Nat → ℝ) (M_x : Nat → Nat)
    (L nT n : Nat) (scratch_T new_f_K_i : Nat → Dbl)
    (hR : ∀ K < nT, ∀ i < n, log_R_K_i (K * n + i) = Dbl.fin (lr (K * n + i)))
    (hb : ∀ K < nT, ∀ x < L, b_K_x (K * L + x) = Dbl.fin (br (K * L + x)))
    (hM : ∀ x < L, M_x x < n) (K i : Nat) (hK : K < nT) (hi : i < n) :
    ((List.range L).foldl (_iterate_fki_x b_K_x M_x L log_R_K_i nT n)
      (scratch_T, _iterate_fki_inf nT n new_f_K_i)).2 (K * n + i)
      = Dbl.neg (Dbl.log (Dbl.fin (∑ x ∈ (Finset.range L).filter (fun x => M_x x = i),
          frameWeight lr br M_x L nT n K x))) := by
  have hT : 0 < nT := by omega
  rw [iterate_fki_frames_apply b_K_x M_x L log_R_K_i nT n scratch_T _ hM K i hK hi,
    iterate_fki_inf_apply nT n new_f_K_i K i hK hi]
  have h0 : (INFINITY : Dbl) = Dbl.neg (Dbl.log (Dbl.fin 0)) := by simp
  rw [h0, foldl_acc_value (fun x => M_x x = i) _ (fun x => frameWeight lr br M_x L nT n K x)
    (List.range L) (fun x _ => (frameWeight_pos lr br M_x L nT n K x hT).le) ?_ 0 (le_refl 0)]
  · rw [zero_add, list_sum_range, Finset.sum_filter]
  · intro x hx S hS
    have hx' := List.mem_range.mp hx
    rw [divisor_value log_R_K_i b_K_x lr br M_x L nT n x hT hx' (hM x hx') hR hb,
      hb K hK x hx']
    exact frame_step_value lr br M_x L nT n K x hT S hS

/-- The sum over the states of the masses of their frames is the mass of all frames. -/
lemma sum_states_frames (u : Nat → ℝ) (M_x : Nat → Nat) (L n : Nat)
    (hM : ∀ x < L, M_x x < n) :
    ∑ i ∈ Finset.range n, ∑ x ∈ (Finset.range L).filter (fun x => M_x x = i), u x
      = ∑ x ∈ Finset.range L, u x := by
  simp only [Finset.sum_filter]
  rw [Finset.sum_comm]
  apply Finset.sum_congr rfl
  intro x hx
  rw [Finset.sum_ite_eq (Finset.range n) (M_x x),
    if_pos (Finset.mem_range.mpr (hM x (Finset.mem_range.mp hx)))]

/-- Adding the normaliser `log Z` to `-log A` gives `-log (A / Z)`, also at `A = 0`. -/
lemma neg_log_add_norm (A Z : ℝ) (hA : 0 ≤ A) (hZ : 0 < Z) :
    Dbl.neg (Dbl.log (Dbl.fin A)) + Dbl.fin (Real.log Z)
      = Dbl.neg (Dbl.log (Dbl.fin (A / Z))) := by
  rcases hA.lt_or_eq with h | h
  · rw [Dbl.log_fin_of_pos h, Dbl.log_fin_of_pos (div_pos h hZ),
      Real.log_div h.ne' hZ.ne']
    simp only [Dbl.hadd_eq, Dbl.neg_fin, Dbl.add_fin_fin]
    congr 1
    ring
  · subst h
    simp

/-- The cell `(K, i)` of `new_f_K_i` after the reset, the frame loop and the
normalization of `_iterate_fki`, on real `log_R` and `b`. -/
lemma fki_new_f_value (b_K_x log_R_K_i : Nat → Dbl) (lr br : Nat → ℝ) (M_x : Nat → Nat)
    (L nT n K_target : Nat) (scratch_M scratch_T new_f_K_i : Nat → Dbl)
    (hR : ∀ K < nT, ∀ i < n, log_R_K_i (K * n + i) = Dbl.fin (lr (K * n + i)))
    (hb : ∀ K < nT, ∀ x < L, b_K_x (K * L + x) = Dbl.fin (br (K * L + x)))
    (hM : ∀ x < L, M_x x < n) (hKt : K_target < nT) (hL : 0 < L)
    (K i : Nat) (hK : K < nT) (hi : i < n) :
    0 < ∑ x ∈ Finset.range L, frameWeight lr br M_x L nT n K_target x
    ∧ (_iterate_fki_norm nT n K_target scratch_M
        ((List.range L).foldl (_iterate_fki_x b_K_x M_x L log_R_K_i nT n)
          (scratch_T, _iterate_fki_inf nT n new_f_K_i)).2).2 (K * n + i)
      = Dbl.neg (Dbl.log (Dbl.fin
          ((∑ x ∈ (Finset.range L).filter (fun x => M_x x = i),
              frameWeight lr br M_x L nT n K x)
            / (∑ x ∈ Finset.range L, frameWeight lr br M_x L nT n K_target x)))) := by
  have hT : 0 < nT := by omega
  have hZ : 0 < ∑ x ∈ Finset.range L, frameWeight lr br M_x L nT n K_target x :=
    Finset.sum_pos (fun x _ => frameWeight_pos lr br M_x L nT n K_target x hT)
      ⟨0, Finset.mem_range.mpr hL⟩
  have hA : ∀ K i, 0 ≤ ∑ x ∈ (Finset.range L).filter (fun x => M_x x = i),
      frameWeight lr br M_x L nT n K x :=
    fun K i => Finset.sum_nonneg (fun x _ => (frameWeight_pos lr br M_x L nT n K x hT).le)
  refine ⟨hZ, ?_⟩
  rw [iterate_fki_norm_apply nT n K_target scratch_M _ K i hK hi,
    fki_frames_value b_K_x log_R_K_i lr br M_x L nT n scratch_T new_f_K_i hR hb hM K i hK hi]
  have hlist : (List.range n).map (fun i =>
      -(((List.range L).foldl (_iterate_fki_x b_K_x M_x L log_R_K_i nT n)
        (scratch_T, _iterate_fki_inf nT n new_f_K_i)).2 (K_target * n + i)))
      = (List.range n).map (fun i => Dbl.log (Dbl.fin
          (∑ x ∈ (Finset.range L).filter (fun x => M_x x = i),
            frameWeight lr br M_x L nT n K_target x))) := by
    apply List.map_congr_left
    intro i' hi'
    rw [fki_frames_value b_K_x log_R_K_i lr br M_x L nT n scratch_T new_f_K_i hR hb hM
      K_target i' hKt (List.mem_range.mp hi')]
    simp
  rw [hlist, Dbl.sumExpList_range_log _ n (fun i' _ => hA K_target i'),
    sum_states_frames _ M_x L n hM, Dbl.log_fin_of_pos hZ]
  exact neg_log_add_norm _ _ (hA K i) hZ

/-- On real `log_nu`, `f` and non-negative counts whose symmetrized counts fit in an
`int`, every cell of the `log_R_K_i` that step 1 of `_iterate_fki` writes is a real
number. -/
lemma fki_log_R_finite (prior : ℝ) (hprior : 0 < prior) (log_nu_K_i f_K_i : Nat → Dbl)
    (ln fr : Nat → ℝ) (C_K_ij N_K_i : Nat → Int) (nT n : Nat)
    (scratch_M log_R_K_i : Nat → Dbl)
    (hln : ∀ K < nT, ∀ i < n, log_nu_K_i (K * n + i) = Dbl.fin (ln (K * n + i)))
    (hf : ∀ K < nT, ∀ i < n, f_K_i (K * n + i) = Dbl.fin (fr (K * n + i)))
    (hC : ∀ K < nT, ∀ i < n, ∀ j < n, 0 ≤ C_K_ij (K * n * n + i * n + j))
    (hpair : ∀ K < nT, ∀ i < n, ∀ j < n, i ≠ j →
      C_K_ij (K * n * n + i * n + j) + C_K_ij (K * n * n + j * n + i) ≤ 2147483647) :
    ∀ K < nT, ∀ i < n,
      (_iterate_fki_R (Dbl.fin prior) (Dbl.fin (Real.log prior)) log_nu_K_i f_K_i C_K_ij
        N_K_i nT n scratch_M log_R_K_i).2 (K * n + i)
      = Dbl.fin (Dbl.toReal ((_iterate_fki_R (Dbl.fin prior) (Dbl.fin (Real.log prior))
          log_nu_K_i f_K_i C_K_ij N_K_i nT n scratch_M log_R_K_i).2 (K * n + i))) := by
  intro K hK i hi
  obtain ⟨S, -, -, hval⟩ := iterate_fki_R_value prior hprior log_nu_K_i f_K_i ln fr
    C_K_ij N_K_i nT n scratch_M log_R_K_i hln hf hC hpair K i hK hi
  rw [hval]
  rfl

/-! ## NaN after an `int` overflow -/

/-- A loop stays at a value that every pass maps to itself, and arrives there when one
pass maps everything to it. -/
lemma foldl_absorb {β γ : Type} (f : β → γ → β) (z : β) (hz : ∀ c, f z c = z)
    (l : List γ) (c0 : γ) (hc0 : c0 ∈ l) (h0 : ∀ v, f v c0 = z) (v : β) :
    l.foldl f v = z := by
  have hstay : ∀ l : List γ, l.foldl f z = z := by
    intro l
    induction l with
    | nil => rfl
    | cons c l ih => rw [List.foldl_cons, hz, ih]
  induction l generalizing v with
  | nil => exact absurd hc0 (List.not_mem_nil c0)
  | cons c l ih =>
    rw [List.foldl_cons]
    rcases List.mem_cons.mp hc0 with h | h
    · rw [← h, h0, hstay]
    · exact ih h (f v c)

/-- The sum of exponentials of a list that holds a NaN is NaN. -/
lemma Dbl.sumExpList_nan (l : List Dbl) (h : Dbl.nan ∈ l) : Dbl.sumExpList l = Dbl.nan :=
  foldl_absorb (fun s x => Dbl.add s (Dbl.exp x)) Dbl.nan (fun c => Dbl.add_nan_left _) l
    Dbl.nan h (fun v => by simp) (Dbl.fin 0)

/-- When the divisor of one frame `x0` is NaN, the frame loop and the normalization of
`_iterate_fki` leave NaN in every cell of `new_f_K_i`: the state of the frame gets NaN
in the target ensemble, so the normaliser is NaN. -/
lemma fki_new_f_nan (b_K_x log_R_K_i : Nat → Dbl) (M_x : Nat → Nat)
    (L nT n K_target : Nat) (scratch_M scratch_T new_f_K_i : Nat → Dbl)
    (hM : ∀ x < L, M_x x < n) (hKt : K_target < nT) (x0 : Nat) (hx0 : x0 < L)
    (hdiv : Dbl.log (Dbl.sumExpList ((List.range nT).map (fun K' =>
      log_R_K_i (K' * n + M_x x0) - b_K_x (K' * L + x0)))) = Dbl.nan)
    (K i : Nat) (hK : K < nT) (hi : i < n) :
    (_iterate_fki_norm nT n K_target scratch_M
      ((List.range L).foldl (_iterate_fki_x b_K_x M_x L log_R_K_i nT n)
        (scratch_T, new_f_K_i)).2).2 (K * n + i) = Dbl.nan := by
  have hcell : ((List.range L).foldl (_iterate_fki_x b_K_x M_x L log_R_K_i nT n)
      (scratch_T, new_f_K_i)).2 (K_target * n + M_x x0) = Dbl.nan := by
    rw [iterate_fki_frames_apply b_K_x M_x L log_R_K_i nT n scratch_T new_f_K_i hM
      K_target (M_x x0) hKt (hM x0 hx0)]
    apply foldl_absorb _ Dbl.nan _ (List.range L) x0 (List.mem_range.mpr hx0)
    · intro v
      simp only [if_pos, hdiv]
      simp
    · intro x
      split_ifs
      · simp
      · rfl
  rw [iterate_fki_norm_apply nT n K_target _ _ K i hK hi]
  have hnorm : Dbl.sumExpList ((List.range n).map (fun i =>
      -(((List.range L).foldl (_iterate_fki_x b_K_x M_x L log_R_K_i nT n)
        (scratch_T, new_f_K_i)).2 (K_target * n + i)))) = Dbl.nan := by
    apply Dbl.sumExpList_nan
    refine List.mem_map.mpr ⟨M_x x0, List.mem_range.mpr (hM x0 hx0), ?_⟩
    rw [hcell]
    rfl
  rw [hnorm]
  simp

/-- Every cell of `new_f_K_i` is NaN when a symmetrized count overflows: one ensemble,
two states, `log_nu = f = b = 0`, prior `1`, `C = [[0, 1073741824], [1073741824, 0]]`
and a trajectory of two frames in range that starts in state 0. -/
lemma fki_new_f_overflow (M_x : Nat → Nat) (hM : ∀ x < 2, M_x x < 2) (hM0 : M_x 0 = 0)
    (N_K_i : Nat → Int) (log_R_K_i scratch_M scratch_T new_f_K_i : Nat → Dbl)
    (i : Nat) (hi : i < 2) :
    (_iterate_fki (Dbl.fin 1) (Dbl.fin (Real.log 1)) (fun _ => Dbl.fin 0)
      (fun _ => Dbl.fin 0) (fun q => ([0, 1073741824, 1073741824, 0] : List Int).getD q 0)
      (fun _ => Dbl.fin 0) M_x N_K_i 2 log_R_K_i 1 2 scratch_M scratch_T new_f_K_i
      0).new_f_K_i (0 * 2 + i) = Dbl.nan := by
  apply fki_new_f_nan (fun _ => Dbl.fin 0) _ M_x 2 1 2 0 _ scratch_T _ hM (by decide) 0
    (by decide) _ 0 i (by decide) hi
  simp only [List.range_succ, List.range_zero, List.nil_append, List.map_cons, List.map_nil,
    hM0, fki_R_overflow]
  simp [Dbl.sumExpList]

/-! ## The claims about the frame loops -/

/-- C7: when the `log_R` written in step 1 and the bias energies `b` are real numbers,
the state indices are in range and there is at least one frame, the frame loop and the
normalization of `_iterate_fki` give `exp(-new_f[K][i]) = (Σ_{x : M[x] = i} w(K, x)) /
(Σ_x w(K_target, x))`, where `w(K, x) = exp(-b[K][x]) / Σ_L exp(log_R[L][M[x]] - b[L][x])`
is `frameWeight`. -/
theorem iterate_fki_new_f_closed_form (PRIOR LOG_PRIOR : Dbl) (log_nu_K_i f_K_i : Nat → Dbl)
    (C_K_ij : Nat → Int) (b_K_x : Nat → Dbl) (M_x : Nat → Nat) (N_K_i : Nat → Int) (L : Nat)
    (log_R_K_i : Nat → Dbl) (nT n : Nat) (scratch_M scratch_T new_f_K_i : Nat → Dbl)
    (K_target : Nat) (lr br : Nat → ℝ)
    (hR : ∀ K < nT, ∀ i < n,
      (_iterate_fki PRIOR LOG_PRIOR log_nu_K_i f_K_i C_K_ij b_K_x M_x N_K_i L log_R_K_i nT n
        scratch_M scratch_T new_f_K_i K_target).log_R_K_i (K * n + i)
        = Dbl.fin (lr (K * n + i)))
    (hb : ∀ K < nT, ∀ x < L, b_K_x (K * L + x) = Dbl.fin (br (K * L + x)))
    (hM : ∀ x < L, M_x x < n) (hKt : K_target < nT) (hL : 1 ≤ L)
    (K i : Nat) (hK : K < nT) (hi : i < n) :
    Dbl.exp (-((_iterate_fki PRIOR LOG_PRIOR log_nu_K_i f_K_i C_K_ij b_K_x M_x N_K_i L
        log_R_K_i nT n scratch_M scratch_T new_f_K_i K_target).new_f_K_i (K * n + i)))
      = Dbl.fin ((∑ x ∈ (Finset.range L).filter (fun x => M_x x = i),
            frameWeight lr br M_x L nT n K x)
          / (∑ x ∈ Finset.range L, frameWeight lr br M_x L nT n K_target x)) := by
  have hT : 0 < nT := by omega
  obtain ⟨hZ, hval⟩ := fki_new_f_value b_K_x _ lr br M_x L nT n K_target
    (_iterate_fki_R PRIOR LOG_PRIOR log_nu_K_i f_K_i C_K_ij N_K_i nT n scratch_M
      log_R_K_i).1 scratch_T new_f_K_i hR hb hM hKt hL K i hK hi
  have hval' : (_iterate_fki PRIOR LOG_PRIOR log_nu_K_i f_K_i C_K_ij b_K_x M_x N_K_i L
      log_R_K_i nT n scratch_M scratch_T new_f_K_i K_target).new_f_K_i (K * n + i)
      = Dbl.neg (Dbl.log (Dbl.fin
          ((∑ x ∈ (Finset.range L).filter (fun x => M_x x = i),
              frameWeight lr br M_x L nT n K x)
            / (∑ x ∈ Finset.range L, frameWeight lr br M_x L nT n K_target x)))) := hval
  rw [hval', Dbl.hneg_eq, Dbl.neg_neg]
  apply Dbl.exp_log_fin
  exact div_nonneg
    (Finset.sum_nonneg (fun x _ => (frameWeight_pos lr br M_x L nT n K x hT).le)) hZ.le

/-- A concrete instance of C7: one ensemble, two states, three frames `0, 1, 0`. -/
theorem iterate_fki_new_f_closed_form_witness :
    Dbl.exp (-((_iterate_fki (Dbl.fin 1) (Dbl.fin (Real.log 1)) (fun _ => Dbl.fin 0)
        (fun _ => Dbl.fin 0) (fun _ => 1) (fun _ => Dbl.fin 0) (fun x => x % 2) (fun _ => 5) 3
        (fun _ => Dbl.nan) 1 2 (fun _ => Dbl.nan) (fun _ => Dbl.nan) (fun _ => Dbl.nan)
        0).new_f_K_i (0 * 2 + 1)))
      = Dbl.fin ((∑ x ∈ (Finset.range 3).filter (fun x => (fun x => x % 2) x = 1),
            frameWeight (fun p => Dbl.toReal ((_iterate_fki (Dbl.fin 1)
              (Dbl.fin (Real.log 1)) (fun _ => Dbl.fin 0) (fun _ => Dbl.fin 0) (fun _ => 1)
              (fun _ => Dbl.fin 0) (fun x => x % 2) (fun _ => 5) 3 (fun _ => Dbl.nan) 1 2
              (fun _ => Dbl.nan) (fun _ => Dbl.nan) (fun _ => Dbl.nan) 0).log_R_K_i p))
              (fun _ => 0) (fun x => x % 2) 3 1 2 0 x)
          / (∑ x ∈ Finset.range 3,
            frameWeight (fun p => Dbl.toReal ((_iterate_fki (Dbl.fin 1)
              (Dbl.fin (Real.log 1)) (fun _ => Dbl.fin 0) (fun _ => Dbl.fin 0) (fun _ => 1)
              (fun _ => Dbl.fin 0) (fun x => x % 2) (fun _ => 5) 3 (fun _ => Dbl.nan) 1 2
              (fun _ => Dbl.nan) (fun _ => Dbl.nan) (fun _ => Dbl.nan) 0).log_R_K_i p))
              (fun _ => 0) (fun x => x % 2) 3 1 2 0 x)) :=
  iterate_fki_new_f_closed_form (Dbl.fin 1) (Dbl.fin (Real.log 1)) (fun _ => Dbl.fin 0)
    (fun _ => Dbl.fin 0) (fun _ => 1) (fun _ => Dbl.fin 0) (fun x => x % 2) (fun _ => 5) 3
    (fun _ => Dbl.nan) 1 2 (fun _ => Dbl.nan) (fun _ => Dbl.nan) (fun _ => Dbl.nan) 0
    (fun p => Dbl.toReal ((_iterate_fki (Dbl.fin 1)
      (Dbl.fin (Real.log 1)) (fun _ => Dbl.fin 0) (fun _ => Dbl.fin 0) (fun _ => 1)
      (fun _ => Dbl.fin 0) (fun x => x % 2) (fun _ => 5) 3 (fun _ => Dbl.nan) 1 2
      (fun _ => Dbl.nan) (fun _ => Dbl.nan) (fun _ => Dbl.nan) 0).log_R_K_i p))
    (fun _ => 0)
    (fki_log_R_finite 1 one_pos (fun _ => Dbl.fin 0) (fun _ => Dbl.fin 0) (fun _ => 0)
      (fun _ => 0) (fun _ => 1) (fun _ => 5) 1 2 (fun _ => Dbl.nan) (fun _ => Dbl.nan)
      (fun _ _ _ _ => rfl) (fun _ _ _ _ => rfl) (fun _ _ _ _ _ _ => by norm_num)
      (fun _ _ _ _ _ _ _ => by norm_num))
    (fun _ _ _ _ => rfl) (fun x _ => Nat.mod_lt x (by decide)) (by decide) (by decide)
    0 1 (by decide) (by decide)

/-- C4 as stated fails when a symmetrized count does not fit in an `int`: with one
ensemble, two states, `log_nu = f = b = 0`, prior `1`, the frames `0, 1` and the
non-negative counts `C = [[0, 1073741824], [1073741824, 0]]`, `CK` wraps to
`-2147483648`, `log_R[0][0]` is NaN and `new_f[0][0]` is NaN, so the numbers
`exp(-new_f[K_target][i])` are not real numbers that add up to 1. -/
theorem iterate_fki_normalized_overflow :
    (∀ q, (0 : Int) ≤ ([0, 1073741824, 1073741824, 0] : List Int).getD q 0)
    ∧ (_iterate_fki (Dbl.fin 1) (Dbl.fin (Real.log 1)) (fun _ => Dbl.fin 0)
        (fun _ => Dbl.fin 0) (fun q => ([0, 1073741824, 1073741824, 0] : List Int).getD q 0)
        (fun _ => Dbl.fin 0) (fun x => x % 2) (fun _ => 0) 2 (fun _ => Dbl.nan) 1 2
        (fun _ => Dbl.nan) (fun _ => Dbl.nan) (fun _ => Dbl.nan) 0).new_f_K_i (0 * 2 + 0)
      = Dbl.nan
    ∧ ¬ ∃ p : Nat → ℝ,
        (∀ i < 2, Dbl.exp (-((_iterate_fki (Dbl.fin 1) (Dbl.fin (Real.log 1))
          (fun _ => Dbl.fin 0) (fun _ => Dbl.fin 0)
          (fun q => ([0, 1073741824, 1073741824, 0] : List Int).getD q 0)
          (fun _ => Dbl.fin 0) (fun x => x % 2) (fun _ => 0) 2 (fun _ => Dbl.nan) 1 2
          (fun _ => Dbl.nan) (fun _ => Dbl.nan) (fun _ => Dbl.nan) 0).new_f_K_i
            (0 * 2 + i))) = Dbl.fin (p i))
        ∧ ∑ i ∈ Finset.range 2, p i = 1 := by
  have hval := fki_new_f_overflow (fun x => x % 2) (fun x _ => Nat.mod_lt x (by decide)) rfl
    (fun _ => 0) (fun _ => Dbl.nan) (fun _ => Dbl.nan) (fun _ => Dbl.nan) (fun _ => Dbl.nan)
    0 (by decide)
  refine ⟨?_, hval, ?_⟩
  · intro q
    rcases q with _ | _ | _ | _ | q <;> simp
  · rintro ⟨p, hp, -⟩
    have h0 := hp 0 (by decide)
    rw [hval] at h0
    exact Dbl.noConfusion h0

/-- C4, amended: for real `log_nu`, `f` and `b`, non-negative counts whose symmetrized
counts (`i ≠ j`) fit in an `int`, state indices in range, a target ensemble in range and
at least one frame (hence `n_markov_states ≥ 1`), the
numbers `exp(-new_f[K_target][i])` are real numbers `p i` (with `exp(-(+inf)) = 0`)
that add up to 1. -/
theorem iterate_fki_normalized (prior : ℝ) (hprior : 0 < prior)
    (log_nu_K_i f_K_i : Nat → Dbl) (ln fr br : Nat → ℝ) (C_K_ij : Nat → Int)
    (b_K_x : Nat → Dbl) (M_x : Nat → Nat) (N_K_i : Nat → Int) (L : Nat)
    (log_R_K_i : Nat → Dbl) (nT n : Nat) (scratch_M scratch_T new_f_K_i : Nat → Dbl)
    (K_target : Nat)
    (hln : ∀ K < nT, ∀ i < n, log_nu_K_i (K * n + i) = Dbl.fin (ln (K * n + i)))
    (hf : ∀ K < nT, ∀ i < n, f_K_i (K * n + i) = Dbl.fin (fr (K * n + i)))
    (hC : ∀ K < nT, ∀ i < n, ∀ j < n, 0 ≤ C_K_ij (K * n * n + i * n + j))
    (hpair : ∀ K < nT, ∀ i < n, ∀ j < n, i ≠ j →
      C_K_ij (K * n * n + i * n + j) + C_K_ij (K * n * n + j * n + i) ≤ 2147483647)
    (hb : ∀ K < nT, ∀ x < L, b_K_x (K * L + x) = Dbl.fin (br (K * L + x)))
    (hM : ∀ x < L, M_x x < n) (hKt : K_target < nT) (hL : 1 ≤ L) :
    ∃ p : Nat → ℝ,
      (∀ i < n, Dbl.exp (-((_iterate_fki (Dbl.fin prior) (Dbl.fin (Real.log prior))
          log_nu_K_i f_K_i C_K_ij b_K_x M_x N_K_i L log_R_K_i nT n scratch_M scratch_T
          new_f_K_i K_target).new_f_K_i (K_target * n + i))) = Dbl.fin (p i))
      ∧ ∑ i ∈ Finset.range n, p i = 1 := by
  have hT : 0 < nT := by omega
  obtain ⟨lr, hR⟩ : ∃ lr : Nat → ℝ, ∀ K < nT, ∀ i < n,
      (_iterate_fki_R (Dbl.fin prior) (Dbl.fin (Real.log prior)) log_nu_K_i f_K_i C_K_ij
        N_K_i nT n scratch_M log_R_K_i).2 (K * n + i) = Dbl.fin (lr (K * n + i)) :=
    ⟨fun p => Dbl.toReal ((_iterate_fki_R (Dbl.fin prior) (Dbl.fin (Real.log prior))
        log_nu_K_i f_K_i C_K_ij N_K_i nT n scratch_M log_R_K_i).2 p),
      fki_log_R_finite prior hprior log_nu_K_i f_K_i ln fr C_K_ij N_K_i nT n
        scratch_M log_R_K_i hln hf hC hpair⟩
  have hZ := (fki_new_f_value b_K_x _ lr br M_x L nT n K_target
    (_iterate_fki_R (Dbl.fin prior) (Dbl.fin (Real.log prior)) log_nu_K_i f_K_i C_K_ij
      N_K_i nT n scratch_M log_R_K_i).1 scratch_T new_f_K_i hR hb hM hKt hL
    K_target (M_x 0) hKt (hM 0 hL)).1
  refine ⟨fun i => (∑ x ∈ (Finset.range L).filter (fun x => M_x x = i),
      frameWeight lr br M_x L nT n K_target x)
    / (∑ x ∈ Finset.range L, frameWeight lr br M_x L nT n K_target x), ?_, ?_⟩
  · intro i hi
    have hval := (fki_new_f_value b_K_x _ lr br M_x L nT n K_target
      (_iterate_fki_R (Dbl.fin prior) (Dbl.fin (Real.log prior)) log_nu_K_i f_K_i C_K_ij
        N_K_i nT n scratch_M log_R_K_i).1 scratch_T new_f_K_i hR hb hM hKt hL
      K_target i hKt hi).2
    have hval' : (_iterate_fki (Dbl.fin prior) (Dbl.fin (Real.log prior)) log_nu_K_i f_K_i
        C_K_ij b_K_x M_x N_K_i L log_R_K_i nT n scratch_M scratch_T new_f_K_i
        K_target).new_f_K_i (K_target * n + i) = _ := hval
    rw [hval', Dbl.hneg_eq, Dbl.neg_neg]
    apply Dbl.exp_log_fin
    exact div_nonneg
      (Finset.sum_nonneg (fun x _ => (frameWeight_pos lr br M_x L nT n K_target x hT).le))
      hZ.le
  · simp only []
    rw [← Finset.sum_div, sum_states_frames _ M_x L n hM]
    exact div_self hZ.ne'

/-- A concrete instance of the amended C4: two ensembles, two states, three frames `0, 1, 0`. -/
theorem iterate_fki_normalized_witness :
    ∃ p : Nat → ℝ,
      (∀ i < 2, Dbl.exp (-((_iterate_fki (Dbl.fin 1) (Dbl.fin (Real.log 1))
          (fun _ => Dbl.fin 0) (fun _ => Dbl.fin 0) (fun _ => 1) (fun _ => Dbl.fin 0)
          (fun x => x % 2) (fun _ => 5) 3 (fun _ => Dbl.nan) 2 2 (fun _ => Dbl.nan)
          (fun _ => Dbl.nan) (fun _ => Dbl.nan) 1).new_f_K_i (1 * 2 + i))) = Dbl.fin (p i))
      ∧ ∑ i ∈ Finset.range 2, p i = 1 :=
  iterate_fki_normalized 1 one_pos (fun _ => Dbl.fin 0) (fun _ => Dbl.fin 0) (fun _ => 0)
    (fun _ => 0) (fun _ => 0) (fun _ => 1) (fun _ => Dbl.fin 0) (fun x => x % 2) (fun _ => 5) 3
    (fun _ => Dbl.nan) 2 2 (fun _ => Dbl.nan) (fun _ => Dbl.nan) (fun _ => Dbl.nan) 1
    (fun _ _ _ _ => rfl) (fun _ _ _ _ => rfl) (fun _ _ _ _ _ _ => by norm_num)
    (fun _ _ _ _ _ _ _ => by norm_num)
    (fun _ _ _ _ => rfl) (fun x _ => Nat.mod_lt x (by decide)) (by decide) (by decide)

/-- C5 as stated fails, in two ways.  For an empty trajectory: with `seq_length = 0`,
one ensemble and one state, state 0 does not occur in `M`, the normaliser is
`log 0 = -inf`, and `new_f[0][0] = +inf + (-inf)` is NaN, not `+inf`.  And when a
symmetrized count does not fit in an `int`: with one ensemble, two states, both frames
in state 0 and `C = [[0, 1073741824], [1073741824, 0]]`, `log_R[0][0]` is NaN, the
normaliser is NaN, and `new_f[0][1]` of the unobserved state 1 is NaN, not `+inf`. -/
theorem iterate_fki_unobserved_not_inf :
    ((∀ x < 2, (fun _ : Nat => 0) x ≠ 1)
      ∧ (_iterate_fki (Dbl.fin 1) (Dbl.fin (Real.log 1)) (fun _ => Dbl.fin 0)
        (fun _ => Dbl.fin 0) (fun q => ([0, 1073741824, 1073741824, 0] : List Int).getD q 0)
        (fun _ => Dbl.fin 0) (fun _ => 0) (fun _ => 0) 2 (fun _ => Dbl.nan) 1 2
        (fun _ => Dbl.nan) (fun _ => Dbl.nan) (fun _ => Dbl.nan) 0).new_f_K_i (0 * 2 + 1)
        ≠ Dbl.pinf)
    ∧ (∀ x < 0, (fun _ : Nat => 0) x ≠ 0)
    ∧ (_iterate_fki (Dbl.fin 1) (Dbl.fin (Real.log 1)) (fun _ => Dbl.fin 0)
        (fun _ => Dbl.fin 0) (fun _ => 0) (fun _ => Dbl.fin 0) (fun _ => 0) (fun _ => 0) 0
        (fun _ => Dbl.fin 0) 1 1 (fun _ => Dbl.fin 0) (fun _ => Dbl.fin 0)
        (fun _ => Dbl.fin 0) 0).new_f_K_i (0 * 1 + 0) = Dbl.nan
    ∧ (_iterate_fki (Dbl.fin 1) (Dbl.fin (Real.log 1)) (fun _ => Dbl.fin 0)
        (fun _ => Dbl.fin 0) (fun _ => 0) (fun _ => Dbl.fin 0) (fun _ => 0) (fun _ => 0) 0
        (fun _ => Dbl.fin 0) 1 1 (fun _ => Dbl.fin 0) (fun _ => Dbl.fin 0)
        (fun _ => Dbl.fin 0) 0).new_f_K_i (0 * 1 + 0) ≠ Dbl.pinf := by
  have hval : (_iterate_fki (Dbl.fin 1) (Dbl.fin (Real.log 1)) (fun _ => Dbl.fin 0)
        (fun _ => Dbl.fin 0) (fun _ => 0) (fun _ => Dbl.fin 0) (fun _ => 0) (fun _ => 0) 0
        (fun _ => Dbl.fin 0) 1 1 (fun _ => Dbl.fin 0) (fun _ => Dbl.fin 0)
        (fun _ => Dbl.fin 0) 0).new_f_K_i (0 * 1 + 0) = Dbl.nan := by
    show (_iterate_fki_norm 1 1 0 _ ((List.range 0).foldl _ (_, _iterate_fki_inf 1 1 _)).2).2
      (0 * 1 + 0) = Dbl.nan
    rw [iterate_fki_norm_apply 1 1 0 _ _ 0 0 (by decide) (by decide)]
    simp only [List.range_zero, List.foldl_nil, List.range_succ, List.nil_append,
      List.map_cons, List.map_nil,
      iterate_fki_inf_apply 1 1 _ 0 0 (by decide) (by decide), Dbl.sumExpList,
      Dbl.cinf_eq, Dbl.hneg_eq, Dbl.neg_pinf, Dbl.hadd_eq, List.foldl_cons, List.foldl_nil,
      Dbl.exp_ninf, Dbl.add_fin_fin, add_zero, Dbl.log_fin_zero]
    rfl
  have hover := fki_new_f_overflow (fun _ => 0) (fun _ _ => Nat.zero_lt_two) rfl
    (fun _ => 0) (fun _ => Dbl.nan) (fun _ => Dbl.nan) (fun _ => Dbl.nan) (fun _ => Dbl.nan)
    1 (by decide)
  refine ⟨⟨fun _ _ => Nat.zero_ne_one, ?_⟩, fun x hx => absurd hx (Nat.not_lt_zero x),
    hval, ?_⟩
  · rw [hover]
    exact fun h => Dbl.noConfusion h
  · rw [hval]
    exact fun h => Dbl.noConfusion h

/-- C5, amended: for real `log_nu`, `f` and `b`, non-negative counts whose symmetrized
counts (`i ≠ j`) fit in an `int`, state indices in
range, a target ensemble in range and at least one frame, a state `i` that does not
occur in `M` has `new_f[K][i] = +inf` for every ensemble `K`, after the normalization. -/
theorem iterate_fki_unobserved (prior : ℝ) (hprior : 0 < prior)
    (log_nu_K_i f_K_i : Nat → Dbl) (ln fr br : Nat → ℝ) (C_K_ij : Nat → Int)
    (b_K_x : Nat → Dbl) (M_x : Nat → Nat) (N_K_i : Nat → Int) (L : Nat)
    (log_R_K_i : Nat → Dbl) (nT n : Nat) (scratch_M scratch_T new_f_K_i : Nat → Dbl)
    (K_target : Nat)
    (hln : ∀ K < nT, ∀ i < n, log_nu_K_i (K * n + i) = Dbl.fin (ln (K * n + i)))
    (hf : ∀ K < nT, ∀ i < n, f_K_i (K * n + i) = Dbl.fin (fr (K * n + i)))
    (hC : ∀ K < nT, ∀ i < n, ∀ j < n, 0 ≤ C_K_ij (K * n * n + i * n + j))
    (hpair : ∀ K < nT, ∀ i < n, ∀ j < n, i ≠ j →
      C_K_ij (K * n * n + i * n + j) + C_K_ij (K * n * n + j * n + i) ≤ 2147483647)
    (hb : ∀ K < nT, ∀ x < L, b_K_x (K * L + x) = Dbl.fin (br (K * L + x)))
    (hM : ∀ x < L, M_x x < n) (hKt : K_target < nT) (hL : 1 ≤ L)
    (i : Nat) (hi : i < n) (hunobserved : ∀ x < L, M_x x ≠ i) (K : Nat) (hK : K < nT) :
    (_iterate_fki (Dbl.fin prior) (Dbl.fin (Real.log prior)) log_nu_K_i f_K_i C_K_ij b_K_x
      M_x N_K_i L log_R_K_i nT n scratch_M scratch_T new_f_K_i K_target).new_f_K_i
      (K * n + i) = Dbl.pinf := by
  obtain ⟨lr, hR⟩ : ∃ lr : Nat → ℝ, ∀ K < nT, ∀ i < n,
      (_iterate_fki_R (Dbl.fin prior) (Dbl.fin (Real.log prior)) log_nu_K_i f_K_i C_K_ij
        N_K_i nT n scratch_M log_R_K_i).2 (K * n + i) = Dbl.fin (lr (K * n + i)) :=
    ⟨fun p => Dbl.toReal ((_iterate_fki_R (Dbl.fin prior) (Dbl.fin (Real.log prior))
        log_nu_K_i f_K_i C_K_ij N_K_i nT n scratch_M log_R_K_i).2 p),
      fki_log_R_finite prior hprior log_nu_K_i f_K_i ln fr C_K_ij N_K_i nT n
        scratch_M log_R_K_i hln hf hC hpair⟩
  have hval := (fki_new_f_value b_K_x _ lr br M_x L nT n K_target
    (_iterate_fki_R (Dbl.fin prior) (Dbl.fin (Real.log prior)) log_nu_K_i f_K_i C_K_ij
      N_K_i nT n scratch_M log_R_K_i).1 scratch_T new_f_K_i hR hb hM hKt hL K i hK hi).2
  have hval' : (_iterate_fki (Dbl.fin prior) (Dbl.fin (Real.log prior)) log_nu_K_i f_K_i
      C_K_ij b_K_x M_x N_K_i L log_R_K_i nT n scratch_M scratch_T new_f_K_i
      K_target).new_f_K_i (K * n + i) = _ := hval
  have hempty : (Finset.range L).filter (fun x => M_x x = i) = ∅ :=
    Finset.filter_false_of_mem (fun x hx => hunobserved x (Finset.mem_range.mp hx))
  rw [hval', hempty, Finset.sum_empty, zero_div]
  simp

/-- A concrete instance of the amended C5: two states, every frame in state 0, so state
1 is unobserved. -/
theorem iterate_fki_unobserved_witness :
    (_iterate_fki (Dbl.fin 1) (Dbl.fin (Real.log 1)) (fun _ => Dbl.fin 0)
      (fun _ => Dbl.fin 0) (fun _ => 1) (fun _ => Dbl.fin 0) (fun _ => 0) (fun _ => 5) 3
      (fun _ => Dbl.nan) 2 2 (fun _ => Dbl.nan) (fun _ => Dbl.nan) (fun _ => Dbl.nan)
      0).new_f_K_i (1 * 2 + 1) = Dbl.pinf :=
  iterate_fki_unobserved 1 one_pos (fun _ => Dbl.fin 0) (fun _ => Dbl.fin 0) (fun _ => 0)
    (fun _ => 0) (fun _ => 0) (fun _ => 1) (fun _ => Dbl.fin 0) (fun _ => 0) (fun _ => 5) 3
    (fun _ => Dbl.nan) 2 2 (fun _ => Dbl.nan) (fun _ => Dbl.nan) (fun _ => Dbl.nan) 0
    (fun _ _ _ _ => rfl) (fun _ _ _ _ => rfl) (fun _ _ _ _ _ _ => by norm_num)
    (fun _ _ _ _ _ _ _ => by norm_num)
    (fun _ _ _ _ => rfl) (fun _ _ => Nat.zero_lt_two) (by decide) (by decide)
    1 (by decide) (fun _ _ => Nat.zero_ne_one) 1 (by decide)

/-! ## `_f_ground_state` -/

/-- A loop over `i < n` that rewrites cell `i` from its own old value leaves
`g i (old value)` in that cell. -/
lemma foldl_row_apply {β : Type} (g : Nat → β → β) (n : Nat) (out : Nat → β) (i : Nat)
    (hi : i < n) :
    ((List.range n).foldl (fun out i => Function.update out i (g i (out i))) out) i
      = g i (out i) := by
  rw [foldl_update_pointwise (fun k => k) g (List.range n) out i]
  exact foldl_ite_unique (fun k => i = k) g n i hi
    (fun k _ => by constructor <;> intro h <;> omega) (out i)

/-- The effect of one pass of the frame loop of `_f_ground_state` on `f_ground_i`: it
does not depend on what `scratch_T` held before. -/
lemma f_ground_state_x_snd (b_K_x : Nat → Dbl) (M_x : Nat → Nat) (L : Nat)
    (log_R_K_i : Nat → Dbl) (nT n : Nat) (st : (Nat → Dbl) × (Nat → Dbl)) (x : Nat) :
    (_f_ground_state_x b_K_x M_x L log_R_K_i nT n st x).2
      = Function.update st.2 (M_x x)
          (-(_logsumexp_pair (-(st.2 (M_x x)))
            (-(Dbl.log (Dbl.sumExpList ((List.range nT).map (fun K' =>
                log_R_K_i (K' * n + M_x x) - b_K_x (K' * L + x)))))))) := by
  unfold _f_ground_state_x
  simp only [Dbl.clse_eq, map_foldl_fill]

/-- The cell `i` of `f_ground_i` after the frame loop of `_f_ground_state`: a fold over
the frames of state `i`. -/
lemma f_ground_frames_apply (b_K_x : Nat → Dbl) (M_x : Nat → Nat) (L : Nat)
    (log_R_K_i : Nat → Dbl) (nT n : Nat) (scratch_T f_ground_i : Nat → Dbl) (i : Nat) :
    ((List.range L).foldl (_f_ground_state_x b_K_x M_x L log_R_K_i nT n)
      (scratch_T, f_ground_i)).2 i
      = (List.range L).foldl (fun v x => if M_x x = i then
            -(_logsumexp_pair (-v)
              (-(Dbl.log (Dbl.sumExpList ((List.range nT).map (fun K' =>
                  log_R_K_i (K' * n + M_x x) - b_K_x (K' * L + x)))))))
          else v) (f_ground_i i) := by
  rw [foldl_proj Prod.snd _ (fun f x => Function.update f (M_x x)
          (-(_logsumexp_pair (-(f (M_x x)))
            (-(Dbl.log (Dbl.sumExpList ((List.range nT).map (fun K' =>
                log_R_K_i (K' * n + M_x x) - b_K_x (K' * L + x)))))))))
    (fun st x => f_ground_state_x_snd b_K_x M_x L log_R_K_i nT n st x)]
  rw [foldl_update_pointwise (fun x => M_x x) (fun x v =>
          -(_logsumexp_pair (-v)
            (-(Dbl.log (Dbl.sumExpList ((List.range nT).map (fun K' =>
                log_R_K_i (K' * n + M_x x) - b_K_x (K' * L + x)))))))) (List.range L)
    f_ground_i i]
  apply List.foldl_ext
  intro v x _
  by_cases h : M_x x = i
  · rw [if_pos h, if_pos h.symm]
  · rw [if_neg h, if_neg (fun h' => h h'.symm)]

lemma groundWeight_pos (lr br : Nat → ℝ) (M_x : Nat → Nat) (L nT n x : Nat) (hT : 0 < nT) :
    0 < groundWeight lr br M_x L nT n x :=
  div_pos one_pos (frameDenom_pos lr br M_x L nT n x hT)

/-- One accumulation step of the frame loop of `_f_ground_state`, in closed form: an
accumulated mass `S ≥ 0` (held as `-log S`) grows by `g(x)`. -/
lemma ground_step_value (lr br : Nat → ℝ) (M_x : Nat → Nat) (L nT n x : Nat) (hT : 0 < nT)
    (S : ℝ) (hS : 0 ≤ S) :
    -(_logsumexp_pair (-(Dbl.neg (Dbl.log (Dbl.fin S))))
        (-(Dbl.fin (Real.log (frameDenom lr br M_x L nT n x)))))
      = Dbl.neg (Dbl.log (Dbl.fin (S + groundWeight lr br M_x L nT n x))) := by
  have hD := frameDenom_pos lr br M_x L nT n x hT
  simp only [Dbl.hneg_eq, Dbl.neg_neg, Dbl.neg_fin, Dbl.clsep_eq, Dbl.exp_log_fin hS,
    Dbl.exp_fin, Dbl.add_fin_fin]
  congr 3
  unfold groundWeight
  rw [Real.exp_neg, Real.exp_log hD, one_div]

/-- The cell `i` of `f_ground_i` after `_f_ground_state`, on real `log_R` and `b`. -/
lemma f_ground_value (b_K_x log_R_K_i : Nat → Dbl) (lr br : Nat → ℝ) (M_x : Nat → Nat)
    (L nT n : Nat) (scratch_M scratch_T f_ground_i : Nat → Dbl)
    (hR : ∀ K < nT, ∀ i < n, log_R_K_i (K * n + i) = Dbl.fin (lr (K * n + i)))
    (hb : ∀ K < nT, ∀ x < L, b_K_x (K * L + x) = Dbl.fin (br (K * L + x)))
    (hM : ∀ x < L, M_x x < n) (hT : 1 ≤ nT) (hL : 1 ≤ L) (i : Nat) (hi : i < n) :
    0 < ∑ x ∈ Finset.range L, groundWeight lr br M_x L nT n x
    ∧ (_f_ground_state b_K_x M_x L log_R_K_i nT n scratch_M scratch_T f_ground_i).f_ground_i i
      = Dbl.neg (Dbl.log (Dbl.fin
          ((∑ x ∈ (Finset.range L).filter (fun x => M_x x = i),
              groundWeight lr br M_x L nT n x)
            / (∑ x ∈ Finset.range L, groundWeight lr br M_x L nT n x)))) := by
  have hZ : 0 < ∑ x ∈ Finset.range L, groundWeight lr br M_x L nT n x :=
    Finset.sum_pos (fun x _ => groundWeight_pos lr br M_x L nT n x hT)
      ⟨0, Finset.mem_range.mpr hL⟩
  have hA : ∀ i, 0 ≤ ∑ x ∈ (Finset.range L).filter (fun x => M_x x = i),
      groundWeight lr br M_x L nT n x :=
    fun i => Finset.sum_nonneg (fun x _ => (groundWeight_pos lr br M_x L nT n x hT).le)
  -- the frame loop
  have hframes : ∀ i < n,
      ((List.range L).foldl (_f_ground_state_x b_K_x M_x L log_R_K_i nT n)
        (scratch_T, (List.range n).foldl (fun f i => Function.update f i INFINITY)
          f_ground_i)).2 i
      = Dbl.neg (Dbl.log (Dbl.fin (∑ x ∈ (Finset.range L).filter (fun x => M_x x = i),
          groundWeight lr br M_x L nT n x))) := by
    intro i hi
    rw [f_ground_frames_apply, foldl_row_apply (fun _ _ => INFINITY) n f_ground_i i hi]
    have h0 : (INFINITY : Dbl) = Dbl.neg (Dbl.log (Dbl.fin 0)) := by simp
    rw [h0, foldl_acc_value (fun x => M_x x = i) _ (fun x => groundWeight lr br M_x L nT n x)
      (List.range L) (fun x _ => (groundWeight_pos lr br M_x L nT n x hT).le) ?_ 0
      (le_refl 0)]
    · rw [zero_add, list_sum_range, Finset.sum_filter]
    · intro x hx S hS
      have hx' := List.mem_range.mp hx
      rw [divisor_value log_R_K_i b_K_x lr br M_x L nT n x hT hx' (hM x hx') hR hb]
      exact ground_step_value lr br M_x L nT n x hT S hS
  refine ⟨hZ, ?_⟩
  unfold _f_ground_state
  simp only [Dbl.clse_eq, map_foldl_fill]
  rw [foldl_row_apply (fun _ v => v + Dbl.log (Dbl.sumExpList ((List.range n).map
    (fun i => -(((List.range L).foldl (_f_ground_state_x b_K_x M_x L log_R_K_i nT n)
        (scratch_T, (List.range n).foldl (fun f i => Function.update f i INFINITY)
          f_ground_i)).2 i))))) n _ i hi, hframes i hi]
  have hlist : (List.range n).map (fun i =>
      -(((List.range L).foldl (_f_ground_state_x b_K_x M_x L log_R_K_i nT n)
        (scratch_T, (List.range n).foldl (fun f i => Function.update f i INFINITY)
          f_ground_i)).2 i))
      = (List.range n).map (fun i => Dbl.log (Dbl.fin
          (∑ x ∈ (Finset.range L).filter (fun x => M_x x = i),
            groundWeight lr br M_x L nT n x))) := by
    apply List.map_congr_left
    intro i' hi'
    rw [hframes i' (List.mem_range.mp hi')]
    simp
  rw [hlist, Dbl.sumExpList_range_log _ n (fun i' _ => hA i'),
    sum_states_frames _ M_x L n hM, Dbl.log_fin_of_pos hZ]
  exact neg_log_add_norm _ _ (hA i) hZ

/-- With no ensemble (`n_therm_states = 0`), one state and one frame, `_f_ground_state`
returns NaN: `divisor = log 0 = -inf`, the frame makes `f_ground[0] = -inf`, the
normaliser is `+inf`, and `-inf + inf` is NaN. -/
lemma f_ground_state_no_ensemble :
    (_f_ground_state (fun _ => Dbl.fin 0) (fun _ => 0) 1 (fun _ => Dbl.fin 0) 0 1
      (fun _ => Dbl.fin 0) (fun _ => Dbl.fin 0) (fun _ => Dbl.fin 0)).f_ground_i 0
      = Dbl.nan := by
  simp only [_f_ground_state, _f_ground_state_x, List.range_zero, List.range_succ,
    List.nil_append, List.foldl_cons, List.foldl_nil, Function.update_same, Dbl.clse_eq,
    List.map_cons, List.map_nil, Dbl.sumExpList, Dbl.cinf_eq, Dbl.hneg_eq, Dbl.neg_pinf,
    Dbl.clsep_eq, Dbl.exp_ninf, Dbl.log_fin_zero, Dbl.neg_ninf, Dbl.hadd_eq]
  rfl

/-- C8 as stated fails without an ensemble: with `n_therm_states = 0`, one state and one
frame, all inputs real and in range, `f_ground[0]` is NaN, so `exp(-f_ground[0])` is not
a real number, whatever the quotient of sums is taken to be. -/
theorem f_ground_state_closed_form_no_ensemble :
    (∀ x < 1, (fun _ : Nat => 0) x < 1)
    ∧ ∀ r : ℝ, Dbl.exp (-((_f_ground_state (fun _ => Dbl.fin 0) (fun _ => 0) 1
        (fun _ => Dbl.fin 0) 0 1 (fun _ => Dbl.fin 0) (fun _ => Dbl.fin 0)
        (fun _ => Dbl.fin 0)).f_ground_i 0)) ≠ Dbl.fin r := by
  refine ⟨fun _ _ => Nat.zero_lt_one, fun r => ?_⟩
  rw [f_ground_state_no_ensemble]
  exact fun h => Dbl.noConfusion h

/-- C8, amended: with at least one ensemble, real `log_R` and `b`, state indices in
range and at least one frame, `exp(-f_ground[i]) = (Σ_{x : M[x] = i} g(x)) / (Σ_x g(x))`
with `g(x) = 1 / Σ_K exp(log_R[K][M[x]] - b[K][x])` (`groundWeight`), and a state that
never occurs in `M` has `f_ground[i] = +inf`. -/
theorem f_ground_state_closed_form (b_K_x : Nat → Dbl) (M_x : Nat → Nat) (L : Nat)
    (log_R_K_i : Nat → Dbl) (nT n : Nat) (scratch_M scratch_T f_ground_i : Nat → Dbl)
    (lr br : Nat → ℝ)
    (hR : ∀ K < nT, ∀ i < n, log_R_K_i (K * n + i) = Dbl.fin (lr (K * n + i)))
    (hb : ∀ K < nT, ∀ x < L, b_K_x (K * L + x) = Dbl.fin (br (K * L + x)))
    (hM : ∀ x < L, M_x x < n) (hT : 1 ≤ nT) (hL : 1 ≤ L) (i : Nat) (hi : i < n) :
    Dbl.exp (-((_f_ground_state b_K_x M_x L log_R_K_i nT n scratch_M scratch_T
        f_ground_i).f_ground_i i))
      = Dbl.fin ((∑ x ∈ (Finset.range L).filter (fun x => M_x x = i),
            groundWeight lr br M_x L nT n x)
          / (∑ x ∈ Finset.range L, groundWeight lr br M_x L nT n x))
    ∧ ((∀ x < L, M_x x ≠ i) →
        (_f_ground_state b_K_x M_x L log_R_K_i nT n scratch_M scratch_T
          f_ground_i).f_ground_i i = Dbl.pinf) := by
  obtain ⟨hZ, hval⟩ := f_ground_value b_K_x log_R_K_i lr br M_x L nT n scratch_M scratch_T
    f_ground_i hR hb hM hT hL i hi
  constructor
  · rw [hval, Dbl.hneg_eq, Dbl.neg_neg]
    apply Dbl.exp_log_fin
    exact div_nonneg
      (Finset.sum_nonneg (fun x _ => (groundWeight_pos lr br M_x L nT n x hT).le)) hZ.le
  · intro hunobserved
    have hempty : (Finset.range L).filter (fun x => M_x x = i) = ∅ :=
      Finset.filter_false_of_mem (fun x hx => hunobserved x (Finset.mem_range.mp hx))
    rw [hval, hempty, Finset.sum_empty, zero_div]
    simp

/-- A concrete instance of the amended C8: two ensembles, two states, frames `0, 1, 0`. -/
theorem f_ground_state_closed_form_witness :
    Dbl.exp (-((_f_ground_state (fun _ => Dbl.fin 0) (fun x => x % 2) 3
        (fun _ => Dbl.fin 1) 2 2 (fun _ => Dbl.nan) (fun _ => Dbl.nan)
        (fun _ => Dbl.nan)).f_ground_i 1))
      = Dbl.fin ((∑ x ∈ (Finset.range 3).filter (fun x => (fun x => x % 2) x = 1),
            groundWeight (fun _ => 1) (fun _ => 0) (fun x => x % 2) 3 2 2 x)
          / (∑ x ∈ Finset.range 3,
            groundWeight (fun _ => 1) (fun _ => 0) (fun x => x % 2) 3 2 2 x))
    ∧ ((∀ x < 3, (fun x => x % 2) x ≠ 1) →
        (_f_ground_state (fun _ => Dbl.fin 0) (fun x => x % 2) 3
          (fun _ => Dbl.fin 1) 2 2 (fun _ => Dbl.nan) (fun _ => Dbl.nan)
          (fun _ => Dbl.nan)).f_ground_i 1 = Dbl.pinf) :=
  f_ground_state_closed_form (fun _ => Dbl.fin 0) (fun x => x % 2) 3 (fun _ => Dbl.fin 1) 2 2
    (fun _ => Dbl.nan) (fun _ => Dbl.nan) (fun _ => Dbl.nan) (fun _ => 1) (fun _ => 0)
    (fun _ _ _ _ => rfl) (fun _ _ _ _ => rfl) (fun x _ => Nat.mod_lt x (by decide))
    (by decide) (by decide) 1 (by decide)

/-- C9 as stated fails without an ensemble: with `n_therm_states = 0`, one state and one
frame, all inputs real and in range, `f_ground[0]` is NaN, so the numbers
`exp(-f_ground[i])` are not real numbers that add up to 1. -/
theorem f_ground_state_normalized_no_ensemble :
    ¬ ∃ p : Nat → ℝ,
      (∀ i < 1, Dbl.exp (-((_f_ground_state (fun _ => Dbl.fin 0) (fun _ => 0) 1
        (fun _ => Dbl.fin 0) 0 1 (fun _ => Dbl.fin 0) (fun _ => Dbl.fin 0)
        (fun _ => Dbl.fin 0)).f_ground_i i)) = Dbl.fin (p i))
      ∧ ∑ i ∈ Finset.range 1, p i = 1 := by
  rintro ⟨p, hp, -⟩
  have h := hp 0 Nat.zero_lt_one
  rw [f_ground_state_no_ensemble] at h
  exact Dbl.noConfusion h

/-- C9, amended: with at least one ensemble, real `log_R` and `b`, state indices in
range and at least one frame (hence `n_markov_states ≥ 1`), the numbers
`exp(-f_ground[i])` are real numbers `p i` (with `exp(-(+inf)) = 0`) that add up to 1. -/
theorem f_ground_state_normalized (b_K_x : Nat → Dbl) (M_x : Nat → Nat) (L : Nat)
    (log_R_K_i : Nat → Dbl) (nT n : Nat) (scratch_M scratch_T f_ground_i : Nat → Dbl)
    (lr br : Nat → ℝ)
    (hR : ∀ K < nT, ∀ i < n, log_R_K_i (K * n + i) = Dbl.fin (lr (K * n + i)))
    (hb : ∀ K < nT, ∀ x < L, b_K_x (K * L + x) = Dbl.fin (br (K * L + x)))
    (hM : ∀ x < L, M_x x < n) (hT : 1 ≤ nT) (hL : 1 ≤ L) :
    ∃ p : Nat → ℝ,
      (∀ i < n, Dbl.exp (-((_f_ground_state b_K_x M_x L log_R_K_i nT n scratch_M scratch_T
          f_ground_i).f_ground_i i)) = Dbl.fin (p i))
      ∧ ∑ i ∈ Finset.range n, p i = 1 := by
  have hZ := (f_ground_value b_K_x log_R_K_i lr br M_x L nT n scratch_M scratch_T
    f_ground_i hR hb hM hT hL (M_x 0) (hM 0 hL)).1
  refine ⟨fun i => (∑ x ∈ (Finset.range L).filter (fun x => M_x x = i),
      groundWeight lr br M_x L nT n x)
    / (∑ x ∈ Finset.range L, groundWeight lr br M_x L nT n x), ?_, ?_⟩
  · intro i hi
    rw [(f_ground_value b_K_x log_R_K_i lr br M_x L nT n scratch_M scratch_T
      f_ground_i hR hb hM hT hL i hi).2, Dbl.hneg_eq, Dbl.neg_neg]
    apply Dbl.exp_log_fin
    exact div_nonneg
      (Finset.sum_nonneg (fun x _ => (groundWeight_pos lr br M_x L nT n x hT).le)) hZ.le
  · simp only []
    rw [← Finset.sum_div, sum_states_frames _ M_x L n hM]
    exact div_self hZ.ne'

/-- A concrete instance of the amended C9: two ensembles, two states, frames `0, 1, 0`. -/
theorem f_ground_state_normalized_witness :
    ∃ p : Nat → ℝ,
      (∀ i < 2, Dbl.exp (-((_f_ground_state (fun _ => Dbl.fin 0) (fun x => x % 2) 3
          (fun _ => Dbl.fin 1) 2 2 (fun _ => Dbl.nan) (fun _ => Dbl.nan)
          (fun _ => Dbl.nan)).f_ground_i i)) = Dbl.fin (p i))
      ∧ ∑ i ∈ Finset.range 2, p i = 1 :=
  f_ground_state_normalized (fun _ => Dbl.fin 0) (fun x => x % 2) 3 (fun _ => Dbl.fin 1) 2 2
    (fun _ => Dbl.nan) (fun _ => Dbl.nan) (fun _ => Dbl.nan) (fun _ => 1) (fun _ => 0)
    (fun _ _ _ _ => rfl) (fun _ _ _ _ => rfl) (fun x _ => Nat.mod_lt x (by decide))
    (by decide) (by decide)

/-! ## The end-to-end scenario -/

lemma scenarioC_nonneg : ∀ K < 2, ∀ i < 2, ∀ j < 2, 0 ≤ scenarioC (K * 2 * 2 + i * 2 + j) := by
  intro K hK i hi j hj
  interval_cases K <;> interval_cases i <;> interval_cases j <;> decide

lemma scenarioC_pair : ∀ K < 2, ∀ i < 2, ∀ j < 2, i ≠ j →
    scenarioC (K * 2 * 2 + i * 2 + j) + scenarioC (K * 2 * 2 + j * 2 + i) ≤ 2147483647 := by
  intro K hK i hi j hj _
  interval_cases K <;> interval_cases i <;> interval_cases j <;> decide

lemma scenarioM_lt : ∀ x < 6, scenarioM x < 2 := by
  intro x hx
  interval_cases x <;> decide

/-- The array `_set_lognu` writes in the scenario: `log (prior + row sum)`. -/
lemma scenario_set_lognu (p : ℝ) (hp : 0 < p) (buf : Nat → Dbl) :
    ∀ K < 2, ∀ i < 2, _set_lognu (Dbl.fin p) buf scenarioC 2 2 (K * 2 + i)
      = Dbl.fin (Real.log (p + (scenarioN (K * 2 + i) : ℝ))) := by
  intro K hK i hi
  rw [set_lognu_apply_int _ _ _ _ _ _ _ hK hi]
  interval_cases K <;> interval_cases i <;>
    simp [intSum, wrapInt, List.range_succ, scenarioC, scenarioN] <;>
    exact Dbl.log_fin_of_pos (by linarith)

lemma scenarioNu_pos (p : ℝ) (hp : 0 < p) : ∀ q, 0 < scenarioNu p q := by
  intro q
  rcases q with _ | _ | _ | q <;> simp only [scenarioNu] <;> positivity

/-- The array `new_log_nu_K_i` of the scenario: `log (scenarioNu p)`. -/
lemma scenario_new_log_nu (p : ℝ) (hp : 0 < p) (buf : Nat → Dbl) (K_target : Nat) :
    ∀ K < 2, ∀ i < 2,
      (scenarioRun (Dbl.fin p) (Dbl.fin (Real.log p)) buf K_target).1 (K * 2 + i)
        = Dbl.fin (Real.log (scenarioNu p (K * 2 + i))) := by
  intro K hK i hi
  obtain ⟨S, hS, -, hval⟩ := iterate_lognu_value p hp
    (_set_lognu (Dbl.fin p) buf scenarioC 2 2) (fun _ => ofInt 0)
    (fun q => Real.log (p + (scenarioN q : ℝ))) (fun _ => 0) scenarioC 2 2 buf buf
    (scenario_set_lognu p hp buf) (fun _ _ _ _ => by simp) scenarioC_nonneg scenarioC_pair
    K i hK hi
  have e7 : Real.exp (Real.log (p + 7)) = p + 7 := Real.exp_log (by linarith)
  have e4 : Real.exp (Real.log (p + 4)) = p + 4 := Real.exp_log (by linarith)
  have e5 : Real.exp (Real.log (p + 5)) = p + 5 := Real.exp_log (by linarith)
  have hrun : (scenarioRun (Dbl.fin p) (Dbl.fin (Real.log p)) buf K_target).1 (K * 2 + i)
      = Dbl.fin (Real.log S) := hval
  rw [hrun, hS]
  interval_cases K <;> interval_cases i <;>
    simp [Finset.sum_range_succ, scenarioC, scenarioN, scenarioNu, e7, e4, e5] <;> ring_nf

lemma scenarioR_pos (p : ℝ) (hp : 0 < p) : ∀ q, 0 < scenarioR p q := by
  intro q
  have h := scenarioNu_pos p hp
  have h0 := h 0
  have h1 := h 1
  have h2 := h 2
  have h3 := h 3
  rcases q with _ | _ | _ | q <;> simp only [scenarioR] <;> positivity

/-- The array `log_R_K_i` of the scenario: `log (scenarioR p)`. -/
lemma scenario_log_R (p : ℝ) (hp : 0 < p) (buf : Nat → Dbl) (K_target : Nat) :
    ∀ K < 2, ∀ i < 2,
      (scenarioRun (Dbl.fin p) (Dbl.fin (Real.log p)) buf K_target).2.log_R_K_i (K * 2 + i)
        = Dbl.fin (Real.log (scenarioR p (K * 2 + i))) := by
  intro K hK i hi
  obtain ⟨S, hS, -, hval⟩ := iterate_fki_R_value p hp
    (scenarioRun (Dbl.fin p) (Dbl.fin (Real.log p)) buf K_target).1 (fun _ => ofInt 0)
    (fun q => Real.log (scenarioNu p q)) (fun _ => 0) scenarioC scenarioN 2 2
    (_iterate_lognu (Dbl.fin p) (Dbl.fin (Real.log p))
      (_set_lognu (Dbl.fin p) buf scenarioC 2 2) (fun _ => ofInt 0) scenarioC 2 2 buf buf).1
    buf (scenario_new_log_nu p hp buf K_target) (fun _ _ _ _ => by simp) scenarioC_nonneg
    scenarioC_pair K i hK hi
  have e0 : Real.exp (Real.log (scenarioNu p 0)) = scenarioNu p 0 :=
    Real.exp_log (scenarioNu_pos p hp 0)
  have e1 : Real.exp (Real.log (scenarioNu p 1)) = scenarioNu p 1 :=
    Real.exp_log (scenarioNu_pos p hp 1)
  have e2 : Real.exp (Real.log (scenarioNu p 2)) = scenarioNu p 2 :=
    Real.exp_log (scenarioNu_pos p hp 2)
  have e3 : Real.exp (Real.log (scenarioNu p 3)) = scenarioNu p 3 :=
    Real.exp_log (scenarioNu_pos p hp 3)
  have hrun : (scenarioRun (Dbl.fin p) (Dbl.fin (Real.log p)) buf
      K_target).2.log_R_K_i (K * 2 + i) = Dbl.fin (Real.log S) := hval
  rw [hrun, hS]
  interval_cases K <;> interval_cases i <;>
    simp [Finset.sum_range_succ, fkiNC, intSum, wrapInt, List.range_succ, scenarioC,
      scenarioN, scenarioR, e0, e1, e2, e3] <;>
    (congr 1; ring)

lemma scenarioQ_pos (p : ℝ) (hp : 0 < p) (i : Nat) : 0 < scenarioQ p i := by
  have h := scenarioR_pos p hp
  have h0 := h 0
  have h1 := h 1
  have h2 := h 2
  have h3 := h 3
  have hi := h i
  have hi' := h (2 + i)
  unfold scenarioQ
  positivity

/-- The array `new_f_K_i` of the scenario: `-log (scenarioQ p i)` in both ensembles. -/
lemma scenario_new_f (p : ℝ) (hp : 0 < p) (buf : Nat → Dbl) (K_target : Nat)
    (hKt : K_target < 2) :
    ∀ K < 2, ∀ i < 2,
      (scenarioRun (Dbl.fin p) (Dbl.fin (Real.log p)) buf K_target).2.new_f_K_i (K * 2 + i)
        = Dbl.fin (-Real.log (scenarioQ p i)) := by
  intro K hK i hi
  obtain ⟨-, hval⟩ := fki_new_f_value (fun _ => ofInt 0)
    (scenarioRun (Dbl.fin p) (Dbl.fin (Real.log p)) buf K_target).2.log_R_K_i
    (fun q => Real.log (scenarioR p q)) (fun _ => 0) scenarioM 6 2 2 K_target
    (_iterate_fki_R (Dbl.fin p) (Dbl.fin (Real.log p))
      (scenarioRun (Dbl.fin p) (Dbl.fin (Real.log p)) buf K_target).1 (fun _ => ofInt 0)
      scenarioC scenarioN 2 2
      (_iterate_lognu (Dbl.fin p) (Dbl.fin (Real.log p))
        (_set_lognu (Dbl.fin p) buf scenarioC 2 2) (fun _ => ofInt 0) scenarioC 2 2 buf
        buf).1 buf).1
    buf buf (scenario_log_R p hp buf K_target) (fun _ _ _ _ => by simp) scenarioM_lt hKt
    (by decide) K i hK hi
  have hrun : (scenarioRun (Dbl.fin p) (Dbl.fin (Real.log p)) buf
      K_target).2.new_f_K_i (K * 2 + i) = _ := hval
  have e0 : Real.exp (Real.log (scenarioR p 0)) = scenarioR p 0 :=
    Real.exp_log (scenarioR_pos p hp 0)
  have e1 : Real.exp (Real.log (scenarioR p 1)) = scenarioR p 1 :=
    Real.exp_log (scenarioR_pos p hp 1)
  have e2 : Real.exp (Real.log (scenarioR p 2)) = scenarioR p 2 :=
    Real.exp_log (scenarioR_pos p hp 2)
  have e3 : Real.exp (Real.log (scenarioR p 3)) = scenarioR p 3 :=
    Real.exp_log (scenarioR_pos p hp 3)
  have hq : (∑ x ∈ (Finset.range 6).filter (fun x => scenarioM x = i),
        frameWeight (fun q => Real.log (scenarioR p q)) (fun _ => 0) scenarioM 6 2 2 K x)
      / (∑ x ∈ Finset.range 6,
        frameWeight (fun q => Real.log (scenarioR p q)) (fun _ => 0) scenarioM 6 2 2
          K_target x) = scenarioQ p i := by
    interval_cases i <;>
      simp [Finset.sum_filter, Finset.sum_range_succ, frameWeight, frameDenom, scenarioM,
        scenarioQ, e0, e1, e2, e3] <;> ring
  rw [hrun, hq, Dbl.log_fin_of_pos (scenarioQ_pos p hp i), Dbl.neg_fin]

lemma scenarioQ_sum (p : ℝ) (hp : 0 < p) : scenarioQ p 0 + scenarioQ p 1 = 1 := by
  have h := scenarioR_pos p hp
  have h0 := h 0
  have h1 := h 1
  have h2 := h 2
  have h3 := h 3
  have hZ : 0 < 3 / (scenarioR p 0 + scenarioR p 2) + 3 / (scenarioR p 1 + scenarioR p 3) := by
    positivity
  unfold scenarioQ
  rw [← add_div]
  exact div_self hZ.ne'

/-- In the scenario the pooled weight `exp(log_R[0][i]) + exp(log_R[1][i])` is larger for
state 0 than for state 1, for every positive prior. -/
lemma scenarioR_order (p : ℝ) (hp : 0 < p) :
    scenarioR p 1 + scenarioR p 3 < scenarioR p 0 + scenarioR p 2 := by
  have hnu := scenarioNu_pos p hp
  have a0 := hnu 0
  have a1 := hnu 1
  have a2 := hnu 2
  have a3 := hnu 3
  have h01 : scenarioNu p 0 < 5 * scenarioNu p 1 := by
    have hd : 0 < (p + 4) + (p + 7) := by linarith
    have hd' : (p + 7) + (p + 4) = (p + 4) + (p + 7) := by ring
    have e : 5 * scenarioNu p 1 - scenarioNu p 0
        = 4 * p + 10 + (12 * p + 39) / ((p + 4) + (p + 7)) := by
      simp only [scenarioNu, hd']
      field_simp
      ring
    have : 0 < 4 * p + 10 + (12 * p + 39) / ((p + 4) + (p + 7)) := by positivity
    linarith
  have h23 : scenarioNu p 2 < 5 * scenarioNu p 3 := by
    have hd : 0 < (p + 4) + (p + 5) := by linarith
    have hd' : (p + 5) + (p + 4) = (p + 4) + (p + 5) := by ring
    have e : 5 * scenarioNu p 3 - scenarioNu p 2
        = 4 * p + 6 + (12 * p + 45) / ((p + 4) + (p + 5)) := by
      simp only [scenarioNu, hd']
      field_simp
      ring
    have : 0 < 4 * p + 6 + (12 * p + 45) / ((p + 4) + (p + 5)) := by positivity
    linarith
  have hA : -2 < 3 * scenarioNu p 1 / (scenarioNu p 1 + scenarioNu p 0)
      - 3 * scenarioNu p 0 / (scenarioNu p 0 + scenarioNu p 1) := by
    rw [add_comm (scenarioNu p 1) (scenarioNu p 0), ← sub_div,
      lt_div_iff₀ (by linarith : 0 < scenarioNu p 0 + scenarioNu p 1)]
    linarith
  have hB : -2 < 3 * scenarioNu p 3 / (scenarioNu p 3 + scenarioNu p 2)
      - 3 * scenarioNu p 2 / (scenarioNu p 2 + scenarioNu p 3) := by
    rw [add_comm (scenarioNu p 3) (scenarioNu p 2), ← sub_div,
      lt_div_iff₀ (by linarith : 0 < scenarioNu p 2 + scenarioNu p 3)]
    linarith
  simp only [scenarioR]
  linarith

lemma scenarioQ_lt (p : ℝ) (hp : 0 < p) : scenarioQ p 0 < scenarioQ p 1 := by
  have h := scenarioR_pos p hp
  have h0 := h 0
  have h1 := h 1
  have h2 := h 2
  have h3 := h 3
  have hZ : 0 < 3 / (scenarioR p 0 + scenarioR p 2) + 3 / (scenarioR p 1 + scenarioR p 3) := by
    positivity
  unfold scenarioQ
  apply div_lt_div_of_pos_right _ hZ
  simp only [add_zero]
  exact div_lt_div_of_pos_left (by norm_num) (by positivity) (scenarioR_order p hp)

/-- C10 as stated fails: in the scenario (prior `1e-10`, target ensemble 0) state 0 does
not have the lower free energy, `new_f[0][0] < new_f[0][1]` is false. -/
theorem scenario_state_zero_not_lower :
    ¬ ∃ r0 r1 : ℝ,
      (scenarioRun (Dbl.fin (1 / 10 ^ 10)) (Dbl.fin (Real.log (1 / 10 ^ 10)))
        (fun _ => Dbl.fin 0) 0).2.new_f_K_i (0 * 2 + 0) = Dbl.fin r0
      ∧ (scenarioRun (Dbl.fin (1 / 10 ^ 10)) (Dbl.fin (Real.log (1 / 10 ^ 10)))
        (fun _ => Dbl.fin 0) 0).2.new_f_K_i (0 * 2 + 1) = Dbl.fin r1
      ∧ r0 < r1 := by
  have hp : (0 : ℝ) < 1 / 10 ^ 10 := by positivity
  rintro ⟨r0, r1, h0, h1, hlt⟩
  rw [scenario_new_f _ hp _ 0 (by decide) 0 (by decide) 0 (by decide)] at h0
  rw [scenario_new_f _ hp _ 0 (by decide) 0 (by decide) 1 (by decide)] at h1
  have e0 : -Real.log (scenarioQ (1 / 10 ^ 10) 0) = r0 := Dbl.fin.inj h0
  have e1 : -Real.log (scenarioQ (1 / 10 ^ 10) 1) = r1 := Dbl.fin.inj h1
  have hlog := Real.log_lt_log (scenarioQ_pos _ hp 0) (scenarioQ_lt _ hp)
  linarith

/-- C10, amended: in the scenario, for every positive prior and either target ensemble,
`new_log_nu` and `new_f` are real numbers, `exp(-new_f[K_target][0]) +
exp(-new_f[K_target][1]) = 1`, and state 0 has the higher free energy in both
ensembles: `new_f[K][1] < new_f[K][0]`. -/
theorem scenario_end_to_end (p : ℝ) (hp : 0 < p) (buf : Nat → Dbl) (K_target : Nat)
    (hKt : K_target < 2) :
    (∀ K < 2, ∀ i < 2, ∃ r : ℝ,
      (scenarioRun (Dbl.fin p) (Dbl.fin (Real.log p)) buf K_target).1 (K * 2 + i) = Dbl.fin r)
    ∧ (∀ K < 2, ∀ i < 2, ∃ r : ℝ,
      (scenarioRun (Dbl.fin p) (Dbl.fin (Real.log p)) buf K_target).2.new_f_K_i (K * 2 + i)
        = Dbl.fin r)
    ∧ (∃ q0 q1 : ℝ,
      Dbl.exp (-((scenarioRun (Dbl.fin p) (Dbl.fin (Real.log p)) buf K_target).2.new_f_K_i
        (K_target * 2 + 0))) = Dbl.fin q0
      ∧ Dbl.exp (-((scenarioRun (Dbl.fin p) (Dbl.fin (Real.log p)) buf K_target).2.new_f_K_i
        (K_target * 2 + 1))) = Dbl.fin q1
      ∧ q0 + q1 = 1)
    ∧ (∀ K < 2, ∃ r0 r1 : ℝ,
      (scenarioRun (Dbl.fin p) (Dbl.fin (Real.log p)) buf K_target).2.new_f_K_i (K * 2 + 0)
        = Dbl.fin r0
      ∧ (scenarioRun (Dbl.fin p) (Dbl.fin (Real.log p)) buf K_target).2.new_f_K_i (K * 2 + 1)
        = Dbl.fin r1
      ∧ r1 < r0) := by
  have hf := scenario_new_f p hp buf K_target hKt
  have hq0 := scenarioQ_pos p hp 0
  have hq1 := scenarioQ_pos p hp 1
  refine ⟨fun K hK i hi => ⟨_, scenario_new_log_nu p hp buf K_target K hK i hi⟩,
    fun K hK i hi => ⟨_, hf K hK i hi⟩, ?_, ?_⟩
  · refine ⟨scenarioQ p 0, scenarioQ p 1, ?_, ?_, scenarioQ_sum p hp⟩
    · rw [hf K_target hKt 0 (by decide)]
      simp [Real.exp_log hq0]
    · rw [hf K_target hKt 1 (by decide)]
      simp [Real.exp_log hq1]
  · intro K hK
    refine ⟨_, _, hf K hK 0 (by decide), hf K hK 1 (by decide), ?_⟩
    have hlog := Real.log_lt_log hq0 (scenarioQ_lt p hp)
    linarith

/-- A concrete instance of the amended C10: prior `1e-10`, target ensemble 1. -/
theorem scenario_end_to_end_witness :
    (∀ K < 2, ∀ i < 2, ∃ r : ℝ,
      (scenarioRun (Dbl.fin (1 / 10 ^ 10)) (Dbl.fin (Real.log (1 / 10 ^ 10)))
        (fun _ => Dbl.nan) 1).1 (K * 2 + i) = Dbl.fin r)
    ∧ (∀ K < 2, ∀ i < 2, ∃ r : ℝ,
      (scenarioRun (Dbl.fin (1 / 10 ^ 10)) (Dbl.fin (Real.log (1 / 10 ^ 10)))
        (fun _ => Dbl.nan) 1).2.new_f_K_i (K * 2 + i) = Dbl.fin r)
    ∧ (∃ q0 q1 : ℝ,
      Dbl.exp (-((scenarioRun (Dbl.fin (1 / 10 ^ 10)) (Dbl.fin (Real.log (1 / 10 ^ 10)))
        (fun _ => Dbl.nan) 1).2.new_f_K_i (1 * 2 + 0))) = Dbl.fin q0
      ∧ Dbl.exp (-((scenarioRun (Dbl.fin (1 / 10 ^ 10)) (Dbl.fin (Real.log (1 / 10 ^ 10)))
        (fun _ => Dbl.nan) 1).2.new_f_K_i (1 * 2 + 1))) = Dbl.fin q1
      ∧ q0 + q1 = 1)
    ∧ (∀ K < 2, ∃ r0 r1 : ℝ,
      (scenarioRun (Dbl.fin (1 / 10 ^ 10)) (Dbl.fin (Real.log (1 / 10 ^ 10)))
        (fun _ => Dbl.nan) 1).2.new_f_K_i (K * 2 + 0) = Dbl.fin r0
      ∧ (scenarioRun (Dbl.fin (1 / 10 ^ 10)) (Dbl.fin (Real.log (1 / 10 ^ 10)))
        (fun _ => Dbl.nan) 1).2.new_f_K_i (K * 2 + 1) = Dbl.fin r1
      ∧ r1 < r0) :=
  scenario_end_to_end (1 / 10 ^ 10) (by positivity) (fun _ => Dbl.nan) 1 (by decide)

/-! ## `_iterate_lognu`: dependence on the counts -/

/-- The `j` loop body of `_iterate_lognu` reads the counts only through the diagonal
entry and the symmetrized count. -/
lemma iterate_lognu_j_congr {α : Type} [CDouble α] (PRIOR LOG_PRIOR : α)
    (log_nu_K_i f_K_i : Nat → α) (C C' : Nat → Int) (n KM KMM i j : Nat)
    (hdiag : i = j → C' (KMM + i * n + j) = C (KMM + i * n + j))
    (hsym : C' (KMM + i * n + j) + C' (KMM + j * n + i)
      = C (KMM + i * n + j) + C (KMM + j * n + i))
    (st : (Nat → α) × Nat) :
    _iterate_lognu_j PRIOR LOG_PRIOR log_nu_K_i f_K_i C' n KM KMM i st j
      = _iterate_lognu_j PRIOR LOG_PRIOR log_nu_K_i f_K_i C n KM KMM i st j := by
  unfold _iterate_lognu_j
  by_cases hij : i = j
  · simp only [if_pos hij, hdiag hij]
  · simp only [if_neg hij, hsym]

/-- Two count tensors with the same diagonal entries and the same symmetrized counts
give the same run of `_iterate_lognu`. -/
lemma iterate_lognu_congr_counts {α : Type} [CDouble α] (PRIOR LOG_PRIOR : α)
    (log_nu_K_i f_K_i : Nat → α) (C C' : Nat → Int) (nT n : Nat)
    (scratch_M new_log_nu_K_i : Nat → α)
    (hdiag : ∀ K < nT, ∀ i < n, C' (K * n * n + i * n + i) = C (K * n * n + i * n + i))
    (hsym : ∀ K < nT, ∀ i < n, ∀ j < n,
      C' (K * n * n + i * n + j) + C' (K * n * n + j * n + i)
        = C (K * n * n + i * n + j) + C (K * n * n + j * n + i)) :
    _iterate_lognu PRIOR LOG_PRIOR log_nu_K_i f_K_i C' nT n scratch_M new_log_nu_K_i
      = _iterate_lognu PRIOR LOG_PRIOR log_nu_K_i f_K_i C nT n scratch_M new_log_nu_K_i := by
  unfold _iterate_lognu
  apply List.foldl_ext
  intro st K hK
  apply List.foldl_ext
  intro st i hi
  have hK' := List.mem_range.mp hK
  have hi' := List.mem_range.mp hi
  have hs : _iterate_lognu_scratch PRIOR LOG_PRIOR log_nu_K_i f_K_i C' n (K * n) (K * n * n)
      i st.1 = _iterate_lognu_scratch PRIOR LOG_PRIOR log_nu_K_i f_K_i C n (K * n)
      (K * n * n) i st.1 := by
    unfold _iterate_lognu_scratch
    apply List.foldl_ext
    intro st' j hj
    have hj' := List.mem_range.mp hj
    exact iterate_lognu_j_congr PRIOR LOG_PRIOR log_nu_K_i f_K_i C C' n (K * n) (K * n * n)
      i j (fun h => by subst h; exact hdiag K hK' i hi') (hsym K hK' i hi' j hj') st'
  simp only [hs]

/-- C12: replacing the count matrix of every ensemble by its transpose (`C'[K][i][j] =
C[K][j][i]`) leaves the run of `_iterate_lognu` unchanged, for every count tensor and
every `log_nu` and `f`: every `new_log_nu[K][i]` is the same (and so is the scratch
array).  The counts enter only through `C[K][i][i]` and `C[K][i][j] + C[K][j][i]`. -/
theorem iterate_lognu_transpose {α : Type} [CDouble α] (PRIOR LOG_PRIOR : α)
    (log_nu_K_i f_K_i : Nat → α) (C C' : Nat → Int) (nT n : Nat)
    (scratch_M new_log_nu_K_i : Nat → α)
    (hT : ∀ K < nT, ∀ i < n, ∀ j < n,
      C' (K * n * n + i * n + j) = C (K * n * n + j * n + i)) :
    (∀ K < nT, ∀ i < n,
      (_iterate_lognu PRIOR LOG_PRIOR log_nu_K_i f_K_i C' nT n scratch_M
        new_log_nu_K_i).2 (K * n + i)
      = (_iterate_lognu PRIOR LOG_PRIOR log_nu_K_i f_K_i C nT n scratch_M
        new_log_nu_K_i).2 (K * n + i))
    ∧ _iterate_lognu PRIOR LOG_PRIOR log_nu_K_i f_K_i C' nT n scratch_M new_log_nu_K_i
      = _iterate_lognu PRIOR LOG_PRIOR log_nu_K_i f_K_i C nT n scratch_M new_log_nu_K_i := by
  have h := iterate_lognu_congr_counts PRIOR LOG_PRIOR log_nu_K_i f_K_i C C' nT n scratch_M
    new_log_nu_K_i (fun K hK i hi => hT K hK i hi i hi)
    (fun K hK i hi j hj => by rw [hT K hK i hi j hj, hT K hK j hj i hi, add_comm])
  exact ⟨fun K _ i _ => by rw [h], h⟩

/-- A concrete instance of C12: one ensemble, two states, `C = [[1,2],[3,4]]` and its
transpose `[[1,3],[2,4]]`, on the exact carrier. -/
theorem iterate_lognu_transpose_witness :
    (∀ K < 1, ∀ i < 2,
      (_iterate_lognu (Dbl.fin 1) (Dbl.fin 0) (fun _ => Dbl.fin 0) (fun _ => Dbl.fin 0)
        (fun q => ([1, 3, 2, 4] : List Int).getD q 0) 1 2 (fun _ => Dbl.nan)
        (fun _ => Dbl.nan)).2 (K * 2 + i)
      = (_iterate_lognu (Dbl.fin 1) (Dbl.fin 0) (fun _ => Dbl.fin 0) (fun _ => Dbl.fin 0)
        (fun q => ([1, 2, 3, 4] : List Int).getD q 0) 1 2 (fun _ => Dbl.nan)
        (fun _ => Dbl.nan)).2 (K * 2 + i))
    ∧ _iterate_lognu (Dbl.fin 1) (Dbl.fin 0) (fun _ => Dbl.fin 0) (fun _ => Dbl.fin 0)
        (fun q => ([1, 3, 2, 4] : List Int).getD q 0) 1 2 (fun _ => Dbl.nan)
        (fun _ => Dbl.nan)
      = _iterate_lognu (Dbl.fin 1) (Dbl.fin 0) (fun _ => Dbl.fin 0) (fun _ => Dbl.fin 0)
        (fun q => ([1, 2, 3, 4] : List Int).getD q 0) 1 2 (fun _ => Dbl.nan)
        (fun _ => Dbl.nan) :=
  iterate_lognu_transpose (Dbl.fin 1) (Dbl.fin 0) (fun _ => Dbl.fin 0) (fun _ => Dbl.fin 0)
    (fun q => ([1, 2, 3, 4] : List Int).getD q 0)
    (fun q => ([1, 3, 2, 4] : List Int).getD q 0) 1 2 (fun _ => Dbl.nan) (fun _ => Dbl.nan)
    (by
      intro K hK i hi j hj
      interval_cases K
      interval_cases i <;> interval_cases j <;> rfl)

/-! ## Conservation of the total auxiliary weight -/

/-- A double sum depends on its summand only through the symmetrized summand. -/
lemma sum_sum_symm (c d : Nat → Nat → ℝ) (n : Nat)
    (h : ∀ i < n, ∀ j < n, c i j + c j i = d i j + d j i) :
    ∑ i ∈ Finset.range n, ∑ j ∈ Finset.range n, c i j
      = ∑ i ∈ Finset.range n, ∑ j ∈ Finset.range n, d i j := by
  have hc : ∑ i ∈ Finset.range n, ∑ j ∈ Finset.range n, c j i
      = ∑ i ∈ Finset.range n, ∑ j ∈ Finset.range n, c i j := Finset.sum_comm
  have hd : ∑ i ∈ Finset.range n, ∑ j ∈ Finset.range n, d j i
      = ∑ i ∈ Finset.range n, ∑ j ∈ Finset.range n, d i j := Finset.sum_comm
  have h2 : ∑ i ∈ Finset.range n, ∑ j ∈ Finset.range n, (c i j + c j i)
      = ∑ i ∈ Finset.range n, ∑ j ∈ Finset.range n, (d i j + d j i) :=
    Finset.sum_congr rfl (fun i hi => Finset.sum_congr rfl (fun j hj =>
      h i (Finset.mem_range.mp hi) j (Finset.mem_range.mp hj)))
  simp only [Finset.sum_add_distrib, hc, hd] at h2
  linarith

/-- The two regular-case fractions of a pair of states add up to the symmetrized
count. -/
lemma regular_pair_sum (ck a b : ℝ) (ha : 0 < a) (hb : 0 < b) :
    ck * a / (b + a) + ck * b / (a + b) = ck := by
  have h : a + b ≠ 0 := by positivity
  rw [add_comm b a]
  field_simp
  ring

/-- The sum over the states of the closed-form sums of `_iterate_lognu`. -/
lemma lognu_total (prior : ℝ) (ln fr : Nat → ℝ) (C : Nat → Int) (n K : Nat) :
    ∑ i ∈ Finset.range n, ∑ j ∈ Finset.range n,
        (if i = j then prior + (C (K * n * n + i * n + j) : ℝ)
        else if 0 = C (K * n * n + i * n + j) + C (K * n * n + j * n + i) then 0
        else ((C (K * n * n + i * n + j) + C (K * n * n + j * n + i) : Int) : ℝ)
          * Real.exp (ln (K * n + i) - fr (K * n + j))
          / (Real.exp (ln (K * n + j) - fr (K * n + i))
              + Real.exp (ln (K * n + i) - fr (K * n + j))))
      = (n : ℝ) * prior
        + ((∑ i ∈ Finset.range n, ∑ j ∈ Finset.range n, C (K * n * n + i * n + j) : Int) : ℝ) := by
  rw [sum_sum_symm _ (fun i j => (if i = j then prior else 0)
    + (C (K * n * n + i * n + j) : ℝ)) n]
  · simp only [Finset.sum_add_distrib, Finset.sum_ite_eq, Finset.mem_range]
    rw [Finset.sum_congr rfl (fun i hi => if_pos (Finset.mem_range.mp hi))]
    simp
  · intro i hi j hj
    by_cases hij : i = j
    · subst hij
      simp only [if_true]
    · have hji : ¬ j = i := fun h => hij h.symm
      simp only [if_neg hij, if_neg hji, zero_add]
      by_cases h0 : 0 = C (K * n * n + i * n + j) + C (K * n * n + j * n + i)
      · have h0' : 0 = C (K * n * n + j * n + i) + C (K * n * n + i * n + j) := by
          rw [add_comm]; exact h0
        have hr : (C (K * n * n + i * n + j) : ℝ) + (C (K * n * n + j * n + i) : ℝ) = 0 := by
          exact_mod_cast h0.symm
        rw [if_pos h0, if_pos h0']
        linarith
      · have h0' : ¬ 0 = C (K * n * n + j * n + i) + C (K * n * n + i * n + j) := by
          rw [add_comm]; exact h0
        rw [if_neg h0, if_neg h0', add_comm (C (K * n * n + j * n + i)),
          regular_pair_sum _ _ _ (Real.exp_pos _) (Real.exp_pos _)]
        push_cast
        ring

/-- The cell `(0, 0)` that `_set_lognu` writes when a row sum overflows: with one
ensemble, two states, prior `1` and `C = [[2147483647, 1], [0, 0]]`, the `int` variable
`sum` wraps to `-2147483648` and the cell is NaN. -/
lemma set_lognu_overflow (buf : Nat → Dbl) :
    _set_lognu (Dbl.fin 1) buf (fun q => ([2147483647, 1, 0, 0] : List Int).getD q 0) 1 2
      (0 * 2 + 0) = Dbl.nan := by
  rw [set_lognu_apply_int _ _ _ 1 2 0 0 (by decide) (by decide)]
  have hsum : intSum (fun j => (fun q => ([2147483647, 1, 0, 0] : List Int).getD q 0)
      (0 * (2 * 2) + 0 * 2 + j)) 2 = -2147483648 := by decide
  rw [hsum]
  simp only [Dbl.hadd_eq, Dbl.ofInt_eq, Dbl.clog_eq, Dbl.add_fin_fin]
  exact Dbl.log_fin_neg (by norm_num)

/-- The cell `(0, 0)` of `new_log_nu_K_i` when a symmetrized count overflows: with one
ensemble, two states, `log_nu = f = 0`, prior `1` and
`C = [[0, 1073741824], [1073741824, 0]]`, `CK` wraps to `-2147483648` and the cell is
NaN. -/
lemma iterate_lognu_overflow (scratch_M new_log_nu_K_i : Nat → Dbl) :
    (_iterate_lognu (Dbl.fin 1) (Dbl.fin (Real.log 1)) (fun _ => Dbl.fin 0)
      (fun _ => Dbl.fin 0) (fun q => ([0, 1073741824, 1073741824, 0] : List Int).getD q 0)
      1 2 scratch_M new_log_nu_K_i).2 (0 * 2 + 0) = Dbl.nan := by
  rw [iterate_lognu_apply _ _ _ _ _ _ _ _ _ 0 0 (by decide) (by decide)]
  have hck : wrapInt (1073741824 + 1073741824) = -2147483648 := by decide
  have hck2 : wrapInt 2147483648 = -2147483648 := by decide
  have hlog : Dbl.log (Dbl.fin (-2147483648)) = Dbl.nan := Dbl.log_fin_neg (by norm_num)
  have hterms : (List.range 2).filterMap (lognuTerm (Dbl.fin 1) (Dbl.fin (Real.log 1))
      (fun _ => Dbl.fin 0) (fun _ => Dbl.fin 0)
      (fun q => ([0, 1073741824, 1073741824, 0] : List Int).getD q 0) 2 (0 * 2) (0 * 2 * 2) 0)
      = [Dbl.fin (Real.log 1), Dbl.nan] := by
    simp [List.range_succ, lognuTerm, hck, hck2, hlog]
  rw [hterms]
  simp [Dbl.sumExpList]

/-- C17 as stated fails when the counts do not fit in an `int`.  With one ensemble, two
states, `log_nu = f = 0`, prior `1` and the non-negative counts
`C = [[0, 1073741824], [1073741824, 0]]`, `new_log_nu[0][0]` is NaN, so the
`new_log_nu[0][i]` are not real numbers with the stated total; and with
`C = [[2147483647, 1], [0, 0]]` the `log_nu[0][0]` that `_set_lognu` writes is NaN. -/
theorem iterate_lognu_total_weight_overflow :
    ((∀ q, (0 : Int) ≤ ([0, 1073741824, 1073741824, 0] : List Int).getD q 0)
      ∧ ¬ ∃ r : Nat → ℝ, ∀ i < 2,
        (_iterate_lognu (Dbl.fin 1) (Dbl.fin (Real.log 1)) (fun _ => Dbl.fin 0)
          (fun _ => Dbl.fin 0)
          (fun q => ([0, 1073741824, 1073741824, 0] : List Int).getD q 0)
          1 2 (fun _ => Dbl.nan) (fun _ => Dbl.nan)).2 (0 * 2 + i) = Dbl.fin (r i))
    ∧ ((∀ q, (0 : Int) ≤ ([2147483647, 1, 0, 0] : List Int).getD q 0)
      ∧ ¬ ∃ s : Nat → ℝ, ∀ i < 2,
        _set_lognu (Dbl.fin 1) (fun _ => Dbl.nan)
          (fun q => ([2147483647, 1, 0, 0] : List Int).getD q 0) 1 2 (0 * 2 + i)
          = Dbl.fin (s i)) := by
  refine ⟨⟨?_, ?_⟩, ?_, ?_⟩
  · intro q
    rcases q with _ | _ | _ | _ | q <;> simp
  · rintro ⟨r, hr⟩
    have h0 := hr 0 (by decide)
    rw [iterate_lognu_overflow] at h0
    exact Dbl.noConfusion h0
  · intro q
    rcases q with _ | _ | _ | _ | q <;> simp
  · rintro ⟨s, hs⟩
    have h0 := hs 0 (by decide)
    rw [set_lognu_overflow] at h0
    exact Dbl.noConfusion h0

/-- C17, amended: for real `log_nu`, `f` and non-negative counts whose symmetrized
counts (`i ≠ j`) and row sums fit in an `int`, the `new_log_nu[K][i]` are real
numbers `r i` with `Σ_i exp(r i) = n_markov_states * prior + Σ_{i,j} C[K][i][j]`,
whatever `log_nu` and `f` are, and the `log_nu[K][i]` that `_set_lognu` writes for the
same counts are real numbers `s i` with the same total. -/
theorem iterate_lognu_total_weight (prior : ℝ) (hprior : 0 < prior)
    (log_nu_K_i f_K_i : Nat → Dbl) (ln fr : Nat → ℝ) (C_K_ij : Nat → Int) (nT n : Nat)
    (scratch_M new_log_nu_K_i buf : Nat → Dbl)
    (hln : ∀ K < nT, ∀ i < n, log_nu_K_i (K * n + i) = Dbl.fin (ln (K * n + i)))
    (hf : ∀ K < nT, ∀ i < n, f_K_i (K * n + i) = Dbl.fin (fr (K * n + i)))
    (hC : ∀ K < nT, ∀ i < n, ∀ j < n, 0 ≤ C_K_ij (K * n * n + i * n + j))
    (hpair : ∀ K < nT, ∀ i < n, ∀ j < n, i ≠ j →
      C_K_ij (K * n * n + i * n + j) + C_K_ij (K * n * n + j * n + i) ≤ 2147483647)
    (hsum : ∀ K < nT, ∀ i < n,
      ∑ j ∈ Finset.range n, C_K_ij (K * n * n + i * n + j) ≤ 2147483647)
    (K : Nat) (hK : K < nT) :
    ∃ r s : Nat → ℝ,
      (∀ i < n, (_iterate_lognu (Dbl.fin prior) (Dbl.fin (Real.log prior)) log_nu_K_i f_K_i
          C_K_ij nT n scratch_M new_log_nu_K_i).2 (K * n + i) = Dbl.fin (r i))
      ∧ (∀ i < n, _set_lognu (Dbl.fin prior) buf C_K_ij nT n (K * n + i) = Dbl.fin (s i))
      ∧ ∑ i ∈ Finset.range n, Real.exp (r i)
        = (n : ℝ) * prior
          + ((∑ i ∈ Finset.range n, ∑ j ∈ Finset.range n,
              C_K_ij (K * n * n + i * n + j) : Int) : ℝ)
      ∧ ∑ i ∈ Finset.range n, Real.exp (s i)
        = (n : ℝ) * prior
          + ((∑ i ∈ Finset.range n, ∑ j ∈ Finset.range n,
              C_K_ij (K * n * n + i * n + j) : Int) : ℝ) := by
  have hrow : ∀ i < n, (0 : ℝ) ≤ ((∑ j ∈ Finset.range n,
      C_K_ij (K * n * n + i * n + j) : Int) : ℝ) := by
    intro i hi
    exact_mod_cast Finset.sum_nonneg (fun j hj => hC K hK i hi j (Finset.mem_range.mp hj))
  refine ⟨fun i => Real.log (∑ j ∈ Finset.range n,
        if i = j then prior + (C_K_ij (K * n * n + i * n + j) : ℝ)
        else if 0 = C_K_ij (K * n * n + i * n + j) + C_K_ij (K * n * n + j * n + i) then 0
        else ((C_K_ij (K * n * n + i * n + j) + C_K_ij (K * n * n + j * n + i) : Int) : ℝ)
          * Real.exp (ln (K * n + i) - fr (K * n + j))
          / (Real.exp (ln (K * n + j) - fr (K * n + i))
              + Real.exp (ln (K * n + i) - fr (K * n + j)))),
    fun i => Real.log (prior
      + ((∑ j ∈ Finset.range n, C_K_ij (K * n * n + i * n + j) : Int) : ℝ)), ?_, ?_, ?_, ?_⟩
  · intro i hi
    obtain ⟨S, hS, -, hval⟩ := iterate_lognu_value prior hprior log_nu_K_i f_K_i ln fr
      C_K_ij nT n scratch_M new_log_nu_K_i hln hf hC hpair K i hK hi
    rw [hval, hS]
  · intro i hi
    rw [set_lognu_apply _ _ _ _ _ _ _ hK hi
      (fun j hj => by rw [← Nat.mul_assoc]; exact hC K hK i hi j hj)
      (by rw [← Nat.mul_assoc]; exact hsum K hK i hi), ← Nat.mul_assoc]
    simp only [Dbl.hadd_eq, Dbl.ofInt_eq, Dbl.clog_eq, Dbl.add_fin_fin]
    exact Dbl.log_fin_of_pos (by linarith [hrow i hi])
  · rw [← lognu_total prior ln fr C_K_ij n K]
    apply Finset.sum_congr rfl
    intro i hi
    obtain ⟨S, hS, hpos, -⟩ := iterate_lognu_value prior hprior log_nu_K_i f_K_i ln fr
      C_K_ij nT n scratch_M new_log_nu_K_i hln hf hC hpair K i hK (Finset.mem_range.mp hi)
    rw [hS] at hpos
    exact Real.exp_log hpos
  · have hexp : ∀ i ∈ Finset.range n, Real.exp (Real.log (prior
        + ((∑ j ∈ Finset.range n, C_K_ij (K * n * n + i * n + j) : Int) : ℝ)))
        = prior + ((∑ j ∈ Finset.range n, C_K_ij (K * n * n + i * n + j) : Int) : ℝ) :=
      fun i hi => Real.exp_log (by linarith [hrow i (Finset.mem_range.mp hi)])
    rw [Finset.sum_congr rfl hexp, Finset.sum_add_distrib]
    simp

/-- A concrete instance of the amended C17: one ensemble, two states, all counts 1. -/
theorem iterate_lognu_total_weight_witness :
    ∃ r s : Nat → ℝ,
      (∀ i < 2, (_iterate_lognu (Dbl.fin 1) (Dbl.fin (Real.log 1)) (fun _ => Dbl.fin 0)
          (fun _ => Dbl.fin 0) (fun _ => 1) 1 2 (fun _ => Dbl.nan)
          (fun _ => Dbl.nan)).2 (0 * 2 + i) = Dbl.fin (r i))
      ∧ (∀ i < 2, _set_lognu (Dbl.fin 1) (fun _ => Dbl.nan) (fun _ => 1) 1 2 (0 * 2 + i)
          = Dbl.fin (s i))
      ∧ ∑ i ∈ Finset.range 2, Real.exp (r i)
        = ((2 : Nat) : ℝ) * 1
          + ((∑ i ∈ Finset.range 2, ∑ j ∈ Finset.range 2,
              (fun _ => (1 : Int)) (0 * 2 * 2 + i * 2 + j) : Int) : ℝ)
      ∧ ∑ i ∈ Finset.range 2, Real.exp (s i)
        = ((2 : Nat) : ℝ) * 1
          + ((∑ i ∈ Finset.range 2, ∑ j ∈ Finset.range 2,
              (fun _ => (1 : Int)) (0 * 2 * 2 + i * 2 + j) : Int) : ℝ) :=
  iterate_lognu_total_weight 1 one_pos (fun _ => Dbl.fin 0) (fun _ => Dbl.fin 0)
    (fun _ => 0) (fun _ => 0) (fun _ => 1) 1 2 (fun _ => Dbl.nan) (fun _ => Dbl.nan)
    (fun _ => Dbl.nan) (fun _ _ _ _ => rfl) (fun _ _ _ _ => rfl)
    (fun _ _ _ _ _ _ => by norm_num) (fun _ _ _ _ _ _ _ => by norm_num)
    (fun _ _ _ _ => by simp) 0 (by decide)

/-! ## Ground state and unbiased target ensemble -/

/-- Adding `0.0` leaves a `double` as it is. -/
lemma Dbl.add_fin_zero (a : Dbl) : Dbl.add a (Dbl.fin 0) = a := by
  cases a <;> simp [Dbl.add]

/-- With `b[K_target][x] = 0` for every frame, the frame loop of `_f_ground_state`
leaves in `f_ground_i[i]` what the frame loop of `_iterate_fki` leaves in
`new_f_K_i[K_target][i]`, whatever `log_R_K_i` holds. -/
lemma f_ground_eq_target_row (b_K_x log_R_K_i : Nat → Dbl) (M_x : Nat → Nat)
    (L nT n K_target : Nat) (sT1 sT2 f_ground_i new_f_K_i : Nat → Dbl)
    (hM : ∀ x < L, M_x x < n) (hKt : K_target < nT)
    (hb0 : ∀ x < L, b_K_x (K_target * L + x) = Dbl.fin 0) :
    ∀ i < n,
      ((List.range L).foldl (_f_ground_state_x b_K_x M_x L log_R_K_i nT n)
        (sT1, (List.range n).foldl (fun f i => Function.update f i INFINITY)
          f_ground_i)).2 i
      = ((List.range L).foldl (_iterate_fki_x b_K_x M_x L log_R_K_i nT n)
        (sT2, _iterate_fki_inf nT n new_f_K_i)).2 (K_target * n + i) := by
  intro i hi
  rw [f_ground_frames_apply, iterate_fki_frames_apply _ _ _ _ _ _ _ _ hM K_target i hKt hi,
    foldl_row_apply (fun _ _ => INFINITY) n f_ground_i i hi,
    iterate_fki_inf_apply nT n new_f_K_i K_target i hKt hi]
  apply List.foldl_ext
  intro v x hx
  rw [hb0 x (List.mem_range.mp hx), Dbl.hadd_eq, Dbl.add_fin_zero]

/-- C18: for real `log_nu`, `f` and `b`, non-negative counts, state indices in range, a
target ensemble in range, at least one frame, and `b[K_target][x] = 0` for every frame,
`_f_ground_state` run on the same `b`, `M` and on the `log_R` that `_iterate_fki` wrote
gives `f_ground[i] = new_f[K_target][i]` for every state `i`. -/
theorem f_ground_state_eq_unbiased_target (prior : ℝ) (hprior : 0 < prior)
    (log_nu_K_i f_K_i : Nat → Dbl) (ln fr br : Nat → ℝ) (C_K_ij : Nat → Int)
    (b_K_x : Nat → Dbl) (M_x : Nat → Nat) (N_K_i : Nat → Int) (L : Nat)
    (log_R_K_i : Nat → Dbl) (nT n : Nat) (scratch_M scratch_T new_f_K_i : Nat → Dbl)
    (K_target : Nat) (scratch_M' scratch_T' f_ground_i : Nat → Dbl)
    (hln : ∀ K < nT, ∀ i < n, log_nu_K_i (K * n + i) = Dbl.fin (ln (K * n + i)))
    (hf : ∀ K < nT, ∀ i < n, f_K_i (K * n + i) = Dbl.fin (fr (K * n + i)))
    (hC : ∀ K < nT, ∀ i < n, ∀ j < n, 0 ≤ C_K_ij (K * n * n + i * n + j))
    (hb : ∀ K < nT, ∀ x < L, b_K_x (K * L + x) = Dbl.fin (br (K * L + x)))
    (hM : ∀ x < L, M_x x < n) (hKt : K_target < nT) (hL : 1 ≤ L)
    (hb0 : ∀ x < L, br (K_target * L + x) = 0) (i : Nat) (hi : i < n) :
    (_f_ground_state b_K_x M_x L
      (_iterate_fki (Dbl.fin prior) (Dbl.fin (Real.log prior)) log_nu_K_i f_K_i C_K_ij b_K_x
        M_x N_K_i L log_R_K_i nT n scratch_M scratch_T new_f_K_i K_target).log_R_K_i
      nT n scratch_M' scratch_T' f_ground_i).f_ground_i i
    = (_iterate_fki (Dbl.fin prior) (Dbl.fin (Real.log prior)) log_nu_K_i f_K_i C_K_ij b_K_x
        M_x N_K_i L log_R_K_i nT n scratch_M scratch_T new_f_K_i K_target).new_f_K_i
        (K_target * n + i) := by
  have hG := f_ground_eq_target_row b_K_x
    (_iterate_fki_R (Dbl.fin prior) (Dbl.fin (Real.log prior)) log_nu_K_i f_K_i C_K_ij
      N_K_i nT n scratch_M log_R_K_i).2 M_x L nT n K_target scratch_T' scratch_T
    f_ground_i new_f_K_i hM hKt (fun x hx => by rw [hb K_target hKt x hx, hb0 x hx])
  show (_f_ground_state b_K_x M_x L (_iterate_fki_R _ _ _ _ _ _ _ _ scratch_M log_R_K_i).2
      nT n scratch_M' scratch_T' f_ground_i).f_ground_i i
    = (_iterate_fki_norm nT n K_target _ ((List.range L).foldl
        (_iterate_fki_x b_K_x M_x L (_iterate_fki_R _ _ _ _ _ _ _ _ scratch_M log_R_K_i).2
          nT n) (scratch_T, _iterate_fki_inf nT n new_f_K_i)).2).2 (K_target * n + i)
  rw [iterate_fki_norm_apply nT n K_target _ _ K_target i hKt hi]
  unfold _f_ground_state
  simp only [Dbl.clse_eq, map_foldl_fill]
  rw [foldl_row_apply (fun _ v => v + Dbl.log (Dbl.sumExpList ((List.range n).map
      (fun i => -(((List.range L).foldl (_f_ground_state_x b_K_x M_x L
        (_iterate_fki_R (Dbl.fin prior) (Dbl.fin (Real.log prior)) log_nu_K_i f_K_i C_K_ij
          N_K_i nT n scratch_M log_R_K_i).2 nT n)
        (scratch_T', (List.range n).foldl (fun f i => Function.update f i INFINITY)
          f_ground_i)).2 i))))) n _ i hi,
    hG i hi, List.map_congr_left (fun i' hi' => by rw [hG i' (List.mem_range.mp hi')])]

/-- A concrete instance of C18: two ensembles, two states, three frames `0, 1, 0`,
`b = 0` everywhere, target ensemble 1. -/
theorem f_ground_state_eq_unbiased_target_witness :
    (_f_ground_state (fun _ => Dbl.fin 0) (fun x => x % 2) 3
      (_iterate_fki (Dbl.fin 1) (Dbl.fin (Real.log 1)) (fun _ => Dbl.fin 0)
        (fun _ => Dbl.fin 0) (fun _ => 1) (fun _ => Dbl.fin 0) (fun x => x % 2) (fun _ => 5) 3
        (fun _ => Dbl.nan) 2 2 (fun _ => Dbl.nan) (fun _ => Dbl.nan) (fun _ => Dbl.nan)
        1).log_R_K_i
      2 2 (fun _ => Dbl.pinf) (fun _ => Dbl.pinf) (fun _ => Dbl.pinf)).f_ground_i 1
    = (_iterate_fki (Dbl.fin 1) (Dbl.fin (Real.log 1)) (fun _ => Dbl.fin 0)
        (fun _ => Dbl.fin 0) (fun _ => 1) (fun _ => Dbl.fin 0) (fun x => x % 2) (fun _ => 5) 3
        (fun _ => Dbl.nan) 2 2 (fun _ => Dbl.nan) (fun _ => Dbl.nan) (fun _ => Dbl.nan)
        1).new_f_K_i (1 * 2 + 1) :=
  f_ground_state_eq_unbiased_target 1 one_pos (fun _ => Dbl.fin 0) (fun _ => Dbl.fin 0)
    (fun _ => 0) (fun _ => 0) (fun _ => 0) (fun _ => 1) (fun _ => Dbl.fin 0) (fun x => x % 2)
    (fun _ => 5) 3 (fun _ => Dbl.nan) 2 2 (fun _ => Dbl.nan) (fun _ => Dbl.nan)
    (fun _ => Dbl.nan) 1 (fun _ => Dbl.pinf) (fun _ => Dbl.pinf) (fun _ => Dbl.pinf)
    (fun _ _ _ _ => rfl) (fun _ _ _ _ => rfl) (fun _ _ _ _ _ _ => by norm_num)
    (fun _ _ _ _ => rfl) (fun x _ => Nat.mod_lt x (by decide)) (by decide) (by decide)
    (fun _ _ => rfl) 1 (by decide)

/-! ## A constant shift of the free energies -/

lemma exp_ratio_shift (a b c : ℝ) :
    Real.exp (a - c) / (Real.exp (b - c) + Real.exp (a - c))
      = Real.exp a / (Real.exp b + Real.exp a) := by
  have hc : Real.exp c ≠ 0 := (Real.exp_pos c).ne'
  have h1 : Real.exp b + Real.exp a ≠ 0 := by positivity
  rw [Real.exp_sub, Real.exp_sub]
  field_simp

/-- The closed-form sum of `_iterate_lognu` does not change when `f` is shifted by a
constant. -/
lemma lognu_sum_shift (prior c : ℝ) (ln fr fr' : Nat → ℝ) (C : Nat → Int) (nT n K i : Nat)
    (hK : K < nT) (hi : i < n)
    (hfr : ∀ K < nT, ∀ i < n, fr' (K * n + i) = fr (K * n + i) + c) :
    (∑ j ∈ Finset.range n,
        if i = j then prior + (C (K * n * n + i * n + j) : ℝ)
        else if 0 = C (K * n * n + i * n + j) + C (K * n * n + j * n + i) then 0
        else ((C (K * n * n + i * n + j) + C (K * n * n + j * n + i) : Int) : ℝ)
          * Real.exp (ln (K * n + i) - fr' (K * n + j))
          / (Real.exp (ln (K * n + j) - fr' (K * n + i))
              + Real.exp (ln (K * n + i) - fr' (K * n + j))))
    = ∑ j ∈ Finset.range n,
        if i = j then prior + (C (K * n * n + i * n + j) : ℝ)
        else if 0 = C (K * n * n + i * n + j) + C (K * n * n + j * n + i) then 0
        else ((C (K * n * n + i * n + j) + C (K * n * n + j * n + i) : Int) : ℝ)
          * Real.exp (ln (K * n + i) - fr (K * n + j))
          / (Real.exp (ln (K * n + j) - fr (K * n + i))
              + Real.exp (ln (K * n + i) - fr (K * n + j))) := by
  apply Finset.sum_congr rfl
  intro j hj
  have hj' := Finset.mem_range.mp hj
  rw [hfr K hK i hi, hfr K hK j hj']
  have e1 : ln (K * n + i) - (fr (K * n + j) + c) = (ln (K * n + i) - fr (K * n + j)) - c := by
    ring
  have e2 : ln (K * n + j) - (fr (K * n + i) + c) = (ln (K * n + j) - fr (K * n + i)) - c := by
    ring
  rw [e1, e2, mul_div_assoc, exp_ratio_shift, ← mul_div_assoc]

lemma div_shift (ck e A B E : ℝ) (hAB : A + B ≠ 0) :
    ck * e / (A / E + B / E) = E * (ck * e / (A + B)) := by
  rw [← add_div]
  field_simp
  ring

/-- The closed-form sum of step 1 of `_iterate_fki` is multiplied by `exp c` when `f` is
shifted by the constant `c`; `NC` is the value of the `int` variable, the same in both
runs. -/
lemma fki_R_sum_shift (prior c : ℝ) (ln fr fr' : Nat → ℝ) (C : Nat → Int) (NC : Int)
    (nT n K i : Nat)
    (hK : K < nT) (hi : i < n)
    (hfr : ∀ K < nT, ∀ i < n, fr' (K * n + i) = fr (K * n + i) + c) :
    (∑ j ∈ Finset.range n,
        if i = j then (prior + (C (K * n * n + i * n + j) : ℝ)) * Real.exp (fr' (K * n + i))
        else if 0 = C (K * n * n + i * n + j) + C (K * n * n + j * n + i) then 0
        else ((C (K * n * n + i * n + j) + C (K * n * n + j * n + i) : Int) : ℝ)
          * Real.exp (ln (K * n + j))
          / (Real.exp (ln (K * n + j) - fr' (K * n + i))
              + Real.exp (ln (K * n + i) - fr' (K * n + j))))
        + (if 0 < NC then (NC : ℝ) * Real.exp (fr' (K * n + i)) else 0)
    = Real.exp c * ((∑ j ∈ Finset.range n,
        if i = j then (prior + (C (K * n * n + i * n + j) : ℝ)) * Real.exp (fr (K * n + i))
        else if 0 = C (K * n * n + i * n + j) + C (K * n * n + j * n + i) then 0
        else ((C (K * n * n + i * n + j) + C (K * n * n + j * n + i) : Int) : ℝ)
          * Real.exp (ln (K * n + j))
          / (Real.exp (ln (K * n + j) - fr (K * n + i))
              + Real.exp (ln (K * n + i) - fr (K * n + j))))
        + (if 0 < NC then (NC : ℝ) * Real.exp (fr (K * n + i)) else 0)) := by
  have hc : Real.exp c ≠ 0 := (Real.exp_pos c).ne'
  rw [mul_add, Finset.mul_sum]
  congr 1
  · apply Finset.sum_congr rfl
    intro j hj
    have hj' := Finset.mem_range.mp hj
    rw [hfr K hK i hi, hfr K hK j hj']
    split_ifs
    · rw [Real.exp_add]; ring
    · ring
    · have e1 : ln (K * n + i) - (fr (K * n + j) + c)
          = (ln (K * n + i) - fr (K * n + j)) - c := by ring
      have e2 : ln (K * n + j) - (fr (K * n + i) + c)
          = (ln (K * n + j) - fr (K * n + i)) - c := by ring
      have hD : Real.exp (ln (K * n + j) - fr (K * n + i))
          + Real.exp (ln (K * n + i) - fr (K * n + j)) ≠ 0 := by positivity
      rw [e1, e2, Real.exp_sub (ln (K * n + i) - fr (K * n + j)) c,
        Real.exp_sub (ln (K * n + j) - fr (K * n + i)) c]
      exact div_shift _ _ _ _ _ hD
  · rw [hfr K hK i hi]
    split_ifs
    · rw [Real.exp_add]; ring
    · ring

lemma frameWeight_shift (lr br : Nat → ℝ) (c : ℝ) (M_x : Nat → Nat) (L nT n K x : Nat) :
    frameWeight (fun p => lr p + c) br M_x L nT n K x
      = Real.exp (-c) * frameWeight lr br M_x L nT n K x := by
  have hD : frameDenom (fun p => lr p + c) br M_x L nT n x
      = Real.exp c * frameDenom lr br M_x L nT n x := by
    unfold frameDenom
    rw [Finset.mul_sum]
    apply Finset.sum_congr rfl
    intro K' _
    rw [← Real.exp_add]
    congr 1
    ring
  unfold frameWeight
  rw [hD, Real.exp_neg c]
  have hc : Real.exp c ≠ 0 := (Real.exp_pos c).ne'
  by_cases h0 : frameDenom lr br M_x L nT n x = 0
  · rw [h0]; simp
  · field_simp

/-- C19 as stated fails when a symmetrized count does not fit in an `int`: with one
ensemble, two states, `log_nu = f = b = 0`, prior `1`, the frames `0, 1`, the
non-negative counts `C = [[0, 1073741824], [1073741824, 0]]` and the shift `c = 3`,
`log_R[0][0]` is NaN, so there is no real number `r` with `log_R[0][0] = r` before and
`log_R[0][0] = r + c` after the shift. -/
theorem gauge_shift_invariance_overflow :
    (∀ q, (0 : Int) ≤ ([0, 1073741824, 1073741824, 0] : List Int).getD q 0)
    ∧ ¬ ∃ r : ℝ,
        (_iterate_fki (Dbl.fin 1) (Dbl.fin (Real.log 1)) (fun _ => Dbl.fin 0)
          (fun _ => Dbl.fin 0)
          (fun q => ([0, 1073741824, 1073741824, 0] : List Int).getD q 0)
          (fun _ => Dbl.fin 0) (fun x => x % 2) (fun _ => 0) 2 (fun _ => Dbl.nan) 1 2
          (fun _ => Dbl.nan) (fun _ => Dbl.nan) (fun _ => Dbl.nan) 0).log_R_K_i (0 * 2 + 0)
          = Dbl.fin r
        ∧ (_iterate_fki (Dbl.fin 1) (Dbl.fin (Real.log 1)) (fun _ => Dbl.fin 0)
          (fun _ => Dbl.fin (0 + 3))
          (fun q => ([0, 1073741824, 1073741824, 0] : List Int).getD q 0)
          (fun _ => Dbl.fin 0) (fun x => x % 2) (fun _ => 0) 2 (fun _ => Dbl.nan) 1 2
          (fun _ => Dbl.nan) (fun _ => Dbl.nan) (fun _ => Dbl.nan) 0).log_R_K_i (0 * 2 + 0)
          = Dbl.fin (r + 3) := by
  constructor
  · intro q
    rcases q with _ | _ | _ | _ | q <;> simp
  · rintro ⟨r, hr, -⟩
    have hval : (_iterate_fki (Dbl.fin 1) (Dbl.fin (Real.log 1)) (fun _ => Dbl.fin 0)
        (fun _ => Dbl.fin 0)
        (fun q => ([0, 1073741824, 1073741824, 0] : List Int).getD q 0)
        (fun _ => Dbl.fin 0) (fun x => x % 2) (fun _ => 0) 2 (fun _ => Dbl.nan) 1 2
        (fun _ => Dbl.nan) (fun _ => Dbl.nan) (fun _ => Dbl.nan) 0).log_R_K_i (0 * 2 + 0)
        = Dbl.nan := fki_R_overflow _ _ _
    rw [hval] at hr
    exact Dbl.noConfusion hr

/-- C19, amended: shifting every `f[K][i]` by the same real number `c` (real `log_nu`,
`f` and `b`, non-negative counts whose symmetrized counts (`i ≠ j`) fit in an `int`,
state indices in range, target ensemble in range, at least one frame) leaves every `new_log_nu[K][i]` of `_iterate_lognu` unchanged, shifts every
`log_R[K][i]` of `_iterate_fki` by exactly `c`, and leaves every normalized
`new_f[K][i]` unchanged. -/
theorem gauge_shift_invariance (prior : ℝ) (hprior : 0 < prior) (c : ℝ)
    (log_nu_K_i f_K_i f_shifted : Nat → Dbl) (ln fr br : Nat → ℝ) (C_K_ij : Nat → Int)
    (b_K_x : Nat → Dbl) (M_x : Nat → Nat) (N_K_i : Nat → Int) (L : Nat)
    (log_R_K_i : Nat → Dbl) (nT n : Nat)
    (scratch_M scratch_T new_f_K_i new_log_nu_K_i : Nat → Dbl) (K_target : Nat)
    (hln : ∀ K < nT, ∀ i < n, log_nu_K_i (K * n + i) = Dbl.fin (ln (K * n + i)))
    (hf : ∀ K < nT, ∀ i < n, f_K_i (K * n + i) = Dbl.fin (fr (K * n + i)))
    (hfs : ∀ K < nT, ∀ i < n, f_shifted (K * n + i) = Dbl.fin (fr (K * n + i) + c))
    (hC : ∀ K < nT, ∀ i < n, ∀ j < n, 0 ≤ C_K_ij (K * n * n + i * n + j))
    (hpair : ∀ K < nT, ∀ i < n, ∀ j < n, i ≠ j →
      C_K_ij (K * n * n + i * n + j) + C_K_ij (K * n * n + j * n + i) ≤ 2147483647)
    (hb : ∀ K < nT, ∀ x < L, b_K_x (K * L + x) = Dbl.fin (br (K * L + x)))
    (hM : ∀ x < L, M_x x < n) (hKt : K_target < nT) (hL : 1 ≤ L)
    (K i : Nat) (hK : K < nT) (hi : i < n) :
    (_iterate_lognu (Dbl.fin prior) (Dbl.fin (Real.log prior)) log_nu_K_i f_shifted C_K_ij
        nT n scratch_M new_log_nu_K_i).2 (K * n + i)
      = (_iterate_lognu (Dbl.fin prior) (Dbl.fin (Real.log prior)) log_nu_K_i f_K_i C_K_ij
        nT n scratch_M new_log_nu_K_i).2 (K * n + i)
    ∧ (∃ r : ℝ,
        (_iterate_fki (Dbl.fin prior) (Dbl.fin (Real.log prior)) log_nu_K_i f_K_i C_K_ij
          b_K_x M_x N_K_i L log_R_K_i nT n scratch_M scratch_T new_f_K_i
          K_target).log_R_K_i (K * n + i) = Dbl.fin r
        ∧ (_iterate_fki (Dbl.fin prior) (Dbl.fin (Real.log prior)) log_nu_K_i f_shifted
          C_K_ij b_K_x M_x N_K_i L log_R_K_i nT n scratch_M scratch_T new_f_K_i
          K_target).log_R_K_i (K * n + i) = Dbl.fin (r + c))
    ∧ (_iterate_fki (Dbl.fin prior) (Dbl.fin (Real.log prior)) log_nu_K_i f_shifted C_K_ij
        b_K_x M_x N_K_i L log_R_K_i nT n scratch_M scratch_T new_f_K_i
        K_target).new_f_K_i (K * n + i)
      = (_iterate_fki (Dbl.fin prior) (Dbl.fin (Real.log prior)) log_nu_K_i f_K_i C_K_ij
        b_K_x M_x N_K_i L log_R_K_i nT n scratch_M scratch_T new_f_K_i
        K_target).new_f_K_i (K * n + i) := by
  have hfr : ∀ K < nT, ∀ i < n,
      (fun p => fr p + c) (K * n + i) = fr (K * n + i) + c := fun _ _ _ _ => rfl
  -- every cell of `log_R`, before and after the shift
  have hR : ∀ K < nT, ∀ i < n, ∃ r : ℝ,
      (_iterate_fki_R (Dbl.fin prior) (Dbl.fin (Real.log prior)) log_nu_K_i f_K_i C_K_ij
        N_K_i nT n scratch_M log_R_K_i).2 (K * n + i) = Dbl.fin r
      ∧ (_iterate_fki_R (Dbl.fin prior) (Dbl.fin (Real.log prior)) log_nu_K_i f_shifted
        C_K_ij N_K_i nT n scratch_M log_R_K_i).2 (K * n + i) = Dbl.fin (r + c) := by
    intro K hK i hi
    obtain ⟨S, hS, hpos, hval⟩ := iterate_fki_R_value prior hprior log_nu_K_i f_K_i ln fr
      C_K_ij N_K_i nT n scratch_M log_R_K_i hln hf hC hpair K i hK hi
    obtain ⟨S', hS', -, hval'⟩ := iterate_fki_R_value prior hprior log_nu_K_i f_shifted ln
      (fun p => fr p + c) C_K_ij N_K_i nT n scratch_M log_R_K_i hln hfs hC hpair K i hK hi
    refine ⟨Real.log S, hval, ?_⟩
    rw [hval', hS', fki_R_sum_shift prior c ln fr (fun p => fr p + c) C_K_ij
      (fkiNC C_K_ij N_K_i n K i) nT n K i hK hi hfr, ← hS, Real.log_mul (Real.exp_pos c).ne' hpos.ne', Real.log_exp, add_comm]
  refine ⟨?_, hR K hK i hi, ?_⟩
  · obtain ⟨S, hS, -, hval⟩ := iterate_lognu_value prior hprior log_nu_K_i f_K_i ln fr
      C_K_ij nT n scratch_M new_log_nu_K_i hln hf hC hpair K i hK hi
    obtain ⟨S', hS', -, hval'⟩ := iterate_lognu_value prior hprior log_nu_K_i f_shifted ln
      (fun p => fr p + c) C_K_ij nT n scratch_M new_log_nu_K_i hln hfs hC hpair K i hK hi
    rw [hval, hval', hS, hS',
      lognu_sum_shift prior c ln fr (fun p => fr p + c) C_K_ij nT n K i hK hi hfr]
  · obtain ⟨lr, hlr, hlr'⟩ : ∃ lr : Nat → ℝ,
        (∀ K < nT, ∀ i < n,
          (_iterate_fki_R (Dbl.fin prior) (Dbl.fin (Real.log prior)) log_nu_K_i f_K_i C_K_ij
            N_K_i nT n scratch_M log_R_K_i).2 (K * n + i) = Dbl.fin (lr (K * n + i)))
        ∧ (∀ K < nT, ∀ i < n,
          (_iterate_fki_R (Dbl.fin prior) (Dbl.fin (Real.log prior)) log_nu_K_i f_shifted
            C_K_ij N_K_i nT n scratch_M log_R_K_i).2 (K * n + i)
            = Dbl.fin ((fun p => lr p + c) (K * n + i))) := by
      refine ⟨fun p => Dbl.toReal ((_iterate_fki_R (Dbl.fin prior)
        (Dbl.fin (Real.log prior)) log_nu_K_i f_K_i C_K_ij N_K_i nT n scratch_M
        log_R_K_i).2 p), ?_, ?_⟩
      · intro K hK i hi
        obtain ⟨r, h1, -⟩ := hR K hK i hi
        simp only [h1, Dbl.toReal]
      · intro K hK i hi
        obtain ⟨r, h1, h2⟩ := hR K hK i hi
        rw [h2]
        simp only [h1, Dbl.toReal]
    obtain ⟨hZ, hval⟩ := fki_new_f_value b_K_x _ lr br M_x L nT n K_target
      (_iterate_fki_R (Dbl.fin prior) (Dbl.fin (Real.log prior)) log_nu_K_i f_K_i C_K_ij
        N_K_i nT n scratch_M log_R_K_i).1 scratch_T new_f_K_i hlr hb hM hKt hL K i hK hi
    obtain ⟨-, hval'⟩ := fki_new_f_value b_K_x _ (fun p => lr p + c) br M_x L nT n K_target
      (_iterate_fki_R (Dbl.fin prior) (Dbl.fin (Real.log prior)) log_nu_K_i f_shifted
        C_K_ij N_K_i nT n scratch_M log_R_K_i).1 scratch_T new_f_K_i hlr' hb hM hKt hL K i
      hK hi
    have h1 : (_iterate_fki (Dbl.fin prior) (Dbl.fin (Real.log prior)) log_nu_K_i f_K_i
        C_K_ij b_K_x M_x N_K_i L log_R_K_i nT n scratch_M scratch_T new_f_K_i
        K_target).new_f_K_i (K * n + i) = _ := hval
    have h2 : (_iterate_fki (Dbl.fin prior) (Dbl.fin (Real.log prior)) log_nu_K_i f_shifted
        C_K_ij b_K_x M_x N_K_i L log_R_K_i nT n scratch_M scratch_T new_f_K_i
        K_target).new_f_K_i (K * n + i) = _ := hval'
    rw [h1, h2]
    simp only [frameWeight_shift, ← Finset.mul_sum]
    rw [mul_div_mul_left _ _ (Real.exp_pos (-c)).ne']

/-- A concrete instance of the amended C19: two ensembles, two states, three frames `0, 1, 0`,
`f = 0` shifted by `c = 3`. -/
theorem gauge_shift_invariance_witness :
    (_iterate_lognu (Dbl.fin 1) (Dbl.fin (Real.log 1)) (fun _ => Dbl.fin 0)
        (fun _ => Dbl.fin (0 + 3)) (fun _ => 1) 2 2 (fun _ => Dbl.nan)
        (fun _ => Dbl.nan)).2 (1 * 2 + 0)
      = (_iterate_lognu (Dbl.fin 1) (Dbl.fin (Real.log 1)) (fun _ => Dbl.fin 0)
        (fun _ => Dbl.fin 0) (fun _ => 1) 2 2 (fun _ => Dbl.nan)
        (fun _ => Dbl.nan)).2 (1 * 2 + 0)
    ∧ (∃ r : ℝ,
        (_iterate_fki (Dbl.fin 1) (Dbl.fin (Real.log 1)) (fun _ => Dbl.fin 0)
          (fun _ => Dbl.fin 0) (fun _ => 1) (fun _ => Dbl.fin 0) (fun x => x % 2)
          (fun _ => 5) 3 (fun _ => Dbl.nan) 2 2 (fun _ => Dbl.nan) (fun _ => Dbl.nan)
          (fun _ => Dbl.nan) 0).log_R_K_i (1 * 2 + 0) = Dbl.fin r
        ∧ (_iterate_fki (Dbl.fin 1) (Dbl.fin (Real.log 1)) (fun _ => Dbl.fin 0)
          (fun _ => Dbl.fin (0 + 3)) (fun _ => 1) (fun _ => Dbl.fin 0) (fun x => x % 2)
          (fun _ => 5) 3 (fun _ => Dbl.nan) 2 2 (fun _ => Dbl.nan) (fun _ => Dbl.nan)
          (fun _ => Dbl.nan) 0).log_R_K_i (1 * 2 + 0) = Dbl.fin (r + 3))
    ∧ (_iterate_fki (Dbl.fin 1) (Dbl.fin (Real.log 1)) (fun _ => Dbl.fin 0)
        (fun _ => Dbl.fin (0 + 3)) (fun _ => 1) (fun _ => Dbl.fin 0) (fun x => x % 2)
        (fun _ => 5) 3 (fun _ => Dbl.nan) 2 2 (fun _ => Dbl.nan) (fun _ => Dbl.nan)
        (fun _ => Dbl.nan) 0).new_f_K_i (1 * 2 + 0)
      = (_iterate_fki (Dbl.fin 1) (Dbl.fin (Real.log 1)) (fun _ => Dbl.fin 0)
        (fun _ => Dbl.fin 0) (fun _ => 1) (fun _ => Dbl.fin 0) (fun x => x % 2)
        (fun _ => 5) 3 (fun _ => Dbl.nan) 2 2 (fun _ => Dbl.nan) (fun _ => Dbl.nan)
        (fun _ => Dbl.nan) 0).new_f_K_i (1 * 2 + 0) :=
  gauge_shift_invariance 1 one_pos 3 (fun _ => Dbl.fin 0) (fun _ => Dbl.fin 0)
    (fun _ => Dbl.fin (0 + 3)) (fun _ => 0) (fun _ => 0) (fun _ => 0) (fun _ => 1)
    (fun _ => Dbl.fin 0) (fun x => x % 2) (fun _ => 5) 3 (fun _ => Dbl.nan) 2 2
    (fun _ => Dbl.nan) (fun _ => Dbl.nan) (fun _ => Dbl.nan) (fun _ => Dbl.nan) 0
    (fun _ _ _ _ => rfl) (fun _ _ _ _ => rfl) (fun _ _ _ _ => rfl)
    (fun _ _ _ _ _ _ => by norm_num) (fun _ _ _ _ _ _ _ => by norm_num)
    (fun _ _ _ _ => rfl)
    (fun x _ => Nat.mod_lt x (by decide)) (by decide) (by decide) 1 0 (by decide) (by decide)

/-! ## The smallest free energy of the target ensemble -/

lemma neg_log_fin_eq_zero_iff (q : ℝ) (hq : 0 ≤ q) :
    Dbl.neg (Dbl.log (Dbl.fin q)) = Dbl.fin 0 ↔ q = 1 := by
  rcases hq.lt_or_eq with h | h
  · rw [Dbl.log_fin_of_pos h, Dbl.neg_fin]
    constructor
    · intro hh
      have h0 : -Real.log q = 0 := Dbl.fin.inj hh
      have h1 : Real.log q = 0 := by linarith
      rcases Real.log_eq_zero.mp h1 with h2 | h2 | h2 <;> linarith
    · intro hh
      rw [hh, Real.log_one, neg_zero]
  · subst h
    rw [Dbl.log_fin_zero, Dbl.neg_ninf]
    constructor
    · intro hh; exact Dbl.noConfusion hh
    · intro hh; norm_num at hh

/-- The share of the frames of state `i` in the mass of all frames is 1 exactly when
every frame is in state `i`. -/
lemma share_eq_one_iff (u : Nat → ℝ) (hu : ∀ x, 0 < u x) (M_x : Nat → Nat) (L i : Nat)
    (hL : 1 ≤ L) :
    (∑ x ∈ (Finset.range L).filter (fun x => M_x x = i), u x) / (∑ x ∈ Finset.range L, u x) = 1
      ↔ ∀ x < L, M_x x = i := by
  have hZ : 0 < ∑ x ∈ Finset.range L, u x :=
    Finset.sum_pos (fun x _ => hu x) ⟨0, Finset.mem_range.mpr hL⟩
  have hsplit := Finset.sum_filter_add_sum_filter_not (Finset.range L) (fun x => M_x x = i) u
  rw [div_eq_one_iff_eq hZ.ne']
  constructor
  · intro h x hx
    by_contra hne
    have hpos : 0 < ∑ x ∈ (Finset.range L).filter (fun x => ¬ M_x x = i), u x :=
      Finset.sum_pos (fun x _ => hu x)
        ⟨x, Finset.mem_filter.mpr ⟨Finset.mem_range.mpr hx, hne⟩⟩
    linarith
  · intro h
    rw [Finset.filter_true_of_mem (fun x hx => h x (Finset.mem_range.mp hx))]

/-- The cell `(K_target, i)` of `new_f_K_i` after `_iterate_fki`, on valid input:
`-log q` for a share `q` of the frame mass, with `q = 1` exactly when every frame is in
state `i`. -/
lemma fki_target_share (prior : ℝ) (hprior : 0 < prior)
    (log_nu_K_i f_K_i : Nat → Dbl) (ln fr br : Nat → ℝ) (C_K_ij : Nat → Int)
    (b_K_x : Nat → Dbl) (M_x : Nat → Nat) (N_K_i : Nat → Int) (L : Nat)
    (log_R_K_i : Nat → Dbl) (nT n : Nat) (scratch_M scratch_T new_f_K_i : Nat → Dbl)
    (K_target : Nat)
    (hln : ∀ K < nT, ∀ i < n, log_nu_K_i (K * n + i) = Dbl.fin (ln (K * n + i)))
    (hf : ∀ K < nT, ∀ i < n, f_K_i (K * n + i) = Dbl.fin (fr (K * n + i)))
    (hC : ∀ K < nT, ∀ i < n, ∀ j < n, 0 ≤ C_K_ij (K * n * n + i * n + j))
    (hpair : ∀ K < nT, ∀ i < n, ∀ j < n, i ≠ j →
      C_K_ij (K * n * n + i * n + j) + C_K_ij (K * n * n + j * n + i) ≤ 2147483647)
    (hb : ∀ K < nT, ∀ x < L, b_K_x (K * L + x) = Dbl.fin (br (K * L + x)))
    (hM : ∀ x < L, M_x x < n) (hKt : K_target < nT) (hL : 1 ≤ L) (i : Nat) (hi : i < n) :
    ∃ q : ℝ, 0 ≤ q ∧ q ≤ 1
      ∧ (_iterate_fki (Dbl.fin prior) (Dbl.fin (Real.log prior)) log_nu_K_i f_K_i C_K_ij
          b_K_x M_x N_K_i L log_R_K_i nT n scratch_M scratch_T new_f_K_i
          K_target).new_f_K_i (K_target * n + i) = Dbl.neg (Dbl.log (Dbl.fin q))
      ∧ (q = 1 ↔ ∀ x < L, M_x x = i)
      ∧ ((∃ x < L, M_x x = i) → 0 < q) := by
  have hT : 0 < nT := by omega
  obtain ⟨lr, hR⟩ : ∃ lr : Nat → ℝ, ∀ K < nT, ∀ i < n,
      (_iterate_fki_R (Dbl.fin prior) (Dbl.fin (Real.log prior)) log_nu_K_i f_K_i C_K_ij
        N_K_i nT n scratch_M log_R_K_i).2 (K * n + i) = Dbl.fin (lr (K * n + i)) :=
    ⟨fun p => Dbl.toReal ((_iterate_fki_R (Dbl.fin prior) (Dbl.fin (Real.log prior))
        log_nu_K_i f_K_i C_K_ij N_K_i nT n scratch_M log_R_K_i).2 p),
      fki_log_R_finite prior hprior log_nu_K_i f_K_i ln fr C_K_ij N_K_i nT n
        scratch_M log_R_K_i hln hf hC hpair⟩
  obtain ⟨hZ, hval⟩ := fki_new_f_value b_K_x _ lr br M_x L nT n K_target
    (_iterate_fki_R (Dbl.fin prior) (Dbl.fin (Real.log prior)) log_nu_K_i f_K_i C_K_ij
      N_K_i nT n scratch_M log_R_K_i).1 scratch_T new_f_K_i hR hb hM hKt hL
    K_target i hKt hi
  have hw : ∀ x, 0 < frameWeight lr br M_x L nT n K_target x :=
    fun x => frameWeight_pos lr br M_x L nT n K_target x hT
  have hW : 0 ≤ ∑ x ∈ (Finset.range L).filter (fun x => M_x x = i),
      frameWeight lr br M_x L nT n K_target x :=
    Finset.sum_nonneg (fun x _ => (hw x).le)
  have hle : ∑ x ∈ (Finset.range L).filter (fun x => M_x x = i),
      frameWeight lr br M_x L nT n K_target x
      ≤ ∑ x ∈ Finset.range L, frameWeight lr br M_x L nT n K_target x :=
    Finset.sum_le_sum_of_subset_of_nonneg (Finset.filter_subset _ _)
      (fun x _ _ => (hw x).le)
  refine ⟨_, div_nonneg hW hZ.le, (div_le_one hZ).mpr hle, hval,
    share_eq_one_iff _ hw M_x L i hL, ?_⟩
  rintro ⟨x, hx, hxi⟩
  exact div_pos (Finset.sum_pos (fun x _ => hw x)
    ⟨x, Finset.mem_filter.mpr ⟨Finset.mem_range.mpr hx, hxi⟩⟩) hZ

/-- C11 as stated fails, in two ways.  With one ensemble, two states, one frame in each
state, all counts zero and `b = 0`, both `new_f[0][0]` and `new_f[0][1]` are real
numbers above 0 (both are `log 2`), so their minimum is not 0.  And when a symmetrized
count does not fit in an `int` (same trajectory, `C = [[0, 1073741824], [1073741824, 0]]`),
`log_R[0][0]` is NaN and `new_f[0][0]` and `new_f[0][1]` are NaN, so there is no minimum
at all. -/
theorem iterate_fki_min_not_zero :
    (∃ r0 r1 : ℝ,
      (_iterate_fki (Dbl.fin 1) (Dbl.fin (Real.log 1)) (fun _ => Dbl.fin 0)
        (fun _ => Dbl.fin 0) (fun _ => 0) (fun _ => Dbl.fin 0) (fun x => x % 2) (fun _ => 0) 2
        (fun _ => Dbl.fin 0) 1 2 (fun _ => Dbl.fin 0) (fun _ => Dbl.fin 0)
        (fun _ => Dbl.fin 0) 0).new_f_K_i (0 * 2 + 0) = Dbl.fin r0
      ∧ (_iterate_fki (Dbl.fin 1) (Dbl.fin (Real.log 1)) (fun _ => Dbl.fin 0)
        (fun _ => Dbl.fin 0) (fun _ => 0) (fun _ => Dbl.fin 0) (fun x => x % 2) (fun _ => 0) 2
        (fun _ => Dbl.fin 0) 1 2 (fun _ => Dbl.fin 0) (fun _ => Dbl.fin 0)
        (fun _ => Dbl.fin 0) 0).new_f_K_i (0 * 2 + 1) = Dbl.fin r1
      ∧ 0 < r0 ∧ 0 < r1)
    ∧ ((∀ q, (0 : Int) ≤ ([0, 1073741824, 1073741824, 0] : List Int).getD q 0)
      ∧ (_iterate_fki (Dbl.fin 1) (Dbl.fin (Real.log 1)) (fun _ => Dbl.fin 0)
        (fun _ => Dbl.fin 0) (fun q => ([0, 1073741824, 1073741824, 0] : List Int).getD q 0)
        (fun _ => Dbl.fin 0) (fun x => x % 2) (fun _ => 0) 2 (fun _ => Dbl.fin 0) 1 2
        (fun _ => Dbl.fin 0) (fun _ => Dbl.fin 0) (fun _ => Dbl.fin 0) 0).new_f_K_i
          (0 * 2 + 0) = Dbl.nan
      ∧ (_iterate_fki (Dbl.fin 1) (Dbl.fin (Real.log 1)) (fun _ => Dbl.fin 0)
        (fun _ => Dbl.fin 0) (fun q => ([0, 1073741824, 1073741824, 0] : List Int).getD q 0)
        (fun _ => Dbl.fin 0) (fun x => x % 2) (fun _ => 0) 2 (fun _ => Dbl.fin 0) 1 2
        (fun _ => Dbl.fin 0) (fun _ => Dbl.fin 0) (fun _ => Dbl.fin 0) 0).new_f_K_i
          (0 * 2 + 1) = Dbl.nan) := by
  have key : ∀ i < 2, ∃ r : ℝ,
      (_iterate_fki (Dbl.fin 1) (Dbl.fin (Real.log 1)) (fun _ => Dbl.fin 0)
        (fun _ => Dbl.fin 0) (fun _ => 0) (fun _ => Dbl.fin 0) (fun x => x % 2) (fun _ => 0) 2
        (fun _ => Dbl.fin 0) 1 2 (fun _ => Dbl.fin 0) (fun _ => Dbl.fin 0)
        (fun _ => Dbl.fin 0) 0).new_f_K_i (0 * 2 + i) = Dbl.fin r ∧ 0 < r := by
    intro i hi
    obtain ⟨q, -, hq1, hval, hone, hpos⟩ := fki_target_share 1 one_pos (fun _ => Dbl.fin 0)
      (fun _ => Dbl.fin 0) (fun _ => 0) (fun _ => 0) (fun _ => 0) (fun _ => 0)
      (fun _ => Dbl.fin 0) (fun x => x % 2) (fun _ => 0) 2 (fun _ => Dbl.fin 0) 1 2
      (fun _ => Dbl.fin 0) (fun _ => Dbl.fin 0) (fun _ => Dbl.fin 0) 0
      (fun _ _ _ _ => rfl) (fun _ _ _ _ => rfl) (fun _ _ _ _ _ _ => le_refl _)
      (fun _ _ _ _ _ _ _ => by norm_num)
      (fun _ _ _ _ => rfl) (fun x _ => Nat.mod_lt x (by decide)) (by decide) (by decide)
      i hi
    have hq0 : 0 < q := hpos ⟨i, hi, Nat.mod_eq_of_lt hi⟩
    have hne : q ≠ 1 := by
      intro h
      have hall := hone.mp h
      have h0 := hall 0 (by decide)
      have h1 := hall 1 (by decide)
      omega
    refine ⟨-Real.log q, ?_, ?_⟩
    · rw [hval, Dbl.log_fin_of_pos hq0, Dbl.neg_fin]
    · have := Real.log_neg hq0 (lt_of_le_of_ne hq1 hne)
      linarith
  obtain ⟨r0, h0, hr0⟩ := key 0 (by decide)
  obtain ⟨r1, h1, hr1⟩ := key 1 (by decide)
  refine ⟨⟨r0, r1, h0, h1, hr0, hr1⟩, ?_,
    fki_new_f_overflow (fun x => x % 2) (fun x _ => Nat.mod_lt x (by decide)) rfl _ _ _ _ _
      0 (by decide),
    fki_new_f_overflow (fun x => x % 2) (fun x _ => Nat.mod_lt x (by decide)) rfl _ _ _ _ _
      1 (by decide)⟩
  intro q
  rcases q with _ | _ | _ | _ | q <;> simp

/-- C11, amended: on valid input whose symmetrized counts (`i ≠ j`) fit in an `int`,
with at least one frame, every `new_f[K_target][i]` is `+inf` or a real number `r ≥ 0`, so the minimum over the states is at least 0, and
`new_f[K_target][i] = 0` holds exactly when every frame is in state `i`. -/
theorem iterate_fki_target_nonneg (prior : ℝ) (hprior : 0 < prior)
    (log_nu_K_i f_K_i : Nat → Dbl) (ln fr br : Nat → ℝ) (C_K_ij : Nat → Int)
    (b_K_x : Nat → Dbl) (M_x : Nat → Nat) (N_K_i : Nat → Int) (L : Nat)
    (log_R_K_i : Nat → Dbl) (nT n : Nat) (scratch_M scratch_T new_f_K_i : Nat → Dbl)
    (K_target : Nat)
    (hln : ∀ K < nT, ∀ i < n, log_nu_K_i (K * n + i) = Dbl.fin (ln (K * n + i)))
    (hf : ∀ K < nT, ∀ i < n, f_K_i (K * n + i) = Dbl.fin (fr (K * n + i)))
    (hC : ∀ K < nT, ∀ i < n, ∀ j < n, 0 ≤ C_K_ij (K * n * n + i * n + j))
    (hpair : ∀ K < nT, ∀ i < n, ∀ j < n, i ≠ j →
      C_K_ij (K * n * n + i * n + j) + C_K_ij (K * n * n + j * n + i) ≤ 2147483647)
    (hb : ∀ K < nT, ∀ x < L, b_K_x (K * L + x) = Dbl.fin (br (K * L + x)))
    (hM : ∀ x < L, M_x x < n) (hKt : K_target < nT) (hL : 1 ≤ L) (i : Nat) (hi : i < n) :
    ((_iterate_fki (Dbl.fin prior) (Dbl.fin (Real.log prior)) log_nu_K_i f_K_i C_K_ij
        b_K_x M_x N_K_i L log_R_K_i nT n scratch_M scratch_T new_f_K_i
        K_target).new_f_K_i (K_target * n + i) = Dbl.pinf
      ∨ ∃ r : ℝ, 0 ≤ r
        ∧ (_iterate_fki (Dbl.fin prior) (Dbl.fin (Real.log prior)) log_nu_K_i f_K_i C_K_ij
          b_K_x M_x N_K_i L log_R_K_i nT n scratch_M scratch_T new_f_K_i
          K_target).new_f_K_i (K_target * n + i) = Dbl.fin r)
    ∧ ((_iterate_fki (Dbl.fin prior) (Dbl.fin (Real.log prior)) log_nu_K_i f_K_i C_K_ij
        b_K_x M_x N_K_i L log_R_K_i nT n scratch_M scratch_T new_f_K_i
        K_target).new_f_K_i (K_target * n + i) = Dbl.fin 0
      ↔ ∀ x < L, M_x x = i) := by
  obtain ⟨q, hq0, hq1, hval, hone, -⟩ := fki_target_share prior hprior log_nu_K_i f_K_i ln
    fr br C_K_ij b_K_x M_x N_K_i L log_R_K_i nT n scratch_M scratch_T new_f_K_i K_target
    hln hf hC hpair hb hM hKt hL i hi
  constructor
  · rcases hq0.lt_or_eq with h | h
    · right
      refine ⟨-Real.log q, ?_, ?_⟩
      · have := Real.log_nonpos hq0 hq1
        linarith
      · rw [hval, Dbl.log_fin_of_pos h, Dbl.neg_fin]
    · left
      rw [hval, ← h, Dbl.log_fin_zero, Dbl.neg_ninf]
  · rw [hval, neg_log_fin_eq_zero_iff q hq0]
    exact hone

/-- A concrete instance of the amended C11: two ensembles, two states, frames
`0, 1, 0`, target ensemble 1. -/
theorem iterate_fki_target_nonneg_witness :
    ((_iterate_fki (Dbl.fin 1) (Dbl.fin (Real.log 1)) (fun _ => Dbl.fin 0)
        (fun _ => Dbl.fin 0) (fun _ => 1) (fun _ => Dbl.fin 0) (fun x => x % 2) (fun _ => 5) 3
        (fun _ => Dbl.nan) 2 2 (fun _ => Dbl.nan) (fun _ => Dbl.nan) (fun _ => Dbl.nan)
        1).new_f_K_i (1 * 2 + 0) = Dbl.pinf
      ∨ ∃ r : ℝ, 0 ≤ r
        ∧ (_iterate_fki (Dbl.fin 1) (Dbl.fin (Real.log 1)) (fun _ => Dbl.fin 0)
          (fun _ => Dbl.fin 0) (fun _ => 1) (fun _ => Dbl.fin 0) (fun x => x % 2) (fun _ => 5)
          3 (fun _ => Dbl.nan) 2 2 (fun _ => Dbl.nan) (fun _ => Dbl.nan) (fun _ => Dbl.nan)
          1).new_f_K_i (1 * 2 + 0) = Dbl.fin r)
    ∧ ((_iterate_fki (Dbl.fin 1) (Dbl.fin (Real.log 1)) (fun _ => Dbl.fin 0)
        (fun _ => Dbl.fin 0) (fun _ => 1) (fun _ => Dbl.fin 0) (fun x => x % 2) (fun _ => 5) 3
        (fun _ => Dbl.nan) 2 2 (fun _ => Dbl.nan) (fun _ => Dbl.nan) (fun _ => Dbl.nan)
        1).new_f_K_i (1 * 2 + 0) = Dbl.fin 0
      ↔ ∀ x < 3, (fun x => x % 2) x = 0) :=
  iterate_fki_target_nonneg 1 one_pos (fun _ => Dbl.fin 0) (fun _ => Dbl.fin 0)
    (fun _ => 0) (fun _ => 0) (fun _ => 0) (fun _ => 1) (fun _ => Dbl.fin 0) (fun x => x % 2)
    (fun _ => 5) 3 (fun _ => Dbl.nan) 2 2 (fun _ => Dbl.nan) (fun _ => Dbl.nan)
    (fun _ => Dbl.nan) 1 (fun _ _ _ _ => rfl) (fun _ _ _ _ => rfl)
    (fun _ _ _ _ _ _ => by norm_num) (fun _ _ _ _ _ _ _ => by norm_num)
    (fun _ _ _ _ => rfl)
    (fun x _ => Nat.mod_lt x (by decide)) (by decide) (by decide) 0 (by decide)

/-! ## Independence of the initial contents of scratch and output arrays -/

/-- The cells of `new_f_K_i` after the reset and the frame loop of `_iterate_fki` are
the same for two `log_R` arrays that agree on the grid, whatever `scratch_T` and
`new_f_K_i` held before. -/
lemma fki_frames_indep (b_K_x : Nat → Dbl) (M_x : Nat → Nat) (L : Nat)
    (R1 R2 : Nat → Dbl) (nT n : Nat) (sT1 sT2 nf1 nf2 : Nat → Dbl)
    (hR : ∀ K < nT, ∀ i < n, R1 (K * n + i) = R2 (K * n + i))
    (hM : ∀ x < L, M_x x < n) (K i : Nat) (hK : K < nT) (hi : i < n) :
    ((List.range L).foldl (_iterate_fki_x b_K_x M_x L R1 nT n)
      (sT1, _iterate_fki_inf nT n nf1)).2 (K * n + i)
    = ((List.range L).foldl (_iterate_fki_x b_K_x M_x L R2 nT n)
      (sT2, _iterate_fki_inf nT n nf2)).2 (K * n + i) := by
  rw [iterate_fki_frames_apply b_K_x M_x L R1 nT n sT1 _ hM K i hK hi,
    iterate_fki_frames_apply b_K_x M_x L R2 nT n sT2 _ hM K i hK hi,
    iterate_fki_inf_apply nT n nf1 K i hK hi, iterate_fki_inf_apply nT n nf2 K i hK hi]
  apply List.foldl_ext
  intro v x hx
  have hmap : (List.range nT).map (fun K' => R1 (K' * n + M_x x) - b_K_x (K' * L + x))
      = (List.range nT).map (fun K' => R2 (K' * n + M_x x) - b_K_x (K' * L + x)) :=
    List.map_congr_left (fun K' hK' => by
      rw [hR K' (List.mem_range.mp hK') _ (hM x (List.mem_range.mp hx))])
  rw [hmap]

/-- The cells of `new_f_K_i` after `_iterate_fki` do not depend on what the scratch and
output arrays held before the call. -/
lemma fki_new_f_indep (PRIOR LOG_PRIOR : Dbl) (log_nu_K_i f_K_i : Nat → Dbl)
    (C_K_ij : Nat → Int) (b_K_x : Nat → Dbl) (M_x : Nat → Nat) (N_K_i : Nat → Int) (L : Nat)
    (nT n K_target : Nat) (lR1 lR2 sM1 sM2 sT1 sT2 nf1 nf2 : Nat → Dbl)
    (hM : ∀ x < L, M_x x < n) (hKt : K_target < nT) (K i : Nat) (hK : K < nT) (hi : i < n) :
    (_iterate_fki PRIOR LOG_PRIOR log_nu_K_i f_K_i C_K_ij b_K_x M_x N_K_i L lR1 nT n
      sM1 sT1 nf1 K_target).new_f_K_i (K * n + i)
    = (_iterate_fki PRIOR LOG_PRIOR log_nu_K_i f_K_i C_K_ij b_K_x M_x N_K_i L lR2 nT n
      sM2 sT2 nf2 K_target).new_f_K_i (K * n + i) := by
  have hR : ∀ K < nT, ∀ i < n,
      (_iterate_fki_R PRIOR LOG_PRIOR log_nu_K_i f_K_i C_K_ij N_K_i nT n sM1 lR1).2 (K * n + i)
      = (_iterate_fki_R PRIOR LOG_PRIOR log_nu_K_i f_K_i C_K_ij N_K_i nT n sM2 lR2).2
        (K * n + i) := by
    intro K hK i hi
    rw [iterate_fki_R_apply _ _ _ _ _ _ _ _ _ _ K i hK hi,
      iterate_fki_R_apply _ _ _ _ _ _ _ _ _ _ K i hK hi]
  have hF := fki_frames_indep b_K_x M_x L _ _ nT n sT1 sT2 nf1 nf2 hR hM
  show (_iterate_fki_norm nT n K_target _ _).2 (K * n + i)
    = (_iterate_fki_norm nT n K_target _ _).2 (K * n + i)
  rw [iterate_fki_norm_apply nT n K_target _ _ K i hK hi,
    iterate_fki_norm_apply nT n K_target _ _ K i hK hi, hF K i hK hi,
    List.map_congr_left (fun i' hi' => by rw [hF K_target i' hKt (List.mem_range.mp hi')])]

/-- The cell `i` of `f_ground_i` after `_f_ground_state` does not depend on what the
scratch and output arrays held before the call. -/
lemma f_ground_indep (b_K_x : Nat → Dbl) (M_x : Nat → Nat) (L : Nat) (log_R_K_i : Nat → Dbl)
    (nT n : Nat) (sM1 sM2 sT1 sT2 fg1 fg2 : Nat → Dbl) (i : Nat) (hi : i < n) :
    (_f_ground_state b_K_x M_x L log_R_K_i nT n sM1 sT1 fg1).f_ground_i i
    = (_f_ground_state b_K_x M_x L log_R_K_i nT n sM2 sT2 fg2).f_ground_i i := by
  have hF : ∀ i < n,
      ((List.range L).foldl (_f_ground_state_x b_K_x M_x L log_R_K_i nT n)
        (sT1, (List.range n).foldl (fun f i => Function.update f i INFINITY) fg1)).2 i
      = ((List.range L).foldl (_f_ground_state_x b_K_x M_x L log_R_K_i nT n)
        (sT2, (List.range n).foldl (fun f i => Function.update f i INFINITY) fg2)).2 i := by
    intro i hi
    rw [f_ground_frames_apply, f_ground_frames_apply,
      foldl_row_apply (fun _ _ => INFINITY) n fg1 i hi,
      foldl_row_apply (fun _ _ => INFINITY) n fg2 i hi]
  unfold _f_ground_state
  simp only [Dbl.clse_eq, map_foldl_fill]
  rw [foldl_row_apply (fun _ v => v + Dbl.log (Dbl.sumExpList ((List.range n).map
      (fun i => -(((List.range L).foldl (_f_ground_state_x b_K_x M_x L log_R_K_i nT n)
        (sT1, (List.range n).foldl (fun f i => Function.update f i INFINITY)
          fg1)).2 i))))) n _ i hi,
    foldl_row_apply (fun _ v => v + Dbl.log (Dbl.sumExpList ((List.range n).map
      (fun i => -(((List.range L).foldl (_f_ground_state_x b_K_x M_x L log_R_K_i nT n)
        (sT2, (List.range n).foldl (fun f i => Function.update f i INFINITY)
          fg2)).2 i))))) n _ i hi,
    hF i hi, List.map_congr_left (fun i' hi' => by rw [hF i' (List.mem_range.mp hi')])]

/-- C13: two runs of `_iterate_lognu`, of `_iterate_fki` and of `_f_ground_state` on the
same inputs (state indices in range, target ensemble in range) that differ only in what
`scratch_M`, `scratch_T` and the output arrays held before the call write the same
`new_log_nu[K][i]`, the same `log_R[K][i]` and `new_f[K][i]`, and the same
`f_ground[i]`; the inputs may be any values, NaN and infinities included. -/
theorem no_cross_call_dependency (PRIOR LOG_PRIOR : Dbl) (log_nu_K_i f_K_i : Nat → Dbl)
    (C_K_ij : Nat → Int) (b_K_x : Nat → Dbl) (M_x : Nat → Nat) (N_K_i : Nat → Int) (L : Nat)
    (log_R_in : Nat → Dbl) (nT n K_target : Nat)
    (sM1 sM2 sT1 sT2 nl1 nl2 lR1 lR2 nf1 nf2 fg1 fg2 : Nat → Dbl)
    (hM : ∀ x < L, M_x x < n) (hKt : K_target < nT) :
    (∀ K < nT, ∀ i < n,
      (_iterate_lognu PRIOR LOG_PRIOR log_nu_K_i f_K_i C_K_ij nT n sM1 nl1).2 (K * n + i)
      = (_iterate_lognu PRIOR LOG_PRIOR log_nu_K_i f_K_i C_K_ij nT n sM2 nl2).2 (K * n + i))
    ∧ (∀ K < nT, ∀ i < n,
      (_iterate_fki PRIOR LOG_PRIOR log_nu_K_i f_K_i C_K_ij b_K_x M_x N_K_i L lR1 nT n
        sM1 sT1 nf1 K_target).log_R_K_i (K * n + i)
      = (_iterate_fki PRIOR LOG_PRIOR log_nu_K_i f_K_i C_K_ij b_K_x M_x N_K_i L lR2 nT n
        sM2 sT2 nf2 K_target).log_R_K_i (K * n + i)
      ∧ (_iterate_fki PRIOR LOG_PRIOR log_nu_K_i f_K_i C_K_ij b_K_x M_x N_K_i L lR1 nT n
        sM1 sT1 nf1 K_target).new_f_K_i (K * n + i)
      = (_iterate_fki PRIOR LOG_PRIOR log_nu_K_i f_K_i C_K_ij b_K_x M_x N_K_i L lR2 nT n
        sM2 sT2 nf2 K_target).new_f_K_i (K * n + i))
    ∧ (∀ i < n,
      (_f_ground_state b_K_x M_x L log_R_in nT n sM1 sT1 fg1).f_ground_i i
      = (_f_ground_state b_K_x M_x L log_R_in nT n sM2 sT2 fg2).f_ground_i i) := by
  refine ⟨?_, ?_, ?_⟩
  · intro K hK i hi
    rw [iterate_lognu_apply _ _ _ _ _ _ _ _ _ K i hK hi,
      iterate_lognu_apply _ _ _ _ _ _ _ _ _ K i hK hi]
  · intro K hK i hi
    constructor
    · show (_iterate_fki_R _ _ _ _ _ _ _ _ sM1 lR1).2 (K * n + i)
        = (_iterate_fki_R _ _ _ _ _ _ _ _ sM2 lR2).2 (K * n + i)
      rw [iterate_fki_R_apply _ _ _ _ _ _ _ _ _ _ K i hK hi,
        iterate_fki_R_apply _ _ _ _ _ _ _ _ _ _ K i hK hi]
    · exact fki_new_f_indep PRIOR LOG_PRIOR log_nu_K_i f_K_i C_K_ij b_K_x M_x N_K_i L nT n
        K_target lR1 lR2 sM1 sM2 sT1 sT2 nf1 nf2 hM hKt K i hK hi
  · intro i hi
    exact f_ground_indep b_K_x M_x L log_R_in nT n sM1 sM2 sT1 sT2 fg1 fg2 i hi

/-- A concrete instance of C13: two ensembles, two states, three frames; one run starts
from arrays full of NaN, the other from arrays full of zeros. -/
theorem no_cross_call_dependency_witness :
    (∀ K < 2, ∀ i < 2,
      (_iterate_lognu (Dbl.fin 1) (Dbl.fin 0) (fun _ => Dbl.fin 0) (fun _ => Dbl.fin 0)
        (fun _ => 1) 2 2 (fun _ => Dbl.nan) (fun _ => Dbl.nan)).2 (K * 2 + i)
      = (_iterate_lognu (Dbl.fin 1) (Dbl.fin 0) (fun _ => Dbl.fin 0) (fun _ => Dbl.fin 0)
        (fun _ => 1) 2 2 (fun _ => Dbl.fin 0) (fun _ => Dbl.fin 0)).2 (K * 2 + i))
    ∧ (∀ K < 2, ∀ i < 2,
      (_iterate_fki (Dbl.fin 1) (Dbl.fin 0) (fun _ => Dbl.fin 0) (fun _ => Dbl.fin 0)
        (fun _ => 1) (fun _ => Dbl.fin 0) (fun x => x % 2) (fun _ => 5) 3 (fun _ => Dbl.nan)
        2 2 (fun _ => Dbl.nan) (fun _ => Dbl.nan) (fun _ => Dbl.nan) 1).log_R_K_i (K * 2 + i)
      = (_iterate_fki (Dbl.fin 1) (Dbl.fin 0) (fun _ => Dbl.fin 0) (fun _ => Dbl.fin 0)
        (fun _ => 1) (fun _ => Dbl.fin 0) (fun x => x % 2) (fun _ => 5) 3 (fun _ => Dbl.fin 0)
        2 2 (fun _ => Dbl.fin 0) (fun _ => Dbl.fin 0) (fun _ => Dbl.fin 0)
        1).log_R_K_i (K * 2 + i)
      ∧ (_iterate_fki (Dbl.fin 1) (Dbl.fin 0) (fun _ => Dbl.fin 0) (fun _ => Dbl.fin 0)
        (fun _ => 1) (fun _ => Dbl.fin 0) (fun x => x % 2) (fun _ => 5) 3 (fun _ => Dbl.nan)
        2 2 (fun _ => Dbl.nan) (fun _ => Dbl.nan) (fun _ => Dbl.nan) 1).new_f_K_i (K * 2 + i)
      = (_iterate_fki (Dbl.fin 1) (Dbl.fin 0) (fun _ => Dbl.fin 0) (fun _ => Dbl.fin 0)
        (fun _ => 1) (fun _ => Dbl.fin 0) (fun x => x % 2) (fun _ => 5) 3 (fun _ => Dbl.fin 0)
        2 2 (fun _ => Dbl.fin 0) (fun _ => Dbl.fin 0) (fun _ => Dbl.fin 0)
        1).new_f_K_i (K * 2 + i))
    ∧ (∀ i < 2,
      (_f_ground_state (fun _ => Dbl.fin 0) (fun x => x % 2) 3 (fun _ => Dbl.fin 1) 2 2
        (fun _ => Dbl.nan) (fun _ => Dbl.nan) (fun _ => Dbl.nan)).f_ground_i i
      = (_f_ground_state (fun _ => Dbl.fin 0) (fun x => x % 2) 3 (fun _ => Dbl.fin 1) 2 2
        (fun _ => Dbl.fin 0) (fun _ => Dbl.fin 0) (fun _ => Dbl.fin 0)).f_ground_i i) :=
  no_cross_call_dependency (Dbl.fin 1) (Dbl.fin 0) (fun _ => Dbl.fin 0) (fun _ => Dbl.fin 0)
    (fun _ => 1) (fun _ => Dbl.fin 0) (fun x => x % 2) (fun _ => 5) 3 (fun _ => Dbl.fin 1) 2 2
    1 (fun _ => Dbl.nan) (fun _ => Dbl.fin 0) (fun _ => Dbl.nan) (fun _ => Dbl.fin 0)
    (fun _ => Dbl.nan) (fun _ => Dbl.fin 0) (fun _ => Dbl.nan) (fun _ => Dbl.fin 0)
    (fun _ => Dbl.nan) (fun _ => Dbl.fin 0) (fun _ => Dbl.nan) (fun _ => Dbl.fin 0)
    (fun x _ => Nat.mod_lt x (by decide)) (by decide)

/-! ## The order of the frames -/

namespace Dbl

lemma add_comm_dbl (a b : Dbl) : Dbl.add a b = Dbl.add b a := by
  cases a <;> cases b <;> simp [Dbl.add, add_comm]

lemma add_assoc_dbl (a b c : Dbl) : Dbl.add (Dbl.add a b) c = Dbl.add a (Dbl.add b c) := by
  cases a <;> cases b <;> cases c <;> simp [Dbl.add, add_assoc]

/-- An exponential is NaN, `+inf` or a real number `≥ 0`. -/
lemma exp_cases (u : Dbl) :
    Dbl.exp u = nan ∨ Dbl.exp u = pinf ∨ ∃ y : ℝ, 0 ≤ y ∧ Dbl.exp u = fin y := by
  cases u with
  | nan => exact Or.inl rfl
  | ninf => exact Or.inr (Or.inr ⟨0, le_refl 0, rfl⟩)
  | fin r => exact Or.inr (Or.inr ⟨Real.exp r, (Real.exp_pos r).le, rfl⟩)
  | pinf => exact Or.inr (Or.inl rfl)

/-- On a sum of two exponentials `exp (log y) = y`. -/
lemma exp_log_add_exp (u a : Dbl) :
    Dbl.exp (Dbl.log (Dbl.add (Dbl.exp u) (Dbl.exp a))) = Dbl.add (Dbl.exp u) (Dbl.exp a) := by
  rcases exp_cases u with hu | hu | ⟨y, hy, hu⟩ <;>
    rcases exp_cases a with ha | ha | ⟨z, hz, ha⟩ <;> rw [hu, ha]
  any_goals rfl
  rw [add_fin_fin, exp_log_fin (add_nonneg hy hz)]

/-- Two accumulation steps `v ↦ -logsumexp_pair(-v, a)` commute. -/
lemma acc_comm (v a1 a2 : Dbl) :
    -(_logsumexp_pair (-(-(_logsumexp_pair (-v) a1))) a2)
      = -(_logsumexp_pair (-(-(_logsumexp_pair (-v) a2))) a1) := by
  simp only [Dbl.hneg_eq, Dbl.neg_neg, Dbl.clsep_eq, exp_log_add_exp]
  rw [add_assoc_dbl, add_assoc_dbl, add_comm_dbl (Dbl.exp a1)]

/-- Two guarded accumulation steps commute. -/
lemma acc_ite_comm (c1 c2 : Prop) [Decidable c1] [Decidable c2] (v a1 a2 : Dbl) :
    (if c2 then -(_logsumexp_pair (-(if c1 then -(_logsumexp_pair (-v) a1) else v)) a2)
      else (if c1 then -(_logsumexp_pair (-v) a1) else v))
      = (if c1 then -(_logsumexp_pair (-(if c2 then -(_logsumexp_pair (-v) a2) else v)) a1)
      else (if c2 then -(_logsumexp_pair (-v) a2) else v)) := by
  by_cases h1 : c1 <;> by_cases h2 : c2 <;> simp only [h1, h2, if_true, if_false]
  exact acc_comm v a1 a2

end Dbl

/-- Loops whose steps commute pairwise commute. -/
lemma foldl_comm_family {β ι κ : Type} (g : ι → β → β) (h : κ → β → β)
    (hc : ∀ a b v, g a (h b v) = h b (g a v)) (l1 : List ι) (l2 : List κ) (v : β) :
    l1.foldl (fun v a => g a v) (l2.foldl (fun v b => h b v) v)
      = l2.foldl (fun v b => h b v) (l1.foldl (fun v a => g a v) v) := by
  have step : ∀ (a : ι) (l2 : List κ) (v : β),
      g a (l2.foldl (fun v b => h b v) v) = l2.foldl (fun v b => h b v) (g a v) := by
    intro a l2
    induction l2 with
    | nil => intro v; rfl
    | cons b l2 ih => intro v; simp only [List.foldl_cons]; rw [ih, hc]
  induction l1 generalizing v with
  | nil => rfl
  | cons a l1 ih => simp only [List.foldl_cons]; rw [← ih, step]

/-- A map of `0 .. L-1` into itself without repetition lists `0 .. L-1` in another
order. -/
lemma range_map_perm (s : Nat → Nat) (L : Nat) (hs : ∀ x < L, s x < L)
    (hinj : ∀ x < L, ∀ y < L, s x = s y → x = y) :
    ((List.range L).map s).Perm (List.range L) := by
  have hnd : ((List.range L).map s).Nodup :=
    List.Nodup.map_on (fun x hx y hy h =>
      hinj x (List.mem_range.mp hx) y (List.mem_range.mp hy) h) (List.nodup_range L)
  have hsub : (List.range L).map s ⊆ List.range L := by
    intro y hy
    obtain ⟨x, hx, rfl⟩ := List.mem_map.mp hy
    exact List.mem_range.mpr (hs x (List.mem_range.mp hx))
  exact (hnd.subperm hsub).perm_of_length_le (by simp)

/-- A loop over the frames whose steps commute gives the same result on the frames
taken in another order. -/
lemma foldl_frames_perm {β : Type} (Φ Φ2 : Nat → β → β) (s : Nat → Nat) (L : Nat)
    (hs : ∀ x < L, s x < L) (hinj : ∀ x < L, ∀ y < L, s x = s y → x = y)
    (hΦ : ∀ x < L, Φ2 x = Φ (s x))
    (hc : ∀ x y v, Φ y (Φ x v) = Φ x (Φ y v)) (v : β) :
    (List.range L).foldl (fun v x => Φ2 x v) v = (List.range L).foldl (fun v x => Φ x v) v := by
  have h1 : (List.range L).foldl (fun v x => Φ2 x v) v
      = ((List.range L).map s).foldl (fun v x => Φ x v) v := by
    rw [List.foldl_map]
    apply List.foldl_ext
    intro v x hx
    rw [hΦ x (List.mem_range.mp hx)]
  rw [h1]
  exact (range_map_perm s L hs hinj).foldl_eq' (fun x _ y _ z => hc x y z) v

/-- Any cell `p` of `new_f_K_i` after the frame loop of `_iterate_fki`: a loop over the
frames and the ensembles of guarded accumulation steps. -/
lemma fki_frames_cell (b_K_x : Nat → Dbl) (M_x : Nat → Nat) (L : Nat)
    (log_R_K_i : Nat → Dbl) (nT n : Nat) (scratch_T new_f_K_i : Nat → Dbl) (p : Nat) :
    ((List.range L).foldl (_iterate_fki_x b_K_x M_x L log_R_K_i nT n)
      (scratch_T, new_f_K_i)).2 p
      = (List.range L).foldl (fun v x => (List.range nT).foldl (fun v K =>
          if p = K * n + M_x x then
            -(_logsumexp_pair (-v)
              (-(Dbl.log (Dbl.sumExpList ((List.range nT).map (fun K' =>
                  log_R_K_i (K' * n + M_x x) - b_K_x (K' * L + x))))
                + b_K_x (K * L + x))))
          else v) v) (new_f_K_i p) := by
  rw [foldl_proj Prod.snd _ (fun new_f x => (List.range nT).foldl (fun new_f K =>
          Function.update new_f (K * n + M_x x)
            (-(_logsumexp_pair (-(new_f (K * n + M_x x)))
              (-(Dbl.log (Dbl.sumExpList ((List.range nT).map (fun K' =>
                  log_R_K_i (K' * n + M_x x) - b_K_x (K' * L + x))))
                + b_K_x (K * L + x)))))) new_f)
    (fun st x => iterate_fki_x_snd b_K_x M_x L log_R_K_i nT n st x)]
  exact foldl_pointwise _ (fun x p v => (List.range nT).foldl (fun v K =>
      if p = K * n + M_x x then
        -(_logsumexp_pair (-v)
          (-(Dbl.log (Dbl.sumExpList ((List.range nT).map (fun K' =>
              log_R_K_i (K' * n + M_x x) - b_K_x (K' * L + x))))
            + b_K_x (K * L + x))))
      else v) v)
    (fun out x p => foldl_update_pointwise (fun K => K * n + M_x x)
      (fun K v => -(_logsumexp_pair (-v)
          (-(Dbl.log (Dbl.sumExpList ((List.range nT).map (fun K' =>
              log_R_K_i (K' * n + M_x x) - b_K_x (K' * L + x))))
            + b_K_x (K * L + x))))) (List.range nT) out p) (List.range L) new_f_K_i p

/-- The array `new_f_K_i` after the frame loop of `_iterate_fki` is the same on the
frames taken in another order. -/
lemma fki_frames_perm (b b2 : Nat → Dbl) (M M2 : Nat → Nat) (L : Nat)
    (log_R_K_i : Nat → Dbl) (nT n : Nat) (sT sT2 new_f_K_i : Nat → Dbl) (s : Nat → Nat)
    (hs : ∀ x < L, s x < L) (hinj : ∀ x < L, ∀ y < L, s x = s y → x = y)
    (hM : ∀ x < L, M2 x = M (s x))
    (hb : ∀ K < nT, ∀ x < L, b2 (K * L + x) = b (K * L + s x)) :
    ((List.range L).foldl (_iterate_fki_x b2 M2 L log_R_K_i nT n) (sT2, new_f_K_i)).2
      = ((List.range L).foldl (_iterate_fki_x b M L log_R_K_i nT n) (sT, new_f_K_i)).2 := by
  funext p
  rw [fki_frames_cell, fki_frames_cell]
  apply foldl_frames_perm (fun x v => (List.range nT).foldl (fun v K =>
          if p = K * n + M x then
            -(_logsumexp_pair (-v)
              (-(Dbl.log (Dbl.sumExpList ((List.range nT).map (fun K' =>
                  log_R_K_i (K' * n + M x) - b (K' * L + x))))
                + b (K * L + x))))
          else v) v) _ s L hs hinj
  · intro x hx
    funext v
    have hD : (List.range nT).map (fun K' => log_R_K_i (K' * n + M2 x) - b2 (K' * L + x))
        = (List.range nT).map (fun K' => log_R_K_i (K' * n + M (s x)) - b (K' * L + s x)) :=
      List.map_congr_left (fun K' hK' => by
        rw [hM x hx, hb K' (List.mem_range.mp hK') x hx])
    rw [hD, hM x hx]
    apply List.foldl_ext
    intro v K hK
    rw [hb K (List.mem_range.mp hK) x hx]
  · intro x y v
    exact foldl_comm_family _ _ (fun K1 K2 v => Dbl.acc_ite_comm _ _ v _ _)
      (List.range nT) (List.range nT) v

/-- The array `f_ground_i` after the frame loop of `_f_ground_state` is the same on the
frames taken in another order. -/
lemma f_ground_frames_perm (b b2 : Nat → Dbl) (M M2 : Nat → Nat) (L : Nat)
    (log_R_K_i : Nat → Dbl) (nT n : Nat) (sT sT2 f_ground_i : Nat → Dbl) (s : Nat → Nat)
    (hs : ∀ x < L, s x < L) (hinj : ∀ x < L, ∀ y < L, s x = s y → x = y)
    (hM : ∀ x < L, M2 x = M (s x))
    (hb : ∀ K < nT, ∀ x < L, b2 (K * L + x) = b (K * L + s x)) :
    ((List.range L).foldl (_f_ground_state_x b2 M2 L log_R_K_i nT n) (sT2, f_ground_i)).2
      = ((List.range L).foldl (_f_ground_state_x b M L log_R_K_i nT n) (sT, f_ground_i)).2 := by
  funext i
  rw [f_ground_frames_apply, f_ground_frames_apply]
  apply foldl_frames_perm (fun x v => if M x = i then
            -(_logsumexp_pair (-v)
              (-(Dbl.log (Dbl.sumExpList ((List.range nT).map (fun K' =>
                  log_R_K_i (K' * n + M x) - b (K' * L + x)))))))
          else v) _ s L hs hinj
  · intro x hx
    funext v
    have hD : (List.range nT).map (fun K' => log_R_K_i (K' * n + M2 x) - b2 (K' * L + x))
        = (List.range nT).map (fun K' => log_R_K_i (K' * n + M (s x)) - b (K' * L + s x)) :=
      List.map_congr_left (fun K' hK' => by
        rw [hM x hx, hb K' (List.mem_range.mp hK') x hx])
    rw [hD, hM x hx]
  · intro x y v
    exact Dbl.acc_ite_comm _ _ v _ _

/-- C16. Frame-order independence.  Let `s` map the frame indices `0 .. L-1` one-to-one
into themselves, and let the trajectory `(M2, b2)` be the trajectory `(M, b)` with
the frames in the order `s`: `M2[x] = M[s x]`, `b2[K][x] = b[K][s x]`.  Then, with all
other inputs unchanged (any values, any dimensions, any `K_target`),
`_iterate_fki` leaves the same `log_R_K_i`, the same `new_f_K_i` and the same
`scratch_M` on both trajectories, and `_f_ground_state` leaves the same `f_ground_i`
and the same `scratch_M`. -/
theorem frame_order_independence (PRIOR LOG_PRIOR : Dbl) (log_nu_K_i f_K_i : Nat → Dbl)
    (C_K_ij : Nat → Int) (b b2 : Nat → Dbl) (M M2 : Nat → Nat) (N_K_i : Nat → Int)
    (L nT n K_target : Nat) (log_R_K_i scratch_M scratch_T new_f_K_i f_ground_i : Nat → Dbl)
    (s : Nat → Nat)
    (hs : ∀ x < L, s x < L) (hinj : ∀ x < L, ∀ y < L, s x = s y → x = y)
    (hM : ∀ x < L, M2 x = M (s x))
    (hb : ∀ K < nT, ∀ x < L, b2 (K * L + x) = b (K * L + s x)) :
    ((_iterate_fki PRIOR LOG_PRIOR log_nu_K_i f_K_i C_K_ij b2 M2 N_K_i L log_R_K_i nT n
        scratch_M scratch_T new_f_K_i K_target).log_R_K_i
      = (_iterate_fki PRIOR LOG_PRIOR log_nu_K_i f_K_i C_K_ij b M N_K_i L log_R_K_i nT n
        scratch_M scratch_T new_f_K_i K_target).log_R_K_i)
    ∧ ((_iterate_fki PRIOR LOG_PRIOR log_nu_K_i f_K_i C_K_ij b2 M2 N_K_i L log_R_K_i nT n
        scratch_M scratch_T new_f_K_i K_target).new_f_K_i
      = (_iterate_fki PRIOR LOG_PRIOR log_nu_K_i f_K_i C_K_ij b M N_K_i L log_R_K_i nT n
        scratch_M scratch_T new_f_K_i K_target).new_f_K_i)
    ∧ ((_iterate_fki PRIOR LOG_PRIOR log_nu_K_i f_K_i C_K_ij b2 M2 N_K_i L log_R_K_i nT n
        scratch_M scratch_T new_f_K_i K_target).scratch_M
      = (_iterate_fki PRIOR LOG_PRIOR log_nu_K_i f_K_i C_K_ij b M N_K_i L log_R_K_i nT n
        scratch_M scratch_T new_f_K_i K_target).scratch_M)
    ∧ ((_f_ground_state b2 M2 L log_R_K_i nT n scratch_M scratch_T f_ground_i).f_ground_i
      = (_f_ground_state b M L log_R_K_i nT n scratch_M scratch_T f_ground_i).f_ground_i)
    ∧ ((_f_ground_state b2 M2 L log_R_K_i nT n scratch_M scratch_T f_ground_i).scratch_M
      = (_f_ground_state b M L log_R_K_i nT n scratch_M scratch_T f_ground_i).scratch_M) := by
  have h1 := fun lR nf => fki_frames_perm b b2 M M2 L lR nT n scratch_T scratch_T nf s
    hs hinj hM hb
  have h2 := fun fg => f_ground_frames_perm b b2 M M2 L log_R_K_i nT n scratch_T scratch_T fg s
    hs hinj hM hb
  refine ⟨rfl, ?_, ?_, ?_, ?_⟩
  · unfold _iterate_fki
    simp only [h1]
  · unfold _iterate_fki
    simp only [h1]
  · unfold _f_ground_state
    simp only [h2]
  · unfold _f_ground_state
    simp only [h2]

/-- A concrete instance of C16: one ensemble, two states, and the two frames of a
trajectory exchanged. -/
theorem frame_order_independence_witness :
    (_iterate_fki (Dbl.fin 1) (Dbl.fin 0) (fun _ => Dbl.fin 0) (fun _ => Dbl.fin 0)
        (fun _ => 1) (fun q => Dbl.fin (((q + 1) % 2 : Nat) : ℝ)) (fun x => (1 - x) % 2)
        (fun _ => 2) 2 (fun _ => Dbl.nan) 1 2
        (fun _ => Dbl.nan) (fun _ => Dbl.nan) (fun _ => Dbl.nan) 0).new_f_K_i
      = (_iterate_fki (Dbl.fin 1) (Dbl.fin 0) (fun _ => Dbl.fin 0) (fun _ => Dbl.fin 0)
        (fun _ => 1) (fun q => Dbl.fin ((q % 2 : Nat) : ℝ)) (fun x => x % 2)
        (fun _ => 2) 2 (fun _ => Dbl.nan) 1 2
        (fun _ => Dbl.nan) (fun _ => Dbl.nan) (fun _ => Dbl.nan) 0).new_f_K_i :=
  (frame_order_independence (Dbl.fin 1) (Dbl.fin 0) (fun _ => Dbl.fin 0) (fun _ => Dbl.fin 0)
    (fun _ => 1) (fun q => Dbl.fin ((q % 2 : Nat) : ℝ))
    (fun q => Dbl.fin (((q + 1) % 2 : Nat) : ℝ)) (fun x => x % 2) (fun x => (1 - x) % 2)
    (fun _ => 2) 2 1 2 0 (fun _ => Dbl.nan) (fun _ => Dbl.nan) (fun _ => Dbl.nan)
    (fun _ => Dbl.nan) (fun _ => Dbl.nan) (fun x => 1 - x)
    (fun x _ => by show 1 - x < 2; omega)
    (fun x hx y hy h => by
      have h2 : 1 - x = 1 - y := h
      omega)
    (fun x hx => by interval_cases x <;> rfl)
    (fun K hK x hx => by
      interval_cases K
      interval_cases x <;> rfl)).2.1

/-! ## The arguments of `log` -/

namespace Traced

@[simp] lemma add_val (a b : Traced) : (a + b).val = Dbl.add a.val b.val := rfl
@[simp] lemma add_logArgs (a b : Traced) : (a + b).logArgs = a.logArgs ++ b.logArgs := rfl
@[simp] lemma sub_logArgs (a b : Traced) : (a - b).logArgs = a.logArgs ++ b.logArgs := rfl
@[simp] lemma neg_logArgs (a : Traced) : (-a).logArgs = a.logArgs := rfl
@[simp] lemma ofInt_val (z : Int) : (CDouble.ofInt z : Traced).val = Dbl.fin (z : ℝ) := rfl
@[simp] lemma ofInt_logArgs (z : Int) : (CDouble.ofInt z : Traced).logArgs = [] := rfl
@[simp] lemma log_logArgs (a : Traced) : (CDouble.log a).logArgs = a.logArgs ++ [a.val] := rfl
@[simp] lemma inf_logArgs : (CDouble.INFINITY : Traced).logArgs = [] := rfl
@[simp] lemma lsep_logArgs (a b : Traced) :
    (CDouble._logsumexp_pair a b).logArgs = a.logArgs ++ b.logArgs := rfl
@[simp] lemma input_val (v : Dbl) : (Traced.input v).val = v := rfl
@[simp] lemma input_logArgs (v : Dbl) : (Traced.input v).logArgs = [] := rfl

lemma lse_eq (a : Nat → Traced) (n : Nat) :
    CDouble._logsumexp a n = lseList ((List.range n).map a) := by
  show (⟨Dbl.logsumexp (fun k => (a k).val) n,
    ((List.range n).map (fun k => (a k).logArgs)).flatten⟩ : Traced) = _
  unfold lseList Dbl.logsumexp Dbl.sumExp
  simp only [List.map_map]
  rfl

lemma allPositive_of_nil {t : Traced} (h : t.logArgs = []) : t.allPositive := by
  intro a ha
  rw [h] at ha
  exact absurd ha (List.not_mem_nil a)

lemma allPositive_append {t : Traced} {l1 l2 : List Dbl} (h : t.logArgs = l1 ++ l2)
    (h1 : ∀ a ∈ l1, ∃ r : ℝ, 0 < r ∧ a = Dbl.fin r)
    (h2 : ∀ a ∈ l2, ∃ r : ℝ, 0 < r ∧ a = Dbl.fin r) : t.allPositive := by
  intro a ha
  rw [h] at ha
  rcases List.mem_append.mp ha with ha | ha
  · exact h1 a ha
  · exact h2 a ha

lemma allPositive_add {a b : Traced} (ha : a.allPositive) (hb : b.allPositive) :
    (a + b).allPositive := allPositive_append rfl ha hb

lemma allPositive_sub {a b : Traced} (ha : a.allPositive) (hb : b.allPositive) :
    (a - b).allPositive := allPositive_append rfl ha hb

lemma allPositive_lsep {a b : Traced} (ha : a.allPositive) (hb : b.allPositive) :
    (CDouble._logsumexp_pair a b).allPositive := allPositive_append rfl ha hb

lemma allPositive_neg {a : Traced} (ha : a.allPositive) : (-a).allPositive := ha

lemma allPositive_input (v : Dbl) : (Traced.input v).allPositive := allPositive_of_nil rfl

lemma allPositive_log {a : Traced} (ha : a.allPositive) (r : ℝ) (hr : 0 < r)
    (hv : a.val = Dbl.fin r) : (CDouble.log a).allPositive :=
  allPositive_append rfl ha (fun x hx => by
    rw [List.mem_singleton.mp hx, hv]
    exact ⟨r, hr, rfl⟩)

lemma allPositive_lseList (l : List Traced) (h : ∀ t ∈ l, t.allPositive) :
    (lseList l).allPositive := by
  intro a ha
  obtain ⟨as, has, haas⟩ := List.mem_flatten.mp ha
  obtain ⟨t, ht, rfl⟩ := List.mem_map.mp has
  exact h t ht a haas

/-- The call `log(PRIOR + (double) c)` for a count `c ≥ 0`. -/
lemma allPositive_log_prior (prior : ℝ) (hprior : 0 < prior) (c : Int) (hc : 0 ≤ c) :
    (CDouble.log (Traced.input (Dbl.fin prior) + CDouble.ofInt c)).allPositive := by
  have hc' : (0 : ℝ) ≤ (c : ℝ) := by exact_mod_cast hc
  exact allPositive_log (allPositive_add (allPositive_input _) (allPositive_of_nil rfl))
    (prior + (c : ℝ)) (by linarith) rfl

/-- The call `log((double) c)` for an integer `c > 0`. -/
lemma allPositive_log_ofInt (c : Int) (hc : 0 < c) :
    (CDouble.log (CDouble.ofInt c : Traced)).allPositive := by
  have hc' : (0 : ℝ) < (c : ℝ) := by exact_mod_cast hc
  exact allPositive_log (allPositive_of_nil rfl) (c : ℝ) hc' rfl

end Traced

/-- The cell `(K, i)` of `new_log_nu_K_i` after `_iterate_lognu`, for a carrier whose
`_logsumexp(a, n)` is a function `lseL` of the list `a[0], ..., a[n-1]`. -/
lemma iterate_lognu_apply_list {α : Type} [CDouble α] (lseL : List α → α)
    (hl : ∀ (a : Nat → α) (m : Nat), _logsumexp a m = lseL ((List.range m).map a))
    (PRIOR LOG_PRIOR : α) (log_nu_K_i f_K_i : Nat → α)
    (C_K_ij : Nat → Int) (nT n : Nat) (scratch_M new_log_nu_K_i : Nat → α)
    (K i : Nat) (hK : K < nT) (hi : i < n) :
    (_iterate_lognu PRIOR LOG_PRIOR log_nu_K_i f_K_i C_K_ij nT n scratch_M
      new_log_nu_K_i).2 (K * n + i)
    = lseL ((List.range n).filterMap
        (lognuTerm PRIOR LOG_PRIOR log_nu_K_i f_K_i C_K_ij n (K * n) (K * n * n) i)) := by
  have hscr : ∀ (KM KMM i : Nat) (s : Nat → α),
      _logsumexp
        (_iterate_lognu_scratch PRIOR LOG_PRIOR log_nu_K_i f_K_i C_K_ij n KM KMM i s).1
        (_iterate_lognu_scratch PRIOR LOG_PRIOR log_nu_K_i f_K_i C_K_ij n KM KMM i s).2
      = lseL ((List.range n).filterMap
          (lognuTerm PRIOR LOG_PRIOR log_nu_K_i f_K_i C_K_ij n KM KMM i)) := by
    intro KM KMM i s
    have h : _iterate_lognu_scratch PRIOR LOG_PRIOR log_nu_K_i f_K_i C_K_ij n KM KMM i s
        = (List.range n).foldl (fun st j => pushOpt st
            (lognuTerm PRIOR LOG_PRIOR log_nu_K_i f_K_i C_K_ij n KM KMM i j)) (s, 0) := by
      unfold _iterate_lognu_scratch
      congr 1
      funext st j
      exact iterate_lognu_j_eq _ _ _ _ _ _ _ _ _ st j
    rw [h, hl, foldl_pushOpt_zero]
  unfold _iterate_lognu
  rw [foldl_proj Prod.snd _ (fun out K => (List.range n).foldl (fun out i =>
    Function.update out (K * n + i) (lseL ((List.range n).filterMap
      (lognuTerm PRIOR LOG_PRIOR log_nu_K_i f_K_i C_K_ij n (K * n) (K * n * n) i)))) out)]
  · exact foldl_grid_apply (fun K i _ => lseL ((List.range n).filterMap
      (lognuTerm PRIOR LOG_PRIOR log_nu_K_i f_K_i C_K_ij n (K * n) (K * n * n) i)))
      nT n new_log_nu_K_i K i hK hi
  · intro st K
    apply foldl_proj Prod.snd
    intro st i
    simp only [hscr]

/-- The cell `(K, i)` of `log_R_K_i` after step 1 of `_iterate_fki`, for a carrier whose
`_logsumexp(a, n)` is a function `lseL` of the list `a[0], ..., a[n-1]`. -/
lemma iterate_fki_R_apply_list {α : Type} [CDouble α] (lseL : List α → α)
    (hl : ∀ (a : Nat → α) (m : Nat), _logsumexp a m = lseL ((List.range m).map a))
    (PRIOR LOG_PRIOR : α) (log_nu_K_i f_K_i : Nat → α)
    (C_K_ij : Nat → Int) (N_K_i : Nat → Int) (nT n : Nat) (scratch_M log_R_K_i : Nat → α)
    (K i : Nat) (hK : K < nT) (hi : i < n) :
    (_iterate_fki_R PRIOR LOG_PRIOR log_nu_K_i f_K_i C_K_ij N_K_i nT n scratch_M
      log_R_K_i).2 (K * n + i)
    = _logsumexp_pair
        (lseL ((List.range n).filterMap
          (fkiTerm PRIOR LOG_PRIOR log_nu_K_i f_K_i C_K_ij n (K * n) (K * n * n) i)))
        (if 0 < fkiNC C_K_ij N_K_i n K i
          then log (ofInt (fkiNC C_K_ij N_K_i n K i)) + f_K_i (K * n + i)
          else -INFINITY) := by
  have hscr : ∀ (KM KMM i : Nat) (s : Nat → α),
      _logsumexp
        (_iterate_fki_scratch PRIOR LOG_PRIOR log_nu_K_i f_K_i C_K_ij n KM KMM i s).1
        (_iterate_fki_scratch PRIOR LOG_PRIOR log_nu_K_i f_K_i C_K_ij n KM KMM i s).2.1
      = lseL ((List.range n).filterMap
          (fkiTerm PRIOR LOG_PRIOR log_nu_K_i f_K_i C_K_ij n KM KMM i)) := by
    intro KM KMM i s
    have h := (iterate_fki_scratch_eq PRIOR LOG_PRIOR log_nu_K_i f_K_i C_K_ij n KM KMM i s).1
    have h1 := congrArg Prod.fst h
    have h2 := congrArg Prod.snd h
    simp only at h1 h2
    rw [h1, h2, hl, foldl_pushOpt_zero]
  unfold _iterate_fki_R
  rw [foldl_proj Prod.snd _ (fun out K => (List.range n).foldl (fun out i =>
    Function.update out (K * n + i) (_logsumexp_pair
        (lseL ((List.range n).filterMap
          (fkiTerm PRIOR LOG_PRIOR log_nu_K_i f_K_i C_K_ij n (K * n) (K * n * n) i)))
        (if 0 < fkiNC C_K_ij N_K_i n K i
          then log (ofInt (fkiNC C_K_ij N_K_i n K i)) + f_K_i (K * n + i)
          else -INFINITY))) out)]
  · exact foldl_grid_apply (fun K i _ => _logsumexp_pair
        (lseL ((List.range n).filterMap
          (fkiTerm PRIOR LOG_PRIOR log_nu_K_i f_K_i C_K_ij n (K * n) (K * n * n) i)))
        (if 0 < fkiNC C_K_ij N_K_i n K i
          then log (ofInt (fkiNC C_K_ij N_K_i n K i)) + f_K_i (K * n + i)
          else -INFINITY))
      nT n log_R_K_i K i hK hi
  · intro st K
    apply foldl_proj Prod.snd
    intro st i
    simp only [hscr, (iterate_fki_scratch_eq _ _ _ _ _ _ _ _ _ _).2, fkiNC]

/-- Every value that the `j` loop of `_iterate_lognu` appends records positive arguments
of `log` only, when the two counts it reads are non-negative and their sum fits in an
`int`. -/
lemma lognuTerm_allPositive (prior : ℝ) (hprior : 0 < prior) (LOG_PRIOR : Dbl)
    (log_nu_K_i f_K_i : Nat → Dbl) (C_K_ij : Nat → Int) (n KM KMM i j : Nat)
    (h1 : 0 ≤ C_K_ij (KMM + i * n + j)) (h2 : 0 ≤ C_K_ij (KMM + j * n + i))
    (h3 : i ≠ j → C_K_ij (KMM + i * n + j) + C_K_ij (KMM + j * n + i) ≤ 2147483647)
    (t : Traced)
    (ht : lognuTerm (Traced.input (Dbl.fin prior)) (Traced.input LOG_PRIOR)
      (fun p => Traced.input (log_nu_K_i p)) (fun p => Traced.input (f_K_i p)) C_K_ij
      n KM KMM i j = some t) : t.allPositive := by
  unfold lognuTerm at ht
  by_cases hij : i = j
  · rw [if_pos hij] at ht
    cases ht
    by_cases h0 : 0 = C_K_ij (KMM + i * n + j)
    · rw [if_pos h0]
      exact Traced.allPositive_input _
    · rw [if_neg h0]
      exact Traced.allPositive_log_prior prior hprior _ h1
  · rw [if_neg hij, wrapInt_add_counts h1 h2 (h3 hij)] at ht
    by_cases h0 : 0 = C_K_ij (KMM + i * n + j) + C_K_ij (KMM + j * n + i)
    · rw [if_pos h0] at ht
      cases ht
    · rw [if_neg h0] at ht
      cases ht
      exact Traced.allPositive_sub (Traced.allPositive_sub (Traced.allPositive_add
          (Traced.allPositive_log_ofInt _ (by omega)) (Traced.allPositive_input _))
          (Traced.allPositive_input _))
        (Traced.allPositive_lsep
          (Traced.allPositive_sub (Traced.allPositive_input _) (Traced.allPositive_input _))
          (Traced.allPositive_sub (Traced.allPositive_input _) (Traced.allPositive_input _)))

/-- Every value that the `j` loop of step 1 of `_iterate_fki` appends records positive
arguments of `log` only, when the two counts it reads are non-negative and their sum
fits in an `int`. -/
lemma fkiTerm_allPositive (prior : ℝ) (hprior : 0 < prior) (LOG_PRIOR : Dbl)
    (log_nu_K_i f_K_i : Nat → Dbl) (C_K_ij : Nat → Int) (n KM KMM i j : Nat)
    (h1 : 0 ≤ C_K_ij (KMM + i * n + j)) (h2 : 0 ≤ C_K_ij (KMM + j * n + i))
    (h3 : i ≠ j → C_K_ij (KMM + i * n + j) + C_K_ij (KMM + j * n + i) ≤ 2147483647)
    (t : Traced)
    (ht : fkiTerm (Traced.input (Dbl.fin prior)) (Traced.input LOG_PRIOR)
      (fun p => Traced.input (log_nu_K_i p)) (fun p => Traced.input (f_K_i p)) C_K_ij
      n KM KMM i j = some t) : t.allPositive := by
  unfold fkiTerm at ht
  by_cases hij : i = j
  · rw [if_pos hij] at ht
    cases ht
    apply Traced.allPositive_add _ (Traced.allPositive_input _)
    by_cases h0 : 0 = C_K_ij (KMM + i * n + j)
    · rw [if_pos h0]
      exact Traced.allPositive_input _
    · rw [if_neg h0]
      exact Traced.allPositive_log_prior prior hprior _ h1
  · rw [if_neg hij, wrapInt_add_counts h1 h2 (h3 hij)] at ht
    by_cases h0 : 0 = C_K_ij (KMM + i * n + j) + C_K_ij (KMM + j * n + i)
    · rw [if_pos h0] at ht
      cases ht
    · rw [if_neg h0] at ht
      cases ht
      exact Traced.allPositive_sub (Traced.allPositive_add
          (Traced.allPositive_log_ofInt _ (by omega)) (Traced.allPositive_input _))
        (Traced.allPositive_lsep
          (Traced.allPositive_sub (Traced.allPositive_input _) (Traced.allPositive_input _))
          (Traced.allPositive_sub (Traced.allPositive_input _) (Traced.allPositive_input _)))

/-- The tracing records a call of `log` on a number that is not positive: with one
ensemble, one state, the count `-2` and prior `1`, the `log` of `_set_lognu` and the
`log` on the diagonal of `_iterate_lognu` receive `-1`. -/
lemma traced_negative_count (buf : Nat → Traced) :
    (_set_lognu (Traced.input (Dbl.fin 1)) buf (fun _ => -2) 1 1 (0 * 1 + 0)).logArgs
      = [Dbl.fin (1 + ((-2 : Int) : ℝ))]
    ∧ ((_iterate_lognu (Traced.input (Dbl.fin 1)) (Traced.input (Dbl.fin 0))
        (fun _ => Traced.input (Dbl.fin 0)) (fun _ => Traced.input (Dbl.fin 0))
        (fun _ => -2) 1 1 buf buf).2 (0 * 1 + 0)).logArgs
      = [Dbl.fin (1 + ((-2 : Int) : ℝ))] := by
  constructor
  · rw [set_lognu_apply_int _ _ _ 1 1 0 0 (by decide) (by decide)]
    have hsum : intSum (fun j => (fun _ => (-2 : Int)) (0 * (1 * 1) + 0 * 1 + j)) 1 = -2 := by
      decide
    rw [hsum]
    rfl
  · rw [iterate_lognu_apply_list Traced.lseList Traced.lse_eq _ _ _ _ _ 1 1 _ _ 0 0
      (by decide) (by decide)]
    simp [List.range_succ, lognuTerm, Traced.lseList]

/-- C14 as stated fails when the counts do not fit in an `int`.  With one ensemble, two
states, prior `1` and the non-negative counts `C = [[2147483647, 1], [0, 0]]`, the
variable `sum` of `_set_lognu` wraps and `log` receives `1 - 2147483648`, a negative
number.  With `C = [[0, 1073741824], [1073741824, 0]]`, `CK` wraps to `-2147483648` and
the `log((double) CK)` of `_iterate_lognu` receives it. -/
theorem log_arguments_positive_overflow :
    ((∀ q, (0 : Int) ≤ ([2147483647, 1, 0, 0] : List Int).getD q 0)
      ∧ (_set_lognu (Traced.input (Dbl.fin 1)) (fun _ => Traced.input Dbl.nan)
          (fun q => ([2147483647, 1, 0, 0] : List Int).getD q 0) 1 2 (0 * 2 + 0)).logArgs
        = [Dbl.fin (1 + ((-2147483648 : Int) : ℝ))]
      ∧ ¬ (_set_lognu (Traced.input (Dbl.fin 1)) (fun _ => Traced.input Dbl.nan)
          (fun q => ([2147483647, 1, 0, 0] : List Int).getD q 0) 1 2
          (0 * 2 + 0)).allPositive)
    ∧ ((∀ q, (0 : Int) ≤ ([0, 1073741824, 1073741824, 0] : List Int).getD q 0)
      ∧ Dbl.fin ((-2147483648 : Int) : ℝ)
        ∈ ((_iterate_lognu (Traced.input (Dbl.fin 1)) (Traced.input (Dbl.fin 0))
          (fun _ => Traced.input (Dbl.fin 0)) (fun _ => Traced.input (Dbl.fin 0))
          (fun q => ([0, 1073741824, 1073741824, 0] : List Int).getD q 0) 1 2
          (fun _ => Traced.input Dbl.nan) (fun _ => Traced.input Dbl.nan)).2
          (0 * 2 + 0)).logArgs
      ∧ ¬ ((_iterate_lognu (Traced.input (Dbl.fin 1)) (Traced.input (Dbl.fin 0))
          (fun _ => Traced.input (Dbl.fin 0)) (fun _ => Traced.input (Dbl.fin 0))
          (fun q => ([0, 1073741824, 1073741824, 0] : List Int).getD q 0) 1 2
          (fun _ => Traced.input Dbl.nan) (fun _ => Traced.input Dbl.nan)).2
          (0 * 2 + 0)).allPositive) := by
  have hneg : ∀ z : Int, z < 0 → ¬ ∃ r : ℝ, 0 < r ∧ Dbl.fin ((z : Int) : ℝ) = Dbl.fin r := by
    rintro z hz ⟨r, hr, h⟩
    have hz' : ((z : Int) : ℝ) < 0 := by exact_mod_cast hz
    have : ((z : Int) : ℝ) = r := by injection h
    linarith
  have h1 : (_set_lognu (Traced.input (Dbl.fin 1)) (fun _ => Traced.input Dbl.nan)
      (fun q => ([2147483647, 1, 0, 0] : List Int).getD q 0) 1 2 (0 * 2 + 0)).logArgs
      = [Dbl.fin (1 + ((-2147483648 : Int) : ℝ))] := by
    rw [set_lognu_apply_int _ _ _ 1 2 0 0 (by decide) (by decide)]
    have hsum : intSum (fun j => (fun q => ([2147483647, 1, 0, 0] : List Int).getD q 0)
        (0 * (2 * 2) + 0 * 2 + j)) 2 = -2147483648 := by decide
    rw [hsum]
    rfl
  have h2 : Dbl.fin ((-2147483648 : Int) : ℝ)
      ∈ ((_iterate_lognu (Traced.input (Dbl.fin 1)) (Traced.input (Dbl.fin 0))
        (fun _ => Traced.input (Dbl.fin 0)) (fun _ => Traced.input (Dbl.fin 0))
        (fun q => ([0, 1073741824, 1073741824, 0] : List Int).getD q 0) 1 2
        (fun _ => Traced.input Dbl.nan) (fun _ => Traced.input Dbl.nan)).2
        (0 * 2 + 0)).logArgs := by
    rw [iterate_lognu_apply_list Traced.lseList Traced.lse_eq _ _ _ _ _ 1 2 _ _ 0 0
      (by decide) (by decide)]
    have hck : wrapInt (1073741824 + 1073741824) = -2147483648 := by decide
    have hck2 : wrapInt 2147483648 = -2147483648 := by decide
    simp [List.range_succ, lognuTerm, Traced.lseList, hck, hck2]
  refine ⟨⟨?_, h1, ?_⟩, ?_, h2, ?_⟩
  · intro q
    rcases q with _ | _ | _ | _ | q <;> simp
  · intro hall
    obtain ⟨r, hr, h⟩ := hall (Dbl.fin (1 + ((-2147483648 : Int) : ℝ)))
      (by rw [h1]; exact List.mem_singleton.mpr rfl)
    have : (1 : ℝ) + ((-2147483648 : Int) : ℝ) = r := by injection h
    have hlt : (1 : ℝ) + ((-2147483648 : Int) : ℝ) < 0 := by norm_num
    linarith
  · intro q
    rcases q with _ | _ | _ | _ | q <;> simp
  · intro hall
    exact hneg (-2147483648) (by decide) (hall _ h2)

/-- C14, amended.  Run on traced values, with a positive prior, non-negative counts
whose row sums and symmetrized counts (`i ≠ j`) fit in an `int`, any `N` and any values of `log_nu`, `f` and `LOG_PRIOR` (NaN and infinities included) and any
initial contents of the buffers: every cell `(K, i)` that `_set_lognu` writes records
exactly one argument of `log`, the positive number `prior + Σ_j C[K][i][j]`, and every
argument of `log` recorded in the cells `new_log_nu[K][i]` of `_iterate_lognu` and
`log_R[K][i]` of `_iterate_fki` is a real number above zero.  Every call of `log` of
the three functions is behind one of these cells. -/
theorem log_arguments_positive (prior : ℝ) (hprior : 0 < prior) (LOG_PRIOR : Dbl)
    (log_nu_K_i f_K_i b_K_x : Nat → Dbl) (C_K_ij N_K_i : Nat → Int) (M_x : Nat → Nat)
    (L nT n K_target : Nat)
    (buf scratch_M scratch_T new_log_nu_K_i log_R_K_i new_f_K_i : Nat → Traced)
    (hC : ∀ K < nT, ∀ i < n, ∀ j < n, 0 ≤ C_K_ij (K * n * n + i * n + j))
    (hrow : ∀ K < nT, ∀ i < n,
      ∑ j ∈ Finset.range n, C_K_ij (K * (n * n) + i * n + j) ≤ 2147483647)
    (hpair : ∀ K < nT, ∀ i < n, ∀ j < n, i ≠ j →
      C_K_ij (K * n * n + i * n + j) + C_K_ij (K * n * n + j * n + i) ≤ 2147483647)
    (K i : Nat) (hK : K < nT) (hi : i < n) :
    ((_set_lognu (Traced.input (Dbl.fin prior)) buf C_K_ij nT n (K * n + i)).logArgs
        = [Dbl.fin (prior
            + ((∑ j ∈ Finset.range n, C_K_ij (K * (n * n) + i * n + j) : Int) : ℝ))]
      ∧ 0 < prior + ((∑ j ∈ Finset.range n, C_K_ij (K * (n * n) + i * n + j) : Int) : ℝ))
    ∧ ((_iterate_lognu (Traced.input (Dbl.fin prior)) (Traced.input LOG_PRIOR)
        (fun p => Traced.input (log_nu_K_i p)) (fun p => Traced.input (f_K_i p)) C_K_ij
        nT n scratch_M new_log_nu_K_i).2 (K * n + i)).allPositive
    ∧ ((_iterate_fki (Traced.input (Dbl.fin prior)) (Traced.input LOG_PRIOR)
        (fun p => Traced.input (log_nu_K_i p)) (fun p => Traced.input (f_K_i p)) C_K_ij
        (fun p => Traced.input (b_K_x p)) M_x N_K_i L log_R_K_i nT n scratch_M scratch_T
        new_f_K_i K_target).log_R_K_i (K * n + i)).allPositive := by
  refine ⟨⟨?_, ?_⟩, ?_, ?_⟩
  · rw [set_lognu_apply _ _ _ nT n K i hK hi
      (fun j hj => by rw [← Nat.mul_assoc]; exact hC K hK i hi j hj) (hrow K hK i hi)]
    rfl
  · have hsum : (0 : Int) ≤ ∑ j ∈ Finset.range n, C_K_ij (K * (n * n) + i * n + j) :=
      Finset.sum_nonneg (fun j hj => by
        have := hC K hK i hi j (Finset.mem_range.mp hj)
        rwa [Nat.mul_assoc] at this)
    have hsum' : (0 : ℝ)
        ≤ ((∑ j ∈ Finset.range n, C_K_ij (K * (n * n) + i * n + j) : Int) : ℝ) := by
      exact_mod_cast hsum
    linarith
  · rw [iterate_lognu_apply_list Traced.lseList Traced.lse_eq _ _ _ _ _ nT n _ _ K i hK hi]
    apply Traced.allPositive_lseList
    intro t ht
    obtain ⟨j, hj, hjt⟩ := List.mem_filterMap.mp ht
    have hj' := List.mem_range.mp hj
    exact lognuTerm_allPositive prior hprior LOG_PRIOR log_nu_K_i f_K_i C_K_ij n (K * n)
      (K * n * n) i j (hC K hK i hi j hj') (hC K hK j hj' i hi)
        (hpair K hK i hi j hj') t hjt
  · show ((_iterate_fki_R _ _ _ _ _ _ _ _ scratch_M log_R_K_i).2 (K * n + i)).allPositive
    rw [iterate_fki_R_apply_list Traced.lseList Traced.lse_eq _ _ _ _ _ _ nT n _ _ K i hK hi]
    apply Traced.allPositive_lsep
    · apply Traced.allPositive_lseList
      intro t ht
      obtain ⟨j, hj, hjt⟩ := List.mem_filterMap.mp ht
      have hj' := List.mem_range.mp hj
      exact fkiTerm_allPositive prior hprior LOG_PRIOR log_nu_K_i f_K_i C_K_ij n (K * n)
        (K * n * n) i j (hC K hK i hi j hj') (hC K hK j hj' i hi)
        (hpair K hK i hi j hj') t hjt
    · by_cases hNC : 0 < fkiNC C_K_ij N_K_i n K i
      · rw [if_pos hNC]
        exact Traced.allPositive_add (Traced.allPositive_log_ofInt _ hNC)
          (Traced.allPositive_input _)
      · rw [if_neg hNC]
        exact Traced.allPositive_neg (Traced.allPositive_of_nil rfl)

/-- A concrete instance of the amended C14: one ensemble, two states,
`C = [[1, 0], [2, 3]]`, `N = 7`. -/
theorem log_arguments_positive_witness :
    (∀ K < 1, ∀ i < 2, ∀ j < 2,
        (0 : Int) ≤ (fun q => ([1, 0, 2, 3] : List Int).getD q 0) (K * 2 * 2 + i * 2 + j))
    ∧ ((_iterate_fki (Traced.input (Dbl.fin 1)) (Traced.input (Dbl.fin 0))
        (fun p => Traced.input ((fun _ => Dbl.fin 0) p))
        (fun p => Traced.input ((fun _ => Dbl.fin 0) p))
        (fun q => ([1, 0, 2, 3] : List Int).getD q 0)
        (fun p => Traced.input ((fun _ => Dbl.fin 0) p)) (fun x => x % 2) (fun _ => 7) 2
        (fun _ => Traced.input Dbl.nan) 1 2 (fun _ => Traced.input Dbl.nan)
        (fun _ => Traced.input Dbl.nan) (fun _ => Traced.input Dbl.nan)
        0).log_R_K_i (0 * 2 + 1)).allPositive :=
  ⟨fun K hK i hi j hj => by
      interval_cases K
      interval_cases i <;> interval_cases j <;> decide,
   (log_arguments_positive 1 one_pos (Dbl.fin 0) (fun _ => Dbl.fin 0) (fun _ => Dbl.fin 0)
    (fun _ => Dbl.fin 0) (fun q => ([1, 0, 2, 3] : List Int).getD q 0) (fun _ => 7)
    (fun x => x % 2) 2 1 2 0 (fun _ => Traced.input Dbl.nan) (fun _ => Traced.input Dbl.nan)
    (fun _ => Traced.input Dbl.nan) (fun _ => Traced.input Dbl.nan)
    (fun _ => Traced.input Dbl.nan) (fun _ => Traced.input Dbl.nan)
    (fun K hK i hi j hj => by
      interval_cases K
      interval_cases i <;> interval_cases j <;> decide)
    (fun K hK i hi => by
      interval_cases K
      interval_cases i <;> decide)
    (fun K hK i hi j hj _ => by
      interval_cases K
      interval_cases i <;> interval_cases j <;> decide)
    0 1 (by decide) (by decide)).2.2⟩

/-! ## Array bounds -/

section Bounds

variable {α : Type} [CDouble α]

end Bounds

/-- The checks notice a scratch buffer that is too short: with one ensemble, one state
and an empty `scratch_M`, the store `scratch_M[o++]` of the diagonal pass is outside the
buffer. -/
lemma iterate_lognu_checked_short_scratch :
    _iterate_lognu_checked (Dbl.fin 1) (Dbl.fin 0) #[Dbl.fin 0] #[Dbl.fin 0] #[0] 1 1
      #[] #[Dbl.fin 0] = none := by
  rfl

